import Mathlib

/-!
# First element above a threshold, colour correction and chunking

A shallow embedding of `SequentialSolver::solve` (task3_openmp/src/sequential_solver.hpp),
of `ParallelSolver` from task1_std_threads/src/parallel_solver.hpp (namespace `StdThreads`),
of `ParallelSolver` from task3_openmp/src/parallel_solver.hpp (namespace `OpenMP`), of the
colour correctors and `get_filename_without_ext` of task2_intrinsics (namespace
`Intrinsics`) and of the index ranges of task4_mpi/main.cpp (namespace `MPI`).

Conventions of the embedding
* `std::vector<T>` is a `List α`; `T` is any linearly ordered type.
* `std::size_t` values are `Nat` (every index that occurs is below the vector's size),
  `int` values are `Int`, and the one narrowing conversion of the source,
  `static_cast<int>(...)`, wraps to 32 bits.
* A call that does not return a value ends in a `Fault`; creating a thread always succeeds.
* The threads of one `solve` call are a pool of workers stepped by a schedule, one guarded
  section of `worker_thread` per step.
* In task2_intrinsics `F` stands for `float` and `mul` for its multiplication, the same
  operation in scalar code and in every lane of `_mm256_mul_ps`. All buffers live in one
  memory, a `List F`; a pointer is the address of the first value of its allocation together
  with the number of values allocated, and an access outside the allocation is a `Fault`.
  The input and the output image of `apply` are passed by reference and may be one object.
  The `int` operations whose exact value can leave the range of `int` (the product of
  `Image::size`, the index sums, `size - 24`) yield that value modulo `2^32`, read in two's
  complement; a loop variable cannot leave that range before an index sum of the loop body
  does, and the access at such an index is a `Fault`. Alignment is not modelled.
* A `std::string` is a `List Char`.
* In task4_mpi the type `D` with a linear order stands for `double` (only comparisons occur),
  the two sentinels are parameters, and `MPI_Reduce` combines the local results of the ranks
  of a group in an arbitrary order.
-/

/-- The ways a call can end without returning a value. -/
inductive Fault where
  /-- The exception `std::length_error` of `std::vector::reserve` for a request above
  `max_size()`. -/
  | length_error
  /-- Integer division (or remainder) by zero. -/
  | division_by_zero
  /-- An `operator[]` applied to an index that is not below `size()`. -/
  | out_of_range
  /-- A `std::future::get` on a future whose promise never received a value. -/
  | broken_promise
  /-- A failed `assert`. -/
  | assertion_failed
  deriving DecidableEq, Repr

deriving instance DecidableEq for Except

set_option maxRecDepth 100000

/-- Conversion `static_cast<int>(n)` of an unsigned value to a 32 bit `int`:
the value modulo `2^32`, read in two's complement. -/
def static_cast_int (n : Nat) : Int :=
  if n % 2 ^ 32 < 2 ^ 31 then ((n % 2 ^ 32 : Nat) : Int) else ((n % 2 ^ 32 : Nat) : Int) - 2 ^ 32

/-- The value of `std::numeric_limits<std::size_t>::max()`. -/
def SIZE_MAX : Nat := 2 ^ 64 - 1

section Solvers

variable {α : Type} [LinearOrder α]

namespace SequentialSolver

/-- The loop `for (i = 0; i < arr.size(); i++) if (arr[i] > threshold) return arr[i];`
followed by `return std::nullopt;`, on the elements not yet visited. -/
def scan (threshold : α) : List α → Option α
  | [] => none
  | x :: rest => if x > threshold then some x else scan threshold rest

/-- Embedding of `SequentialSolver::solve`. -/
def solve (arr : List α) (threshold : α) : Option α :=
  if arr.isEmpty then none else scan threshold arr

end SequentialSolver

namespace StdThreads

/-- The struct `ParallelSolver::FutureResult`. -/
structure FutureResult where
  index : Option Nat := none
  exited_early : Bool := false
  deriving DecidableEq, Repr

/-- The data members of `ParallelSolver` (the mutex carries no data). -/
structure ParallelSolver where
  num_threads_ : Int
  global_min_index_ : Option Nat := none
  deriving DecidableEq, Repr

/-- The constructor `ParallelSolver(std::optional<int> num_threads)`;
`hc` is the value reported by `std::thread::hardware_concurrency()`. -/
def ParallelSolver.construct (num_threads : Option Int) (hc : Nat) : ParallelSolver :=
  match num_threads with
  | some v => { num_threads_ := v }
  | none => if hc = 0 then { num_threads_ := 2 } else { num_threads_ := static_cast_int hc }

/-- Control state of one thread running `worker_thread`. -/
inductive Worker where
  /-- At the head of the loop with loop variable `i`, before the test `i < end_idx`. -/
  | scanning (i end_idx : Nat)
  /-- Left the loop with `local_min_index = i`, before the guarded update. -/
  | found (local_min_index : Nat)
  /-- Returned after `result_promise.set_value(result)`. -/
  | finished (result : FutureResult)
  /-- Read `arr[i]` with `i` not below `arr.size()`. -/
  | crashed
  deriving DecidableEq, Repr

/-- The guarded test `global_min_index_.has_value() && global_min_index_.value() < i`. -/
def exit_early_test (global_min_index_ : Option Nat) (i : Nat) : Bool :=
  match global_min_index_ with
  | some v => decide (v < i)
  | none => false

/-- The guarded update
`if (!global_min_index_.has_value() || global_min_index_.value() > local) global_min_index_ = local`. -/
def update_global (global_min_index_ : Option Nat) (local_min_index : Nat) : Option Nat :=
  match global_min_index_ with
  | none => some local_min_index
  | some v => if v > local_min_index then some local_min_index else some v

/-- One step of `worker_thread`: from the loop head, one iteration (the guarded early-exit
test, then the comparison of `arr[i]` with the threshold); from `found`, the guarded update
and the return. The result is the new control state and the new `global_min_index_`. -/
def worker_thread (arr : List α) (threshold : α) (w : Worker) (global_min_index_ : Option Nat) :
    Worker × Option Nat :=
  match w with
  | .scanning i end_idx =>
    if i < end_idx then
      if exit_early_test global_min_index_ i then
        (.finished { index := none, exited_early := true }, global_min_index_)
      else
        match arr[i]? with
        | none => (.crashed, global_min_index_)
        | some x =>
          if x > threshold then (.found i, global_min_index_)
          else (.scanning (i + 1) end_idx, global_min_index_)
    else
      (.finished { index := none, exited_early := false }, global_min_index_)
  | .found local_min_index =>
    (.finished { index := some local_min_index, exited_early := false },
      update_global global_min_index_ local_min_index)
  | .finished result => (.finished result, global_min_index_)
  | .crashed => (.crashed, global_min_index_)

/-- The threads of one `solve` call together with the shared member `global_min_index_`. -/
structure Pool where
  threads : List Worker
  global_min_index_ : Option Nat
  deriving DecidableEq, Repr

/-- Thread number `k` performs its next step (nothing happens when there is no such thread). -/
def Pool.step (arr : List α) (threshold : α) (p : Pool) (k : Nat) : Pool :=
  match p.threads[k]? with
  | none => p
  | some w =>
    { threads := p.threads.set k (worker_thread arr threshold w p.global_min_index_).1,
      global_min_index_ := (worker_thread arr threshold w p.global_min_index_).2 }

/-- The threads take steps in the order given by the schedule. -/
def Pool.run (arr : List α) (threshold : α) (p : Pool) (sched : List Nat) : Pool :=
  sched.foldl (Pool.step arr threshold) p

/-- The schedule of the loop `for (auto& thread : threads) thread.join();`: every thread in
turn is given as many steps as the longest possible scan needs. -/
def join_schedule (arr_size thread_count : Nat) : List Nat :=
  (List.range thread_count).flatMap (fun k => List.replicate (arr_size + 2) k)

/-- The values read from the futures, in thread order. -/
def collect : List Worker → Except Fault (List FutureResult)
  | [] => .ok []
  | .finished result :: rest =>
    match collect rest with
    | .ok results => .ok (result :: results)
    | .error f => .error f
  | .crashed :: _ => .error .out_of_range
  | _ :: _ => .error .broken_promise

/-- The thread numbers printed by the loop over the futures (`exited_early` set). -/
def early_reports (results : List FutureResult) : List Nat :=
  (List.range results.length).filter (fun k =>
    match results[k]? with
    | some r => r.exited_early
    | none => false)

/-- The loop that creates the threads: `count` iterations are left, `i` is the loop
variable and `current_start` the start of the next range. The result lists the pairs
`(start_idx, end_idx)` handed to `worker_thread`, in creation order. -/
def spawn_loop (chunk_size remainder : Nat) : Nat → Int → Nat → List (Nat × Nat)
  | 0, _, _ => []
  | count + 1, i, current_start =>
    (current_start,
      current_start + (chunk_size + (if i < static_cast_int remainder then 1 else 0))) ::
    spawn_loop chunk_size remainder count (i + 1)
      (current_start + (chunk_size + (if i < static_cast_int remainder then 1 else 0)))

/-- The ranges created by `solve` for an array of `arr_size` elements when
`actual_threads` is positive: `chunk_size = arr.size() / actual_threads` and
`remainder = arr.size() % actual_threads` (the `int` converts to `std::size_t` without
change of value), then the loop `for (int i = 0; i < actual_threads; i++)`. -/
def spawn_ranges (arr_size : Nat) (actual_threads : Int) : List (Nat × Nat) :=
  spawn_loop (arr_size / actual_threads.toNat) (arr_size % actual_threads.toNat)
    actual_threads.toNat 0 0

/-- What one call of `solve` does: what it returns (or how it fails), the ranges of the
threads it created, the thread numbers it reported as exited early, and the members of the
solver afterwards. -/
structure Outcome (α : Type) where
  returned : Except Fault (Option α)
  spawned : List (Nat × Nat)
  reported_early : List Nat
  solver : ParallelSolver
  deriving DecidableEq

/-- The end of `solve`: `std::nullopt` when `global_min_index_` is empty, else
`arr[global_min_index_.value()]`. -/
def read_result (arr : List α) (global_min_index_ : Option Nat) : Except Fault (Option α) :=
  match global_min_index_ with
  | none => .ok none
  | some idx =>
    match arr[idx]? with
    | none => .error .out_of_range
    | some x => .ok (some x)

/-- The threads created for `ranges`, run along `sched` and then joined. -/
def run_threads (arr : List α) (threshold : α) (ranges : List (Nat × Nat))
    (global_min_index_ : Option Nat) (sched : List Nat) : Pool :=
  Pool.run arr threshold
    (Pool.run arr threshold
      { threads := ranges.map (fun r => Worker.scanning r.1 r.2),
        global_min_index_ := global_min_index_ } sched)
    (join_schedule arr.length ranges.length)

/-- Embedding of `ParallelSolver::solve`; `sched` is the interleaving of the threads up to
the join loop (any list of thread numbers). -/
def ParallelSolver.solve (self : ParallelSolver) (arr : List α) (threshold : α)
    (sched : List Nat) : Outcome α :=
  if arr.isEmpty then
    { returned := .ok none, spawned := [], reported_early := [], solver := self }
  else
    let actual_threads := min self.num_threads_ (static_cast_int arr.length)
    -- threads.reserve(actual_threads): a negative int converts to a size above max_size()
    if actual_threads < 0 then
      { returned := .error .length_error, spawned := [], reported_early := [], solver := self }
    -- arr.size() / actual_threads
    else if actual_threads = 0 then
      { returned := .error .division_by_zero, spawned := [], reported_early := [],
        solver := self }
    else
      let ranges := spawn_ranges arr.length actual_threads
      let joined := run_threads arr threshold ranges self.global_min_index_ sched
      let solver : ParallelSolver :=
        { num_threads_ := self.num_threads_, global_min_index_ := joined.global_min_index_ }
      match collect joined.threads with
      | .error f => { returned := .error f, spawned := ranges, reported_early := [], solver }
      | .ok results =>
        { returned := read_result arr joined.global_min_index_, spawned := ranges,
          reported_early := early_reports results, solver }

/-- Number of steps after which a thread has certainly returned. -/
def Worker.remaining : Worker → Nat
  | .scanning i end_idx => (end_idx - i) + 2
  | .found _ => 1
  | .finished _ => 0
  | .crashed => 0

/-- Steps left for thread number `k` of a pool. -/
def Pool.remaining (p : Pool) (k : Nat) : Nat :=
  match p.threads[k]? with
  | some w => w.remaining
  | none => 0

/-- Whether a thread has returned from `worker_thread`. -/
def Worker.has_returned : Worker → Bool
  | .finished _ => true
  | _ => false

/-- The pool right after the loop of `solve` that creates the threads: one thread per range,
each at the head of its loop, and the shared index as the solver object holds it. -/
def spawned_pool (ranges : List (Nat × Nat)) (global_min_index_ : Option Nat) : Pool :=
  { threads := ranges.map (fun r => Worker.scanning r.1 r.2),
    global_min_index_ := global_min_index_ }

end StdThreads

namespace OpenMP

/-- The iterations `for (i ...) if (arr[i] > threshold) min_index = std::min(min_index, i);`
that one thread of the team executes on its private copy of `min_index`. -/
def thread_loop (arr : List α) (threshold : α) : Nat → List Nat → Except Fault Nat
  | min_index, [] => .ok min_index
  | min_index, i :: rest =>
    match arr[i]? with
    | none => .error .out_of_range
    | some x =>
      if x > threshold then thread_loop arr threshold (min min_index i) rest
      else thread_loop arr threshold min_index rest

/-- The clause `reduction(min:min_index)`: every thread starts its private copy at the
identity of `min` (the largest `std::size_t`), and the private copies are combined with the
original value one after another. -/
def reduce_min (arr : List α) (threshold : α) : Nat → List (List Nat) → Except Fault Nat
  | min_index, [] => .ok min_index
  | min_index, iterations :: rest =>
    match thread_loop arr threshold SIZE_MAX iterations with
    | .error f => .error f
    | .ok mine => reduce_min arr threshold (min min_index mine) rest

/-- Embedding of `ParallelSolver::solve` of task3_openmp; `assignment` lists, thread by
thread, the iterations the OpenMP runtime gave to that thread. -/
def ParallelSolver.solve (arr : List α) (threshold : α) (assignment : List (List Nat)) :
    Except Fault (Option α) :=
  if arr.isEmpty then .ok none
  else if arr.length = SIZE_MAX then .error .assertion_failed
  else
    match reduce_min arr threshold SIZE_MAX assignment with
    | .error f => .error f
    | .ok min_index =>
      if min_index = SIZE_MAX then .ok none
      else
        match arr[min_index]? with
        | none => .error .out_of_range
        | some x => .ok (some x)

/-- How `main` of task3_openmp ends its handling of the command line. -/
inductive Selection where
  /-- Status that `main` returned before creating a solver. -/
  | exit_status (status : Int)
  /-- Selected by `std::make_unique<SequentialSolver<long long>>()`. -/
  | sequential
  /-- Selected by `std::make_unique<ParallelSolver<long long>>(num_threads)`. -/
  | parallel (num_threads : Option Int)
  deriving DecidableEq, Repr

/-- The start of `main` of task3_openmp, up to the creation of the solver; `argv` holds the
program name followed by the arguments and `atoi` is `std::atoi`. -/
def main (atoi : String → Int) (argv : List String) : Selection :=
  if argv.length > 2 then .exit_status 1
  else if argv.length = 2 then
    match argv[1]? with
    | none => .parallel none
    | some a =>
      if a = "-h" ∨ a = "--help" then .exit_status 0
      else if atoi a < 0 then .exit_status 1
      else if atoi a = 0 then .sequential
      else .parallel (some (atoi a))
  else .parallel none

end OpenMP

/-- Specification side: the smallest index whose element exceeds the threshold. -/
def first_above (threshold : α) : List α → Option Nat
  | [] => none
  | x :: rest =>
    if x > threshold then some 0 else (first_above threshold rest).map (fun i => i + 1)

/-- Index `j` holds an element that exceeds the threshold. -/
def Above (arr : List α) (threshold : α) (j : Nat) : Prop :=
  ∃ x, arr[j]? = some x ∧ x > threshold

/-- The shared index `g'` is present, and not larger, wherever `g` is present. -/
def Lowered (g' g : Option Nat) : Prop :=
  ∀ v, g = some v → ∃ v', g' = some v' ∧ v' ≤ v

/-- Invariant of the shared index during a call entered with value `g0`: it is still `g0`
or an index whose element exceeds the threshold, and it was only lowered. -/
def GlobalInv (arr : List α) (threshold : α) (g0 g : Option Nat) : Prop :=
  (g = g0 ∨ ∃ v, g = some v ∧ Above arr threshold v) ∧ Lowered g g0

/-- Invariant of a thread working on the range `r` while the shared index is `g`. -/
def WorkerInv (arr : List α) (threshold : α) (g : Option Nat) (r : Nat × Nat) :
    StdThreads.Worker → Prop
  | .scanning i end_idx =>
    end_idx = r.2 ∧ r.1 ≤ i ∧ ∀ j, r.1 ≤ j → j < i → ¬ Above arr threshold j
  | .found l =>
    r.1 ≤ l ∧ l < r.2 ∧ Above arr threshold l ∧ ∀ j, r.1 ≤ j → j < l → ¬ Above arr threshold j
  | .finished ⟨none, false⟩ => ∀ j, r.1 ≤ j → j < r.2 → ¬ Above arr threshold j
  | .finished ⟨none, true⟩ =>
    ∃ i v, g = some v ∧ v < i ∧ r.1 ≤ i ∧ i < r.2 ∧
      ∀ j, r.1 ≤ j → j < i → ¬ Above arr threshold j
  | .finished ⟨some l, false⟩ =>
    r.1 ≤ l ∧ l < r.2 ∧ Above arr threshold l ∧
      (∀ j, r.1 ≤ j → j < l → ¬ Above arr threshold j) ∧ ∃ v, g = some v ∧ v ≤ l
  | .finished ⟨some _, true⟩ => False
  | .crashed => False

/-- Invariant of the pool of a call entered with shared index `g0`. -/
def PoolInv (arr : List α) (threshold : α) (g0 : Option Nat) (ranges : List (Nat × Nat))
    (p : StdThreads.Pool) : Prop :=
  p.threads.length = ranges.length ∧ GlobalInv arr threshold g0 p.global_min_index_ ∧
  ∀ (k : Nat) (r : Nat × Nat) (w : StdThreads.Worker),
    ranges[k]? = some r → p.threads[k]? = some w →
    WorkerInv arr threshold p.global_min_index_ r w

/-- What a thread working on the range from `s` to `e` knows from its own scan alone,
whatever the other threads do: every index it has passed holds an element that is at most
the threshold, and a recorded index holds an element above it. -/
def LocalInv (arr : List α) (threshold : α) (s e : Nat) : StdThreads.Worker → Prop
  | .scanning i end_idx =>
    end_idx = e ∧ s ≤ i ∧ ∀ j, s ≤ j → j < i → ∃ x, arr[j]? = some x ∧ x ≤ threshold
  | .found l =>
    s ≤ l ∧ l < e ∧ (∃ x, arr[l]? = some x ∧ x > threshold) ∧
      ∀ j, s ≤ j → j < l → ∃ x, arr[j]? = some x ∧ x ≤ threshold
  | .finished ⟨none, false⟩ => ∀ j, s ≤ j → j < e → ∃ x, arr[j]? = some x ∧ x ≤ threshold
  | .finished ⟨none, true⟩ => True
  | .finished ⟨some l, false⟩ =>
    s ≤ l ∧ l < e ∧ (∃ x, arr[l]? = some x ∧ x > threshold) ∧
      ∀ j, s ≤ j → j < l → ∃ x, arr[j]? = some x ∧ x ≤ threshold
  | .finished ⟨some _, true⟩ => False
  | .crashed => True

/-- The shared index after all threads have returned, for a call entered with shared index
`g0` on an array whose first index above the threshold is `m`. -/
def settle (g0 m : Option Nat) : Option Nat :=
  match g0, m with
  | none, m => m
  | some g, none => some g
  | some g, some i => if i ≤ g then some i else some g

end Solvers


section Images

variable {F : Type}

namespace Intrinsics

/-- The result of an `int` operation whose exact value is `x`: the value modulo `2^32`, read
in two's complement. -/
def wrap_int (x : Int) : Int :=
  (x + 2147483648) % 4294967296 - 2147483648

/-- A value of type `float*` that points to the start of an allocation: the address of the
first value, counted in values from the start of the memory, and the number of values the
allocation holds. The null pointer holds no value. -/
structure Pointer where
  address : Nat
  extent : Nat
  deriving DecidableEq, Repr

/-- The class `Image` of task2_intrinsics: the pointer `data` and the three `int` members. -/
structure Image where
  data : Pointer
  width : Int
  height : Int
  channels : Int
  deriving DecidableEq, Repr

/-- Embedding of `Image::size`: the product of three `int` members, computed in `int`. -/
def Image.size (self : Image) : Int :=
  wrap_int (wrap_int (self.width * self.height) * self.channels)

/-- The number of bytes that the constructor `Image::Image(int w, int h, int c)` requests
from `aligned_alloc`: `total_size` is the `int` product `w * h * c` converted to
`std::size_t`, and the arithmetic of `aligned_size` is that of `std::size_t`. -/
def Image.aligned_size (w h c : Int) : Nat :=
  let total_size : Nat := (wrap_int (wrap_int (w * h) * c) % 18446744073709551616).toNat
  ((total_size * 4 + 31) % 18446744073709551616) / 32 * 32

/-- The read of `p[i]` for an `int` index `i`; `memory` holds the values of all
allocations. An index outside the allocation of `p` is a fault. -/
def load (memory : List F) (p : Pointer) (i : Int) : Except Fault F :=
  if 0 ≤ i ∧ i.toNat < p.extent then
    match memory[p.address + i.toNat]? with
    | some x => .ok x
    | none => .error .out_of_range
  else .error .out_of_range

/-- The assignment `p[i] = v` for an `int` index `i`: the memory after it. -/
def store (memory : List F) (p : Pointer) (i : Int) (v : F) : Except Fault (List F) :=
  if 0 ≤ i ∧ i.toNat < p.extent ∧ p.address + i.toNat < memory.length then
    .ok (memory.set (p.address + i.toNat) v)
  else .error .out_of_range

/-- The values of `i`, in order, for which the body of a loop
`for (i = start; i < stop; i += step)` runs. -/
def for_range (start : Nat) (stop : Int) (step : Nat) : List Nat :=
  List.range' start ((stop - start + step - 1) / (step : Int)).toNat step

/-- A loop whose variable takes the given values: the body transforms the memory or fails. -/
def run_loop (body : Nat → List F → Except Fault (List F)) :
    List Nat → List F → Except Fault (List F)
  | [], memory => .ok memory
  | i :: rest, memory =>
    match body i memory with
    | .error f => .error f
    | .ok next => run_loop body rest next

/-- The statement `output.data[i] = input.data[i] * mult;` where `mul` is the multiplication
of `float` and `i` the value of the index expression: the read, then the assignment. -/
def assign_product (mul : F → F → F) (input_data output_data : Pointer) (mult : F) (i : Int)
    (memory : List F) : Except Fault (List F) :=
  (load memory input_data i).bind fun x => store memory output_data i (mul x mult)

/-- The three statements for the pixel at `i`: channels R, G and B. The index expressions
`i + 0`, `i + 1` and `i + 2` are `int` sums. -/
def pixel_body (mul : F → F → F) (input_data output_data : Pointer)
    (red_mult green_mult blue_mult : F) (i : Nat) (memory : List F) :
    Except Fault (List F) :=
  (assign_product mul input_data output_data red_mult (wrap_int ((i : Int) + 0)) memory).bind
    fun memory1 =>
  (assign_product mul input_data output_data green_mult (wrap_int ((i : Int) + 1))
    memory1).bind fun memory2 =>
  assign_product mul input_data output_data blue_mult (wrap_int ((i : Int) + 2)) memory2

/-- Embedding of `SequentialCorrector::apply`; the result is the memory after the call. The
two images are passed by reference and may be one object. -/
def SequentialCorrector.apply (mul : F → F → F) (memory : List F) (input output : Image)
    (red_mult green_mult blue_mult : F) : Except Fault (List F) :=
  run_loop (pixel_body mul input.data output.data red_mult green_mult blue_mult)
    (for_range 0 input.size 3) memory

/-- The intrinsic `_mm256_setr_ps`: a vector of eight lanes, lane 0 first. -/
def _mm256_setr_ps (e0 e1 e2 e3 e4 e5 e6 e7 : F) : List F :=
  [e0, e1, e2, e3, e4, e5, e6, e7]

/-- The intrinsic `_mm256_load_ps(&p[i])`: the eight values from index `i` on. -/
def _mm256_load_ps (memory : List F) (p : Pointer) (i : Int) : Except Fault (List F) :=
  if 0 ≤ i ∧ i.toNat + 8 ≤ p.extent ∧ p.address + i.toNat + 8 ≤ memory.length then
    .ok ((memory.drop (p.address + i.toNat)).take 8)
  else .error .out_of_range

/-- The intrinsic `_mm256_mul_ps`: the products lane by lane. -/
def _mm256_mul_ps (mul : F → F → F) (a b : List F) : List F :=
  List.zipWith mul a b

/-- The intrinsic `_mm256_store_ps(&p[i], v)`: the eight lanes replace the values from
index `i` on. -/
def _mm256_store_ps (memory : List F) (p : Pointer) (i : Int) (v : List F) :
    Except Fault (List F) :=
  if 0 ≤ i ∧ i.toNat + 8 ≤ p.extent ∧ p.address + i.toNat + 8 ≤ memory.length then
    .ok (memory.take (p.address + i.toNat) ++ v ++ memory.drop (p.address + i.toNat + 8))
  else .error .out_of_range

/-- The body of the loop over blocks of 24 values: three loads, three products, three
stores. The index expressions `i + 8` and `i + 16` are `int` sums; a failing step ends the
call. -/
def block_body (mul : F → F → F) (input_data output_data : Pointer)
    (color_multipliers color_multipliers_shift color_multipliers_shift2 : List F)
    (i : Nat) (memory : List F) : Except Fault (List F) :=
  (_mm256_load_ps memory input_data (i : Int)).bind fun pixels1 =>
  (_mm256_load_ps memory input_data (wrap_int ((i : Int) + 8))).bind fun pixels2 =>
  (_mm256_load_ps memory input_data (wrap_int ((i : Int) + 16))).bind fun pixels3 =>
  let result1 := _mm256_mul_ps mul pixels1 color_multipliers
  let result2 := _mm256_mul_ps mul pixels2 color_multipliers_shift
  let result3 := _mm256_mul_ps mul pixels3 color_multipliers_shift2
  (_mm256_store_ps memory output_data (i : Int) result1).bind fun memory1 =>
  (_mm256_store_ps memory1 output_data (wrap_int ((i : Int) + 8)) result2).bind
    fun memory2 =>
  _mm256_store_ps memory2 output_data (wrap_int ((i : Int) + 16)) result3

/-- Embedding of `AVXCorrector::apply`: the loop over blocks of 24 values while
`i <= size - 24`, where `size - 24` is an `int` difference, then the loop over single pixels
from the value `i` has reached. The result is the memory after the call. -/
def AVXCorrector.apply (mul : F → F → F) (memory : List F) (input output : Image)
    (red_mult green_mult blue_mult : F) : Except Fault (List F) :=
  let color_multipliers :=
    _mm256_setr_ps red_mult green_mult blue_mult red_mult green_mult blue_mult red_mult
      green_mult
  let color_multipliers_shift :=
    _mm256_setr_ps blue_mult red_mult green_mult blue_mult red_mult green_mult blue_mult
      red_mult
  let color_multipliers_shift2 :=
    _mm256_setr_ps green_mult blue_mult red_mult green_mult blue_mult red_mult green_mult
      blue_mult
  let blocks := for_range 0 (wrap_int (input.size - 24) + 1) 24
  (run_loop
    (block_body mul input.data output.data color_multipliers color_multipliers_shift
      color_multipliers_shift2) blocks memory).bind fun memory1 =>
  run_loop (pixel_body mul input.data output.data red_mult green_mult blue_mult)
    (for_range (0 + 24 * blocks.length) input.size 3) memory1

/-- The character with code 92, the backslash. -/
def backslash : Char := Char.ofNat 92

/-- The member `std::string::find_last_of`: the position of the last character of `s` that
is one of `chars`; `none` stands for `npos`. -/
def find_last_of (s : List Char) (chars : List Char) : Option Nat :=
  match s with
  | [] => none
  | c :: rest =>
    match find_last_of rest chars with
    | some i => some (i + 1)
    | none => if chars.contains c then some 0 else none

/-- The member `std::string::substr(pos, count)`. -/
def substr (s : List Char) (pos count : Nat) : Except Fault (List Char) :=
  if pos ≤ s.length then .ok ((s.drop pos).take count) else .error .out_of_range

/-- Embedding of `get_filename_without_ext` of task2_intrinsics/src/main.cpp; a
`std::string` is the list of its characters. -/
def get_filename_without_ext (path : List Char) : Except Fault (List Char) :=
  let last_slash := find_last_of path ['/', backslash]
  let start :=
    match last_slash with
    | none => 0
    | some p => p + 1
  let last_dot := find_last_of path ['.']
  let stop :=
    match last_dot with
    | none => path.length
    | some d => if d < start then path.length else d
  substr path start (stop - start)

/-- The coefficient of the channel that index `i` belongs to: red, green, blue for `i mod 3`
equal to 0, 1, 2. -/
def multiplier (red_mult green_mult blue_mult : F) (i : Nat) : F :=
  if i % 3 = 0 then red_mult else if i % 3 = 1 then green_mult else blue_mult

/-- The memory `result` is `memory` with the products of the first `lo` values of the input
buffer written to the first `lo` places of the output buffer, and nothing else changed. -/
def Corrected (mul : F → F → F) (memory : List F) (input_data output_data : Pointer)
    (red_mult green_mult blue_mult : F) (lo : Nat) (result : List F) : Prop :=
  result.length = memory.length ∧
  ∀ a : Nat, result[a]? =
    if output_data.address ≤ a ∧ a < output_data.address + lo then
      (memory[input_data.address + (a - output_data.address)]?).map
        (fun x => mul x (multiplier red_mult green_mult blue_mult (a - output_data.address)))
    else memory[a]?

/-- The two buffers are placed so that the first `n` values of both lie in the memory and no
write to the output buffer reaches a value of the input buffer that is still to be read: the
output buffer does not start after the input buffer, or it starts at or after the end of the
`n` values read. -/
def Placed (memory : List F) (input_data output_data : Pointer) (n : Nat) : Prop :=
  n ≤ input_data.extent ∧ n ≤ output_data.extent ∧
  input_data.address + n ≤ memory.length ∧ output_data.address + n ≤ memory.length ∧
  (output_data.address ≤ input_data.address ∨
    input_data.address + n ≤ output_data.address)

end Intrinsics

end Images

namespace MPI

/-- The statement `int chunk_size = data_size / group_size;` of task4_mpi/main.cpp; the
division of `int` truncates towards zero. -/
def chunk_size (data_size group_size : Int) : Int :=
  data_size.tdiv group_size

/-- The statement `int remainder = data_size % group_size;`. -/
def remainder (data_size group_size : Int) : Int :=
  data_size.tmod group_size

/-- The statement
`int start_idx = group_rank * chunk_size + std::min(group_rank, remainder);`. -/
def start_idx (data_size group_size group_rank : Int) : Int :=
  group_rank * chunk_size data_size group_size +
    min group_rank (remainder data_size group_size)

/-- The statement
`int end_idx = start_idx + chunk_size + (group_rank < remainder ? 1 : 0);`. -/
def end_idx (data_size group_size group_rank : Int) : Int :=
  start_idx data_size group_size group_rank + chunk_size data_size group_size +
    (if group_rank < remainder data_size group_size then 1 else 0)

end MPI

section Extrema

variable {D : Type}

namespace MPI

/-- The expression `data[i]` with an `int` index; `D` stands for `double`. -/
def element (data : List D) (i : Int) : Except Fault D :=
  if i < 0 then .error .out_of_range
  else
    match data[i.toNat]? with
    | none => .error .out_of_range
    | some x => .ok x

/-- The values of `i`, in order, for which the body of `for (int i = first; i < stop; ++i)`
runs. -/
def int_range (first stop : Int) : List Int :=
  (List.range (stop - first).toNat).map (fun k : Nat => first + (k : Int))

/-- The loop `for (...) if (data[i] > local_result) local_result = data[i];` of group 1 and
its twin with `<` of group 2: `better x y` is the comparison `x > y` or `x < y`. -/
def scan_chunk (better : D → D → Bool) (data : List D) : List Int → D → Except Fault D
  | [], local_result => .ok local_result
  | i :: rest, local_result =>
    match element data i with
    | .error f => .error f
    | .ok x =>
      if better x local_result then scan_chunk better data rest x
      else scan_chunk better data rest local_result

/-- The value of `local_result` that the rank `group_rank` of a group of `group_size`
processes sends to `MPI_Reduce` in the branch `color == 1` (with `>` and the sentinel
`-1e100`) or `color == 2` (with `<` and the sentinel `1e100`). -/
def local_result (better : D → D → Bool) (sentinel : D) (data : List D)
    (group_size group_rank : Int) : Except Fault D :=
  if start_idx (static_cast_int data.length) group_size group_rank <
      end_idx (static_cast_int data.length) group_size group_rank then
    match element data (start_idx (static_cast_int data.length) group_size group_rank) with
    | .error f => .error f
    | .ok first =>
      scan_chunk better data
        (int_range (start_idx (static_cast_int data.length) group_size group_rank + 1)
          (end_idx (static_cast_int data.length) group_size group_rank)) first
  else .ok sentinel

/-- The local results of the given ranks, in the given order. -/
def contributions (better : D → D → Bool) (sentinel : D) (data : List D) (group_size : Int) :
    List Int → Except Fault (List D)
  | [] => .ok []
  | group_rank :: rest =>
    match local_result better sentinel data group_size group_rank with
    | .error f => .error f
    | .ok v =>
      match contributions better sentinel data group_size rest with
      | .error f => .error f
      | .ok vs => .ok (v :: vs)

/-- The call `MPI_Reduce` with a reduction operation `op`: the contributions are combined
one after another; there is no result without a contribution. -/
def MPI_Reduce (op : D → D → D) : List D → Option D
  | [] => none
  | v :: rest => some (rest.foldl op v)

/-- The value of `global_result` at the root of a group: the local results of the ranks,
combined by `MPI_Reduce` in the order `order` of the ranks. -/
def global_result (better : D → D → Bool) (op : D → D → D) (sentinel : D) (data : List D)
    (group_size : Int) (order : List Int) : Except Fault (Option D) :=
  match contributions better sentinel data group_size order with
  | .error f => .error f
  | .ok vs => .ok (MPI_Reduce op vs)

/-- The branch `color == 1`: local maxima, sentinel `-1e100` (the parameter
`neg_sentinel`), and `MPI_MAX`. -/
def group_maximum [LinearOrder D] (neg_sentinel : D) (data : List D) (group_size : Int)
    (order : List Int) : Except Fault (Option D) :=
  global_result (fun x y => decide (x > y)) max neg_sentinel data group_size order

/-- The branch `color == 2`: local minima, sentinel `1e100` (the parameter
`pos_sentinel`), and `MPI_MIN`. -/
def group_minimum [LinearOrder D] (pos_sentinel : D) (data : List D) (group_size : Int)
    (order : List Int) : Except Fault (Option D) :=
  global_result (fun x y => decide (x < y)) min pos_sentinel data group_size order

end MPI

end Extrema

section Sequential

variable {α : Type} [LinearOrder α]

theorem first_above_some_iff (t : α) (arr : List α) (i : Nat) :
    first_above t arr = some i ↔ Above arr t i ∧ ∀ j, j < i → ¬ Above arr t j := by
  induction arr generalizing i with
  | nil => simp [first_above, Above]
  | cons x rest ih =>
    unfold first_above
    by_cases hx : x > t
    · simp only [hx, if_true]
      constructor
      · intro h
        have h0 : i = 0 := by simpa using h.symm
        subst h0
        exact ⟨⟨x, by simp, hx⟩, fun j hj => absurd hj (Nat.not_lt_zero j)⟩
      · rintro ⟨_, hmin⟩
        cases i with
        | zero => rfl
        | succ i => exact absurd ⟨x, by simp, hx⟩ (hmin 0 (Nat.succ_pos i))
    · simp only [hx, if_false]
      cases i with
      | zero =>
        constructor
        · intro h
          simp at h
        · rintro ⟨⟨y, hy, hyt⟩, _⟩
          simp at hy
          subst hy
          exact absurd hyt hx
      | succ i =>
        have e1 : Option.map (fun i => i + 1) (first_above t rest) = some (i + 1) ↔
            first_above t rest = some i := by
          cases first_above t rest <;> simp
        rw [e1, ih i]
        constructor
        · rintro ⟨⟨y, hy, hyt⟩, hmin⟩
          refine ⟨⟨y, by simpa using hy, hyt⟩, ?_⟩
          intro j hj
          cases j with
          | zero =>
            rintro ⟨z, hz, hzt⟩
            simp at hz
            subst hz
            exact hx hzt
          | succ j =>
            rintro ⟨z, hz, hzt⟩
            exact hmin j (by omega) ⟨z, by simpa using hz, hzt⟩
        · rintro ⟨⟨y, hy, hyt⟩, hmin⟩
          refine ⟨⟨y, by simpa using hy, hyt⟩, ?_⟩
          rintro j hj ⟨z, hz, hzt⟩
          exact hmin (j + 1) (by omega) ⟨z, by simpa using hz, hzt⟩

theorem first_above_none_iff (t : α) (arr : List α) :
    first_above t arr = none ↔ ∀ j, ¬ Above arr t j := by
  induction arr with
  | nil => simp [first_above, Above]
  | cons x rest ih =>
    unfold first_above
    by_cases hx : x > t
    · simp only [hx, if_true]
      constructor
      · intro h
        simp at h
      · intro h
        exact absurd ⟨x, by simp, hx⟩ (h 0)
    · simp only [hx, if_false, Option.map_eq_none', ih]
      constructor
      · intro h j
        cases j with
        | zero =>
          rintro ⟨z, hz, hzt⟩
          simp at hz
          subst hz
          exact hx hzt
        | succ j =>
          rintro ⟨z, hz, hzt⟩
          exact h j ⟨z, by simpa using hz, hzt⟩
      · rintro h j ⟨z, hz, hzt⟩
        exact h (j + 1) ⟨z, by simpa using hz, hzt⟩

theorem scan_eq_first_above (t : α) (arr : List α) :
    SequentialSolver.scan t arr = (first_above t arr).bind (fun i => arr[i]?) := by
  induction arr with
  | nil => rfl
  | cons x rest ih =>
    unfold SequentialSolver.scan first_above
    by_cases hx : x > t
    · simp [hx]
    · simp only [hx, if_false, ih]
      cases first_above t rest <;> simp

theorem solve_eq_scan (arr : List α) (t : α) :
    SequentialSolver.solve arr t = SequentialSolver.scan t arr := by
  unfold SequentialSolver.solve
  cases arr <;> simp [SequentialSolver.scan]

theorem above_lt_length {arr : List α} {t : α} {j : Nat} (h : Above arr t j) :
    j < arr.length := by
  obtain ⟨x, hx, _⟩ := h
  by_contra hn
  rw [List.getElem?_eq_none (by omega)] at hx
  cases hx

end Sequential

section Partition

open StdThreads

theorem static_cast_int_of_lt {n : Nat} (h : n < 2 ^ 31) : static_cast_int n = (n : Int) := by
  have h1 : n % 2 ^ 32 = n := Nat.mod_eq_of_lt (by omega)
  unfold static_cast_int
  rw [h1, if_pos h]

theorem static_cast_int_le (n : Nat) : static_cast_int n ≤ (n : Int) := by
  have h1 : n % 2 ^ 32 ≤ n := Nat.mod_le n _
  unfold static_cast_int
  split <;> omega

theorem static_cast_int_lt (n : Nat) : static_cast_int n < 2 ^ 31 := by
  have h1 : n % 2 ^ 32 < 2 ^ 32 := Nat.mod_lt n (by norm_num)
  unfold static_cast_int
  split <;> omega

theorem spawn_loop_length (q r : Nat) (c : Nat) (i : Int) (s : Nat) :
    (spawn_loop q r c i s).length = c := by
  induction c generalizing i s with
  | zero => rfl
  | succ c ih => simp [spawn_loop, ih]

theorem spawn_loop_getElem (q r : Nat) (hr : r < 2 ^ 31) (c : Nat) (i s k : Nat) (hk : k < c) :
    (spawn_loop q r c (i : Int) s)[k]? =
      some (s + k * q + (min (i + k) r - min i r),
            s + (k + 1) * q + (min (i + k + 1) r - min i r)) := by
  induction c generalizing i s k with
  | zero => omega
  | succ c ih =>
    have hcast : ((i : Int) < static_cast_int r) ↔ i < r := by
      rw [static_cast_int_of_lt hr]
      exact Int.ofNat_lt
    cases k with
    | zero =>
      simp only [spawn_loop, List.getElem?_cons_zero, hcast]
      by_cases hir : i < r
      · simp only [hir, if_true]
        congr 2 <;> omega
      · simp only [hir, if_false]
        congr 2 <;> omega
    | succ k =>
      have hi : (i : Int) + 1 = ((i + 1 : Nat) : Int) := by push_cast; rfl
      simp only [spawn_loop, List.getElem?_cons_succ, hcast, hi]
      rw [ih (i + 1) _ k (by omega)]
      have e1 : (k + 1) * q = k * q + q := Nat.succ_mul k q
      have e2 : (k + 1 + 1) * q = k * q + q + q := by rw [Nat.succ_mul, Nat.succ_mul]
      by_cases hir : i < r
      · simp only [hir, if_true]
        congr 2 <;> omega
      · simp only [hir, if_false]
        congr 2 <;> omega

theorem spawn_ranges_length (n : Nat) (w : Nat) :
    (spawn_ranges n (w : Int)).length = w := by
  unfold spawn_ranges
  rw [spawn_loop_length]
  simp

theorem spawn_ranges_getElem (n w : Nat) (hw : 0 < w) (hw31 : w < 2 ^ 31) (k : Nat)
    (hk : k < w) :
    (spawn_ranges n (w : Int))[k]? =
      some (k * (n / w) + min k (n % w), (k + 1) * (n / w) + min (k + 1) (n % w)) := by
  have hr : n % w < 2 ^ 31 := lt_trans (Nat.mod_lt n hw) hw31
  unfold spawn_ranges
  simp only [Int.toNat_ofNat]
  have h := spawn_loop_getElem (n / w) (n % w) hr w 0 0 k hk
  simp only [Nat.cast_zero] at h
  rw [h]
  congr 2 <;> simp

theorem div_mul_add_min (n w : Nat) (hw : 0 < w) : w * (n / w) + min w (n % w) = n := by
  have h1 : n % w < w := Nat.mod_lt n hw
  have h2 := Nat.div_add_mod n w
  rw [Nat.min_eq_right (le_of_lt h1)]
  exact h2

end Partition

section Workers

open StdThreads

variable {α : Type} [LinearOrder α]

theorem lowered_refl (g : Option Nat) : Lowered g g :=
  fun v hv => ⟨v, hv, le_refl v⟩

theorem lowered_trans {a b c : Option Nat} (h1 : Lowered a b) (h2 : Lowered b c) :
    Lowered a c := by
  intro v hv
  obtain ⟨v', hv', hle⟩ := h2 v hv
  obtain ⟨v'', hv'', hle'⟩ := h1 v' hv'
  exact ⟨v'', hv'', le_trans hle' hle⟩

theorem update_global_lowered (g : Option Nat) (l : Nat) : Lowered (update_global g l) g := by
  intro v hv
  subst hv
  unfold update_global
  by_cases h : v > l
  · exact ⟨l, by simp [h], le_of_lt h⟩
  · exact ⟨v, by simp [h], le_refl v⟩

theorem update_global_le (g : Option Nat) (l : Nat) :
    ∃ v, update_global g l = some v ∧ v ≤ l := by
  cases g with
  | none => exact ⟨l, rfl, le_refl l⟩
  | some v =>
    unfold update_global
    by_cases h : v > l
    · exact ⟨l, by simp [h], le_refl l⟩
    · exact ⟨v, by simp [h], by omega⟩

theorem update_global_cases (g : Option Nat) (l : Nat) :
    update_global g l = g ∨ update_global g l = some l := by
  cases g with
  | none => exact Or.inr rfl
  | some v =>
    unfold update_global
    by_cases h : v > l
    · exact Or.inr (by simp [h])
    · exact Or.inl (by simp [h])

theorem exit_early_test_iff (g : Option Nat) (i : Nat) :
    exit_early_test g i = true ↔ ∃ v, g = some v ∧ v < i := by
  cases g with
  | none => simp [exit_early_test]
  | some v => simp [exit_early_test]

theorem workerInv_lowered {arr : List α} {t : α} {g g' : Option Nat} {r : Nat × Nat}
    {w : Worker} (h : WorkerInv arr t g r w) (hl : Lowered g' g) : WorkerInv arr t g' r w := by
  cases w with
  | scanning i e => exact h
  | found l => exact h
  | crashed => exact h
  | finished res =>
    obtain ⟨idx, early⟩ := res
    cases idx with
    | none =>
      cases early with
      | false => exact h
      | true =>
        obtain ⟨i, v, hg, hvi, hri, hir, hno⟩ := h
        obtain ⟨v', hv', hle⟩ := hl v hg
        exact ⟨i, v', hv', lt_of_le_of_lt hle hvi, hri, hir, hno⟩
    | some l =>
      cases early with
      | true => exact h
      | false =>
        obtain ⟨h1, h2, h3, h4, v, hg, hvl⟩ := h
        obtain ⟨v', hv', hle⟩ := hl v hg
        exact ⟨h1, h2, h3, h4, v', hv', le_trans hle hvl⟩

theorem worker_thread_inv {arr : List α} {t : α} {g0 g : Option Nat} {r : Nat × Nat}
    {w : Worker} (h : WorkerInv arr t g r w) (hr : r.2 ≤ arr.length)
    (hg : GlobalInv arr t g0 g) :
    WorkerInv arr t (worker_thread arr t w g).2 r (worker_thread arr t w g).1 ∧
    GlobalInv arr t g0 (worker_thread arr t w g).2 ∧
    Lowered (worker_thread arr t w g).2 g := by
  cases w with
  | finished res => exact ⟨h, hg, lowered_refl g⟩
  | crashed => exact ⟨h, hg, lowered_refl g⟩
  | found l =>
    obtain ⟨h1, h2, h3, h4⟩ := h
    show WorkerInv arr t (update_global g l) r (.finished ⟨some l, false⟩) ∧
      GlobalInv arr t g0 (update_global g l) ∧ Lowered (update_global g l) g
    refine ⟨⟨h1, h2, h3, h4, update_global_le g l⟩, ⟨?_, ?_⟩, update_global_lowered g l⟩
    · rcases update_global_cases g l with hc | hc
      · rw [hc]
        exact hg.1
      · exact Or.inr ⟨l, hc, h3⟩
    · exact lowered_trans (update_global_lowered g l) hg.2
  | scanning i e =>
    obtain ⟨he, hri, hno⟩ := h
    unfold worker_thread
    by_cases hie : i < e
    · simp only [hie, if_true]
      by_cases hx : exit_early_test g i = true
      · simp only [hx, if_true]
        obtain ⟨v, hv, hvi⟩ := (exit_early_test_iff g i).1 hx
        exact ⟨⟨i, v, hv, hvi, hri, he ▸ hie, hno⟩, hg, lowered_refl g⟩
      · simp only [hx]
        have hlen : i < arr.length := by omega
        have hget : arr[i]? = some arr[i] := List.getElem?_eq_getElem hlen
        rw [hget]
        by_cases hgt : arr[i] > t
        · simp only [hgt, if_true]
          exact ⟨⟨hri, he ▸ hie, ⟨arr[i], hget, hgt⟩, hno⟩, hg, lowered_refl g⟩
        · simp only [hgt, if_false]
          refine ⟨⟨he, by omega, ?_⟩, hg, lowered_refl g⟩
          intro j hj1 hj2
          by_cases hji : j = i
          · subst hji
            rintro ⟨x, hx1, hx2⟩
            rw [hget] at hx1
            cases hx1
            exact hgt hx2
          · exact hno j hj1 (by omega)
    · simp only [hie, if_false]
      refine ⟨?_, hg, lowered_refl g⟩
      intro j hj1 hj2
      exact hno j hj1 (by omega)

theorem worker_thread_remaining (arr : List α) (t : α) (w : Worker) (g : Option Nat) :
    (worker_thread arr t w g).1.remaining ≤ w.remaining - 1 := by
  cases w with
  | finished res => simp [worker_thread, Worker.remaining]
  | crashed => simp [worker_thread, Worker.remaining]
  | found l => simp [worker_thread, Worker.remaining]
  | scanning i e =>
    unfold worker_thread
    by_cases hie : i < e
    · simp only [hie, if_true]
      by_cases hx : exit_early_test g i = true
      · simp [hx, Worker.remaining]
      · cases arr[i]? with
        | none => simp [hx, Worker.remaining]
        | some x =>
          by_cases hgt : x > t
          · simp only [hx, hgt, if_true, Bool.false_eq_true, if_false, Worker.remaining]
            omega
          · simp only [hx, hgt, if_false, Bool.false_eq_true, Worker.remaining]
            omega
    · simp [hie, Worker.remaining]

end Workers

section Pools

open StdThreads

variable {α : Type} [LinearOrder α]

theorem pool_step_inv {arr : List α} {t : α} {g0 : Option Nat} {ranges : List (Nat × Nat)}
    {p : Pool} (hr : ∀ r ∈ ranges, r.2 ≤ arr.length) (h : PoolInv arr t g0 ranges p)
    (k : Nat) : PoolInv arr t g0 ranges (p.step arr t k) := by
  unfold Pool.step
  cases hk : p.threads[k]? with
  | none => exact h
  | some w =>
    obtain ⟨hlen, hg, hw⟩ := h
    obtain ⟨hklt, _⟩ := List.getElem?_eq_some.1 hk
    have hkr : k < ranges.length := hlen ▸ hklt
    have hrk : ranges[k]? = some ranges[k] := List.getElem?_eq_getElem hkr
    have hmem : ranges[k] ∈ ranges := List.getElem_mem hkr
    obtain ⟨i1, i2, i3⟩ := worker_thread_inv (hw k _ w hrk hk) (hr _ hmem) hg
    refine ⟨by simpa using hlen, i2, ?_⟩
    intro k2 r2 w2 hr2 hw2
    by_cases hkk : k = k2
    · subst hkk
      simp only [List.getElem?_set_self hklt] at hw2
      rw [hrk] at hr2
      cases hr2
      cases hw2
      exact i1
    · simp only [List.getElem?_set_ne hkk] at hw2
      exact workerInv_lowered (hw k2 r2 w2 hr2 hw2) i3

theorem pool_run_inv {arr : List α} {t : α} {g0 : Option Nat} {ranges : List (Nat × Nat)}
    (hr : ∀ r ∈ ranges, r.2 ≤ arr.length) (sched : List Nat) (p : Pool)
    (h : PoolInv arr t g0 ranges p) : PoolInv arr t g0 ranges (p.run arr t sched) := by
  induction sched generalizing p with
  | nil => exact h
  | cons k rest ih => exact ih _ (pool_step_inv hr h k)

theorem pool_init_inv (arr : List α) (t : α) (g0 : Option Nat) (ranges : List (Nat × Nat)) :
    PoolInv arr t g0 ranges
      { threads := ranges.map (fun r => Worker.scanning r.1 r.2), global_min_index_ := g0 } := by
  refine ⟨by simp, ⟨Or.inl rfl, lowered_refl g0⟩, ?_⟩
  intro k r w hr hw
  simp only [List.getElem?_map, hr, Option.map_some'] at hw
  cases hw
  exact ⟨rfl, le_refl _, fun j h1 h2 => absurd h2 (by omega)⟩

theorem pool_step_remaining_le (arr : List α) (t : α) (p : Pool) (k k2 : Nat) :
    (p.step arr t k).remaining k2 ≤ p.remaining k2 := by
  unfold Pool.step
  cases hk : p.threads[k]? with
  | none => exact le_refl _
  | some w =>
    obtain ⟨hklt, _⟩ := List.getElem?_eq_some.1 hk
    unfold Pool.remaining
    by_cases hkk : k = k2
    · subst hkk
      simp only [List.getElem?_set_self hklt, hk]
      exact le_trans (worker_thread_remaining arr t w _) (Nat.sub_le _ _)
    · simp only [List.getElem?_set_ne hkk]
      exact le_refl _

theorem pool_step_remaining_self (arr : List α) (t : α) (p : Pool) (k : Nat) :
    (p.step arr t k).remaining k ≤ p.remaining k - 1 := by
  unfold Pool.step
  cases hk : p.threads[k]? with
  | none => simp [Pool.remaining, hk]
  | some w =>
    obtain ⟨hklt, _⟩ := List.getElem?_eq_some.1 hk
    unfold Pool.remaining
    simp only [List.getElem?_set_self hklt, hk]
    exact worker_thread_remaining arr t w _

theorem pool_run_remaining_le (arr : List α) (t : α) (sched : List Nat) (p : Pool) (k2 : Nat) :
    (p.run arr t sched).remaining k2 ≤ p.remaining k2 := by
  induction sched generalizing p with
  | nil => exact le_refl _
  | cons k rest ih => exact le_trans (ih _) (pool_step_remaining_le arr t p k k2)

theorem pool_run_replicate (arr : List α) (t : α) (c : Nat) (p : Pool) (k : Nat) :
    (p.run arr t (List.replicate c k)).remaining k ≤ p.remaining k - c := by
  induction c generalizing p with
  | zero => exact le_refl _
  | succ c ih =>
    have h1 := ih (p.step arr t k)
    have h2 := pool_step_remaining_self arr t p k
    have h3 : (p.run arr t (List.replicate (c + 1) k)) =
        (p.step arr t k).run arr t (List.replicate c k) := rfl
    rw [h3]
    omega

theorem pool_run_append (arr : List α) (t : α) (p : Pool) (s1 s2 : List Nat) :
    p.run arr t (s1 ++ s2) = (p.run arr t s1).run arr t s2 := by
  unfold Pool.run
  exact List.foldl_append _ _ _ _

theorem pool_run_rounds (arr : List α) (t : α) (c : Nat) (ks : List Nat) (p : Pool) (k : Nat)
    (hk : k ∈ ks) :
    (p.run arr t (ks.flatMap (fun k => List.replicate c k))).remaining k ≤
      p.remaining k - c := by
  induction ks generalizing p with
  | nil => cases hk
  | cons k0 rest ih =>
    rw [List.flatMap_cons, pool_run_append]
    by_cases hkk : k = k0
    · subst hkk
      exact le_trans (pool_run_remaining_le arr t _ _ k) (pool_run_replicate arr t c p k)
    · have hmem : k ∈ rest := by
        rcases List.mem_cons.1 hk with h | h
        · exact absurd h hkk
        · exact h
      have h1 := ih (p.run arr t (List.replicate c k0)) hmem
      have h2 := pool_run_remaining_le arr t (List.replicate c k0) p k
      omega

theorem poolInv_remaining_le {arr : List α} {t : α} {g0 : Option Nat}
    {ranges : List (Nat × Nat)} {p : Pool} (hr : ∀ r ∈ ranges, r.2 ≤ arr.length)
    (h : PoolInv arr t g0 ranges p) (k : Nat) : p.remaining k ≤ arr.length + 2 := by
  unfold Pool.remaining
  cases hk : p.threads[k]? with
  | none => exact Nat.zero_le _
  | some w =>
    obtain ⟨hlen, _, hw⟩ := h
    obtain ⟨hklt, _⟩ := List.getElem?_eq_some.1 hk
    have hkr : k < ranges.length := hlen ▸ hklt
    have hrk : ranges[k]? = some ranges[k] := List.getElem?_eq_getElem hkr
    have hmem : ranges[k] ∈ ranges := List.getElem_mem hkr
    have hle := hr _ hmem
    have hi := hw k _ w hrk hk
    cases w with
    | scanning i e =>
      obtain ⟨he, _, _⟩ := hi
      simp only [Worker.remaining]
      omega
    | found l => simp only [Worker.remaining]; omega
    | finished res => simp only [Worker.remaining]; omega
    | crashed => simp only [Worker.remaining]; omega

/-- After the join loop every thread has returned. -/
theorem run_threads_finished {arr : List α} {t : α} (g0 : Option Nat)
    {ranges : List (Nat × Nat)} (hr : ∀ r ∈ ranges, r.2 ≤ arr.length) (sched : List Nat) :
    PoolInv arr t g0 ranges (run_threads arr t ranges g0 sched) ∧
    ∀ w ∈ (run_threads arr t ranges g0 sched).threads, ∃ res, w = Worker.finished res := by
  have hmid := pool_run_inv hr sched _ (pool_init_inv arr t g0 ranges)
  have hfin := pool_run_inv hr (join_schedule arr.length ranges.length) _ hmid
  refine ⟨hfin, ?_⟩
  intro w hw
  obtain ⟨k, hk⟩ := List.mem_iff_getElem?.1 hw
  obtain ⟨hklt, _⟩ := List.getElem?_eq_some.1 hk
  have hkr : k < ranges.length := hfin.1 ▸ hklt
  have hrem := pool_run_rounds arr t (arr.length + 2) (List.range ranges.length)
    (Pool.run arr t
      { threads := ranges.map (fun r => Worker.scanning r.1 r.2), global_min_index_ := g0 }
      sched) k (List.mem_range.2 hkr)
  have hbound := poolInv_remaining_le hr hmid k
  have hzero : (run_threads arr t ranges g0 sched).remaining k = 0 := by
    unfold run_threads join_schedule
    omega
  have hrk : ranges[k]? = some ranges[k] := List.getElem?_eq_getElem hkr
  have hi := hfin.2.2 k _ w hrk hk
  unfold Pool.remaining at hzero
  rw [hk] at hzero
  cases w with
  | scanning i e => simp [Worker.remaining] at hzero
  | found l => simp [Worker.remaining] at hzero
  | finished res => exact ⟨res, rfl⟩
  | crashed => exact absurd hi (by simp [WorkerInv])

theorem collect_finished (threads : List Worker)
    (h : ∀ w ∈ threads, ∃ res, w = Worker.finished res) :
    ∃ results, collect threads = .ok results := by
  induction threads with
  | nil => exact ⟨[], rfl⟩
  | cons w rest ih =>
    obtain ⟨res, hres⟩ := h w (List.mem_cons_self _ _)
    obtain ⟨results, hc⟩ := ih (fun w2 hw2 => h w2 (List.mem_cons_of_mem _ hw2))
    subst hres
    exact ⟨res :: results, by simp [collect, hc]⟩

end Pools

section Solve

open StdThreads

variable {α : Type} [LinearOrder α]

theorem exists_step_between (f : Nat → Nat) (w j : Nat) (h0 : f 0 ≤ j) (hw : j < f w) :
    ∃ k, k < w ∧ f k ≤ j ∧ j < f (k + 1) := by
  induction w with
  | zero => omega
  | succ w ih =>
    by_cases hj : j < f w
    · obtain ⟨k, hk, h1, h2⟩ := ih hj
      exact ⟨k, by omega, h1, h2⟩
    · exact ⟨w, by omega, by omega, hw⟩

theorem spawn_ranges_cover (n w : Nat) (hw : 0 < w) (hw31 : w < 2 ^ 31) (j : Nat)
    (hj : j < n) :
    ∃ (k : Nat) (r : Nat × Nat), (spawn_ranges n (w : Int))[k]? = some r ∧ r.1 ≤ j ∧ j < r.2 := by
  have hend := div_mul_add_min n w hw
  obtain ⟨k, hk, h1, h2⟩ :=
    exists_step_between (fun k => k * (n / w) + min k (n % w)) w j (by simp) (by
      show j < w * (n / w) + min w (n % w)
      omega)
  exact ⟨k, _, spawn_ranges_getElem n w hw hw31 k hk, h1, h2⟩

theorem spawn_ranges_le (n w : Nat) (hw : 0 < w) (hw31 : w < 2 ^ 31) :
    ∀ r ∈ spawn_ranges n (w : Int), r.2 ≤ n := by
  intro r hr
  obtain ⟨k, hk⟩ := List.mem_iff_getElem?.1 hr
  obtain ⟨hklt, _⟩ := List.getElem?_eq_some.1 hk
  rw [spawn_ranges_length] at hklt
  rw [spawn_ranges_getElem n w hw hw31 k hklt] at hk
  cases hk
  have hend := div_mul_add_min n w hw
  have h1 : (k + 1) * (n / w) ≤ w * (n / w) := Nat.mul_le_mul_right _ (by omega)
  show (k + 1) * (n / w) + min (k + 1) (n % w) ≤ n
  omega

theorem pool_final {arr : List α} {t : α} {g0 : Option Nat} {ranges : List (Nat × Nat)}
    {p : Pool} (h : PoolInv arr t g0 ranges p)
    (hfin : ∀ w ∈ p.threads, ∃ res, w = Worker.finished res)
    (hcover : ∀ j, j < arr.length →
      ∃ (k : Nat) (r : Nat × Nat), ranges[k]? = some r ∧ r.1 ≤ j ∧ j < r.2) :
    p.global_min_index_ = settle g0 (first_above t arr) := by
  obtain ⟨hlen, ⟨hg1, hg2⟩, hw⟩ := h
  cases hm : first_above t arr with
  | none =>
    have hno := (first_above_none_iff t arr).1 hm
    rcases hg1 with hg | ⟨v, _, hv⟩
    · rw [hg]
      cases g0 <;> rfl
    · exact absurd hv (hno v)
  | some m =>
    obtain ⟨hab, hmin⟩ := (first_above_some_iff t arr m).1 hm
    obtain ⟨k, r, hrk, hr1, hr2⟩ := hcover m (above_lt_length hab)
    have hkr : k < ranges.length := (List.getElem?_eq_some.1 hrk).1
    have hkt : k < p.threads.length := hlen ▸ hkr
    have hwk : p.threads[k]? = some p.threads[k] := List.getElem?_eq_getElem hkt
    obtain ⟨res, hres⟩ := hfin _ (List.getElem_mem hkt)
    have hi := hw k r _ hrk hwk
    rw [hres] at hi
    obtain ⟨idx, early⟩ := res
    cases idx with
    | none =>
      cases early with
      | false => exact absurd hab (hi m hr1 hr2)
      | true =>
        obtain ⟨i, v, hgv, hvi, hri, _, hno⟩ := hi
        have him : i ≤ m := by
          by_contra hcon
          exact hno m hr1 (by omega) hab
        rcases hg1 with hg | ⟨v2, hv2, hab2⟩
        · rw [hgv] at hg
          rw [hgv, ← hg]
          have : ¬ m ≤ v := by omega
          simp [settle, this]
        · rw [hgv] at hv2
          cases hv2
          exact absurd hab2 (hmin v (by omega))
    | some l =>
      cases early with
      | true => exact absurd hi (by simp [WorkerInv])
      | false =>
        obtain ⟨hl1, hl2, habl, hno, v, hgv, hvl⟩ := hi
        have hlm : l = m := by
          have h1 : ¬ l < m := fun hc => hmin l hc habl
          have h2 : ¬ m < l := fun hc => hno m hr1 hc hab
          omega
        subst hlm
        rcases hg1 with hg | ⟨v2, hv2, hab2⟩
        · rw [hgv] at hg
          rw [hgv, ← hg]
          by_cases hlv : l ≤ v
          · have : v = l := by omega
            simp [settle, this]
          · simp [settle, hlv]
        · rw [hgv] at hv2
          cases hv2
          have hvm : v = l := by
            have h1 : ¬ v < l := fun hc => hmin v hc hab2
            omega
          subst hvm
          rw [hgv]
          cases g0 with
          | none => rfl
          | some v0 =>
            obtain ⟨v', hv', hle⟩ := hg2 v0 rfl
            rw [hgv] at hv'
            cases hv'
            simp [settle, hle]

/-- What a call does whenever it gets past the creation of the threads: the configured
count is at least one and the array size converts to a positive `int`. -/
theorem solve_running (self : ParallelSolver) (arr : List α) (t : α) (sched : List Nat)
    (hw : 1 ≤ self.num_threads_) (hlen : 0 < static_cast_int arr.length) :
    ∃ results,
      self.solve arr t sched =
        { returned := read_result arr (settle self.global_min_index_ (first_above t arr)),
          spawned := spawn_ranges arr.length (min self.num_threads_ (static_cast_int arr.length)),
          reported_early := early_reports results,
          solver :=
            { num_threads_ := self.num_threads_,
              global_min_index_ := settle self.global_min_index_ (first_above t arr) } } := by
  have hempty : arr.isEmpty = false := by
    cases arr with
    | nil => simp [static_cast_int] at hlen
    | cons x rest => rfl
  have hcle := static_cast_int_le arr.length
  have hc31 := static_cast_int_lt arr.length
  obtain ⟨w, hwdef⟩ : ∃ w : Nat, min self.num_threads_ (static_cast_int arr.length) = (w : Int) :=
    ⟨(min self.num_threads_ (static_cast_int arr.length)).toNat, (Int.toNat_of_nonneg (by
      exact le_min (by omega) (by omega))).symm⟩
  have hwpos : 0 < w := by
    have h1 : (1 : Int) ≤ min self.num_threads_ (static_cast_int arr.length) :=
      le_min hw (by omega)
    omega
  have hwle : w ≤ arr.length := by
    have h1 : min self.num_threads_ (static_cast_int arr.length) ≤ static_cast_int arr.length :=
      min_le_right _ _
    omega
  have hw31 : w < 2 ^ 31 := by
    have h1 : min self.num_threads_ (static_cast_int arr.length) ≤ static_cast_int arr.length :=
      min_le_right _ _
    omega
  have hr := spawn_ranges_le arr.length w hwpos hw31
  have hcover := spawn_ranges_cover arr.length w hwpos hw31
  obtain ⟨hinv, hfin⟩ :=
    run_threads_finished (t := t) self.global_min_index_ hr sched
  obtain ⟨results, hres⟩ := collect_finished _ hfin
  have hfinal := pool_final hinv hfin hcover
  refine ⟨results, ?_⟩
  have hn0 : ¬ ((w : Int) < 0) := by omega
  have hn1 : ¬ ((w : Int) = 0) := by omega
  simp only [ParallelSolver.solve, hempty, hwdef, hn0, hn1, if_false, hres, hfinal,
    Bool.false_eq_true]

/-- What a call does when it stops before the creation of the threads. -/
theorem solve_stopped (self : ParallelSolver) (arr : List α) (t : α) (sched : List Nat)
    (h : arr = [] ∨ min self.num_threads_ (static_cast_int arr.length) ≤ 0) :
    self.solve arr t sched =
      { returned :=
          if arr = [] then .ok none
          else if min self.num_threads_ (static_cast_int arr.length) < 0 then
            .error .length_error
          else .error .division_by_zero,
        spawned := [], reported_early := [], solver := self } := by
  cases arr with
  | nil => simp [ParallelSolver.solve]
  | cons x rest =>
    rcases h with h | h
    · cases h
    · have hne : ¬ (x :: rest) = [] := List.cons_ne_nil x rest
      by_cases hneg : min self.num_threads_ (static_cast_int (x :: rest).length) < 0
      · simp only [ParallelSolver.solve, List.isEmpty_cons, Bool.false_eq_true, if_false, hneg,
          if_true, hne]
      · have hz : min self.num_threads_ (static_cast_int (x :: rest).length) = 0 := by omega
        simp only [ParallelSolver.solve, List.isEmpty_cons, Bool.false_eq_true, if_false, hz,
          lt_self_iff_false, if_true, hne]

theorem read_result_first_above (arr : List α) (t : α) :
    read_result arr (first_above t arr) = .ok (SequentialSolver.solve arr t) := by
  rw [solve_eq_scan, scan_eq_first_above]
  cases hm : first_above t arr with
  | none => rfl
  | some m =>
    obtain ⟨⟨x, hx, _⟩, _⟩ := (first_above_some_iff t arr m).1 hm
    simp [read_result, hx]

theorem settle_none (m : Option Nat) : settle none m = m := rfl

end Solve

section Helpers

open StdThreads

variable {α : Type} [LinearOrder α]

theorem solve_size_negative (self : ParallelSolver) (arr : List α) (t : α) (sched : List Nat)
    (hne : arr ≠ []) (h : static_cast_int arr.length < 0) :
    self.solve arr t sched =
      { returned := .error .length_error, spawned := [], reported_early := [],
        solver := self } := by
  have hmin : min self.num_threads_ (static_cast_int arr.length) < 0 :=
    lt_of_le_of_lt (min_le_right _ _) h
  rw [solve_stopped self arr t sched (Or.inr (le_of_lt hmin))]
  simp only [hne, if_false, hmin, if_true]

theorem solve_count_negative (self : ParallelSolver) (arr : List α) (t : α) (sched : List Nat)
    (hne : arr ≠ []) (h : self.num_threads_ < 0) :
    self.solve arr t sched =
      { returned := .error .length_error, spawned := [], reported_early := [],
        solver := self } := by
  have hmin : min self.num_threads_ (static_cast_int arr.length) < 0 :=
    lt_of_le_of_lt (min_le_left _ _) h
  rw [solve_stopped self arr t sched (Or.inr (le_of_lt hmin))]
  simp only [hne, if_false, hmin, if_true]

theorem replicate_ne_nil {β : Type} (n : Nat) (x : β) (hn : 0 < n) :
    List.replicate n x ≠ [] := by
  intro h
  have h2 := congrArg List.length h
  rw [List.length_replicate] at h2
  simp only [List.length_nil] at h2
  omega

theorem static_cast_int_two_pow_31 : static_cast_int (2 ^ 31) < 0 := by decide

theorem spawned_count (self : ParallelSolver) (arr : List α) (t : α) (sched : List Nat)
    (hw : 1 ≤ self.num_threads_) (hne : arr ≠ []) (hlen : arr.length < 2 ^ 31) :
    ((self.solve arr t sched).spawned.length : Int) = min self.num_threads_ (arr.length : Int) ∧
    (1 : Int) ≤ min self.num_threads_ (arr.length : Int) := by
  have hpos : 0 < arr.length := List.length_pos.2 hne
  have hcast := static_cast_int_of_lt hlen
  have hlen' : 0 < static_cast_int arr.length := by omega
  obtain ⟨results, hres⟩ := solve_running self arr t sched hw hlen'
  have h1 : (1 : Int) ≤ min self.num_threads_ (arr.length : Int) := le_min hw (by omega)
  refine ⟨?_, h1⟩
  rw [hres, hcast]
  show ((spawn_ranges arr.length (min self.num_threads_ (arr.length : Int))).length : Int) = _
  unfold spawn_ranges
  rw [spawn_loop_length]
  exact Int.toNat_of_nonneg (by omega)

theorem sequential_some_iff (arr : List α) (t : α) (v : α) :
    SequentialSolver.solve arr t = some v ↔
      ∃ i : Nat, arr[i]? = some v ∧ v > t ∧
        ∀ (j : Nat) (x : α), j < i → arr[j]? = some x → x ≤ t := by
  rw [solve_eq_scan, scan_eq_first_above]
  constructor
  · intro h
    cases hm : first_above t arr with
    | none => rw [hm] at h; cases h
    | some i =>
      rw [hm] at h
      obtain ⟨⟨x, hx, hxt⟩, hmin⟩ := (first_above_some_iff t arr i).1 hm
      have hv : arr[i]? = some v := h
      rw [hx] at hv
      cases hv
      exact ⟨i, hx, hxt, fun j y hj hy => not_lt.1 (fun hyt => hmin j hj ⟨y, hy, hyt⟩)⟩
  · rintro ⟨i, hi, hvt, hmin⟩
    have hm : first_above t arr = some i :=
      (first_above_some_iff t arr i).2
        ⟨⟨v, hi, hvt⟩, fun j hj ⟨y, hy, hyt⟩ => absurd hyt (not_lt.2 (hmin j y hj hy))⟩
    rw [hm]
    exact hi

theorem sequential_none_iff (arr : List α) (t : α) :
    SequentialSolver.solve arr t = none ↔ ∀ x ∈ arr, x ≤ t := by
  rw [solve_eq_scan, scan_eq_first_above]
  constructor
  · intro h
    cases hm : first_above t arr with
    | none =>
      intro x hx
      obtain ⟨j, hj⟩ := List.mem_iff_getElem?.1 hx
      exact not_lt.1 (fun hxt => (first_above_none_iff t arr).1 hm j ⟨x, hj, hxt⟩)
    | some i =>
      rw [hm] at h
      obtain ⟨⟨x, hx, _⟩, _⟩ := (first_above_some_iff t arr i).1 hm
      have hv : arr[i]? = none := h
      rw [hx] at hv
      cases hv
  · intro h
    have hm : first_above t arr = none :=
      (first_above_none_iff t arr).2 (fun j ⟨x, hx, hxt⟩ =>
        absurd hxt (not_lt.2 (h x (List.mem_iff_getElem?.2 ⟨j, hx⟩))))
    rw [hm]
    rfl

/-- A call on a solver whose shared index is still empty returns what the sequential scan
returns. -/
theorem fresh_solve_returned (self : ParallelSolver) (arr : List α) (t : α) (sched : List Nat)
    (hfresh : self.global_min_index_ = none) (hw : 1 ≤ self.num_threads_)
    (hne : arr ≠ []) (hlen : arr.length < 2 ^ 31) :
    (self.solve arr t sched).returned = .ok (SequentialSolver.solve arr t) := by
  have hpos : 0 < arr.length := List.length_pos.2 hne
  have hcast := static_cast_int_of_lt hlen
  obtain ⟨results, hres⟩ := solve_running self arr t sched hw (by omega)
  rw [hres]
  show read_result arr (settle self.global_min_index_ (first_above t arr)) = _
  rw [hfresh, settle_none, read_result_first_above]

theorem ne_nil_of_le_length {β : Type} (arr : List β) (w : Int) (hw1 : 1 ≤ w)
    (hw2 : w ≤ (arr.length : Int)) : arr ≠ [] := by
  intro h
  subst h
  simp only [List.length_nil, Nat.cast_zero] at hw2
  omega

theorem range_start_mono (q r a b : Nat) (h : a ≤ b) : a * q + min a r ≤ b * q + min b r := by
  have h1 : a * q ≤ b * q := Nat.mul_le_mul_right q h
  omega

theorem ceil_div_of_mod_pos (n w : Nat) (hw : 0 < w) (hr : 0 < n % w) :
    (n + w - 1) / w = n / w + 1 := by
  have h1 := Nat.div_add_mod n w
  have h2 : n % w < w := Nat.mod_lt n hw
  have e1 : (n / w + 1) * w = w * (n / w) + w := by ring
  have e2 : (n / w + 1 + 1) * w = w * (n / w) + w + w := by ring
  apply Nat.div_eq_of_lt_le
  · rw [e1]
    omega
  · rw [e2]
    omega

end Helpers

section Claims

open StdThreads

variable {α : Type} [LinearOrder α]

/-- C2: `SequentialSolver::solve` returns the element at the smallest index whose element is
strictly greater than the threshold (every earlier element is at most the threshold), and
returns `std::nullopt` exactly when every element is at most the threshold. -/
theorem sequential_solve_first_above (arr : List α) (t : α) :
    (∀ v, SequentialSolver.solve arr t = some v ↔
      ∃ i : Nat, arr[i]? = some v ∧ v > t ∧
        ∀ (j : Nat) (x : α), j < i → arr[j]? = some x → x ≤ t) ∧
    (SequentialSolver.solve arr t = none ↔ ∀ x ∈ arr, x ≤ t) :=
  ⟨sequential_some_iff arr t, sequential_none_iff arr t⟩

/-- C1 (amended): for every array with fewer than `2^31` elements, every threshold and every
worker count `w` with `1 ≤ w ≤ len`, `solve` on a freshly constructed `ParallelSolver(w)`
returns, under every interleaving of its threads, the value `SequentialSolver::solve`
returns. A schedule is any list of thread numbers; listing one thread after the other, each
`len + 2` times in a row, runs the threads to completion one after another in that order. -/
theorem parallel_solve_eq_sequential (arr : List α) (t : α) (w : Int) (hc : Nat)
    (sched : List Nat) (hw1 : 1 ≤ w) (hw2 : w ≤ (arr.length : Int))
    (hlen : arr.length < 2 ^ 31) :
    ((ParallelSolver.construct (some w) hc).solve arr t sched).returned =
      .ok (SequentialSolver.solve arr t) :=
  fresh_solve_returned _ arr t sched rfl hw1 (ne_nil_of_le_length arr w hw1 hw2) hlen

/-- C1, scenario 1: the array `[1,2,3,9,10,2,8]` with threshold 5 and three workers gives 9,
the element on the first index of the second range. -/
theorem parallel_solve_eq_sequential_witness :
    (1 : Int) ≤ 3 ∧ (3 : Int) ≤ (([1, 2, 3, 9, 10, 2, 8] : List Int).length : Int) ∧
    ([1, 2, 3, 9, 10, 2, 8] : List Int).length < 2 ^ 31 ∧
    ((ParallelSolver.construct (some 3) 8).solve [1, 2, 3, 9, 10, 2, 8] (5 : Int)
      [2, 2, 1, 0, 2]).returned = .ok (some 9) :=
  ⟨by decide, by decide, by decide,
    (parallel_solve_eq_sequential [1, 2, 3, 9, 10, 2, 8] (5 : Int) 3 8 [2, 2, 1, 0, 2]
      (by decide) (by decide) (by decide)).trans (by decide)⟩

/-- C1 as stated fails for an array of `2^31` elements: with one worker the call ends in
`std::length_error` while the sequential solver returns a value. -/
theorem parallel_solve_long_array :
    (1 : Int) ≤ 1 ∧ (1 : Int) ≤ ((List.replicate (2 ^ 31) (1 : Int)).length : Int) ∧
    ((ParallelSolver.construct (some 1) 8).solve (List.replicate (2 ^ 31) (1 : Int)) 0
      []).returned ≠ .ok (SequentialSolver.solve (List.replicate (2 ^ 31) (1 : Int)) 0) := by
  refine ⟨by decide, ?_, ?_⟩
  · rw [List.length_replicate]
    decide
  · rw [solve_size_negative _ _ _ _ (replicate_ne_nil _ _ (by decide))
      (by rw [List.length_replicate]; exact static_cast_int_two_pow_31)]
    intro h
    cases h

/-- C3 at the failing input: on one `ParallelSolver(1)`, after `solve([10], 5)` returned 10,
the call `solve([1, 7], 5)` returns 1, the element at the index left over from the first
call, while a freshly constructed solver returns 7. -/
theorem second_call_reads_stale_index :
    ((ParallelSolver.construct (some 1) 8).solve [10] (5 : Int) []).returned =
      .ok (some 10) ∧
    (((ParallelSolver.construct (some 1) 8).solve [10] (5 : Int) []).solver.solve [1, 7]
      (5 : Int) []).returned = .ok (some 1) ∧
    ((ParallelSolver.construct (some 1) 8).solve [1, 7] (5 : Int) []).returned =
      .ok (some 7) := by
  refine ⟨by decide, by decide, by decide⟩

/-- C4 (amended): for every configured worker count `c ≥ 1` and every non-empty array with
fewer than `2^31` elements, `solve` creates exactly `min(c, len)` threads, which is
`max(1, min(c, len))`; the divisor of the chunk size is that positive number and the call
returns a value. -/
theorem worker_count_clamped (arr : List α) (t : α) (c : Int) (hc : Nat) (sched : List Nat)
    (hc1 : 1 ≤ c) (hne : arr ≠ []) (hlen : arr.length < 2 ^ 31) :
    (((ParallelSolver.construct (some c) hc).solve arr t sched).spawned.length : Int) =
      max 1 (min c (arr.length : Int)) ∧
    min (ParallelSolver.construct (some c) hc).num_threads_ (static_cast_int arr.length) =
      max 1 (min c (arr.length : Int)) ∧
    ((ParallelSolver.construct (some c) hc).solve arr t sched).returned =
      .ok (SequentialSolver.solve arr t) := by
  obtain ⟨h1, h2⟩ :=
    spawned_count (ParallelSolver.construct (some c) hc) arr t sched hc1 hne hlen
  have h3 : (ParallelSolver.construct (some c) hc).num_threads_ = c := rfl
  rw [h3] at h1 h2
  refine ⟨?_, ?_, fresh_solve_returned _ arr t sched rfl hc1 hne hlen⟩
  · rw [h1, max_eq_right h2]
  · rw [h3, static_cast_int_of_lt hlen, max_eq_right h2]

/-- C4, scenario 3: the array `[6]` with threshold 5 and four configured workers is searched
by one thread and gives 6. -/
theorem worker_count_clamped_witness :
    (1 : Int) ≤ 4 ∧ ([6] : List Int) ≠ [] ∧ ([6] : List Int).length < 2 ^ 31 ∧
    (((ParallelSolver.construct (some 4) 8).solve [6] (5 : Int) []).spawned.length : Int) = 1 ∧
    ((ParallelSolver.construct (some 4) 8).solve [6] (5 : Int) []).returned = .ok (some 6) :=
  ⟨by decide, by decide, by decide,
    (worker_count_clamped [6] (5 : Int) 4 8 [] (by decide) (by decide) (by decide)).1.trans
      (by decide),
    (worker_count_clamped [6] (5 : Int) 4 8 [] (by decide) (by decide) (by decide)).2.2.trans
      (by decide)⟩

/-- C4 as stated fails: with configured count 0 on `[6]` the divisor is 0, the call ends in
a division by zero and no thread is created, where the claim has one thread; with count 1
on an array of `2^31` elements no thread is created either. -/
theorem worker_count_not_clamped_below :
    ((ParallelSolver.construct (some 0) 8).solve [6] (5 : Int) []).returned =
      .error .division_by_zero ∧
    min (ParallelSolver.construct (some 0) 8).num_threads_
      (static_cast_int ([6] : List Int).length) = 0 ∧
    (((ParallelSolver.construct (some 0) 8).solve [6] (5 : Int) []).spawned.length : Int) ≠
      max 1 (min 0 (([6] : List Int).length : Int)) ∧
    (((ParallelSolver.construct (some 1) 8).solve (List.replicate (2 ^ 31) (6 : Int)) 5
      []).spawned.length : Int) ≠
      max 1 (min 1 ((List.replicate (2 ^ 31) (6 : Int)).length : Int)) := by
  refine ⟨by decide, by decide, by decide, ?_⟩
  rw [solve_size_negative _ _ _ _ (replicate_ne_nil _ _ (by decide))
    (by rw [List.length_replicate]; exact static_cast_int_two_pow_31), List.length_replicate]
  decide

/-- C5 (amended): a negative worker count on the command line makes `main` return status 1
before it creates a solver. The constructor of `ParallelSolver` itself stores a negative
count unchanged; `solve` on such a solver with a non-empty array then ends in
`std::length_error` before any thread is created, and on the empty array returns
`std::nullopt`. -/
theorem negative_count_rejected_by_main (atoi : String → Int) (program a : String) (v : Int)
    (hc : Nat) (arr : List α) (t : α) (sched : List Nat)
    (hv : v < 0) (ha : atoi a = v) (hh1 : a ≠ "-h") (hh2 : a ≠ "--help") (hne : arr ≠ []) :
    OpenMP.main atoi [program, a] = .exit_status 1 ∧
    (ParallelSolver.construct (some v) hc).num_threads_ = v ∧
    (ParallelSolver.construct (some v) hc).solve arr t sched =
      { returned := .error .length_error, spawned := [], reported_early := [],
        solver := ParallelSolver.construct (some v) hc } ∧
    ((ParallelSolver.construct (some v) hc).solve ([] : List α) t sched).returned =
      .ok none := by
  refine ⟨?_, rfl, solve_count_negative _ arr t sched hne hv, ?_⟩
  · simp [OpenMP.main, hh1, hh2, ha, hv]
  · simp [ParallelSolver.solve]

/-- C5 at the argument `-3`: `main` returns 1, and a solver constructed with `-3` fails in
`solve` on `[1]` with `std::length_error`. -/
theorem negative_count_rejected_by_main_witness :
    OpenMP.main (fun _ => -3) ["solver", "-3"] = .exit_status 1 ∧
    ((ParallelSolver.construct (some (-3)) 8).solve [1] (0 : Int) []).returned =
      .error .length_error :=
  ⟨(negative_count_rejected_by_main (fun _ => -3) "solver" "-3" (-3) 8 [1] (0 : Int) []
      (by decide) rfl (by decide) (by decide) (by decide)).1,
    congrArg Outcome.returned
      (negative_count_rejected_by_main (fun _ => -3) "solver" "-3" (-3) 8 [1] (0 : Int) []
        (by decide) rfl (by decide) (by decide) (by decide)).2.2.1⟩

/-- C5 as stated fails: the constructor accepts `-1` and stores it, and `solve` then runs
with the thread count `min(-1, 1) = -1` until `reserve` throws. -/
theorem constructor_accepts_negative_count :
    ParallelSolver.construct (some (-1)) 8 =
      { num_threads_ := -1, global_min_index_ := none } ∧
    min (ParallelSolver.construct (some (-1)) 8).num_threads_
      (static_cast_int ([1] : List Int).length) = -1 ∧
    ((ParallelSolver.construct (some (-1)) 8).solve [1] (0 : Int) []).returned =
      .error .length_error := by
  refine ⟨by decide, by decide, by decide⟩

/-- C6: for every array length `n ≥ 1` and every worker count `w` (an `int`) with
`1 ≤ w ≤ n`, the loop of `solve` creates exactly `w` ranges, in ascending order; range `k`
has `⌈n/w⌉` elements when `k < n mod w` and `⌊n/w⌋` elements otherwise, so that no range is
empty and two sizes differ by at most one. -/
theorem partition_sizes (n w : Nat) (hw1 : 1 ≤ w) (hw2 : w ≤ n) (hw31 : w < 2 ^ 31) :
    (spawn_ranges n (w : Int)).length = w ∧
    (∀ k : Nat, k < w → ∃ s e : Nat, (spawn_ranges n (w : Int))[k]? = some (s, e) ∧ s < e ∧
      e - s = (if k < n % w then (n + w - 1) / w else n / w)) ∧
    (∀ k k2 s e s2 e2 : Nat, (spawn_ranges n (w : Int))[k]? = some (s, e) →
      (spawn_ranges n (w : Int))[k2]? = some (s2, e2) →
      (k < k2 → e ≤ s2) ∧ e - s ≤ (e2 - s2) + 1) := by
  have hq : 0 < n / w := Nat.div_pos hw2 hw1
  have hget := spawn_ranges_getElem n w hw1 hw31
  refine ⟨spawn_ranges_length n w, ?_, ?_⟩
  · intro k hk
    refine ⟨_, _, hget k hk, ?_, ?_⟩
    · have e1 : (k + 1) * (n / w) = k * (n / w) + n / w := Nat.succ_mul _ _
      omega
    · have e1 : (k + 1) * (n / w) = k * (n / w) + n / w := Nat.succ_mul _ _
      by_cases hkr : k < n % w
      · rw [if_pos hkr, ceil_div_of_mod_pos n w hw1 (by omega)]
        omega
      · rw [if_neg hkr]
        omega
  · intro k k2 s e s2 e2 h1 h2
    have hk : k < w := by
      have := (List.getElem?_eq_some.1 h1).1
      rwa [spawn_ranges_length] at this
    have hk2 : k2 < w := by
      have := (List.getElem?_eq_some.1 h2).1
      rwa [spawn_ranges_length] at this
    rw [hget k hk] at h1
    rw [hget k2 hk2] at h2
    simp only [Option.some.injEq, Prod.mk.injEq] at h1 h2
    obtain ⟨hs, he⟩ := h1
    obtain ⟨hs2, he2⟩ := h2
    subst hs he hs2 he2
    have e1 : (k + 1) * (n / w) = k * (n / w) + n / w := Nat.succ_mul _ _
    have e2 : (k2 + 1) * (n / w) = k2 * (n / w) + n / w := Nat.succ_mul _ _
    refine ⟨fun hlt => range_start_mono (n / w) (n % w) (k + 1) k2 hlt, ?_⟩
    omega

/-- C6 at `n = 7`, `w = 3`: the ranges are `[0,3)`, `[3,5)`, `[5,7)`. -/
theorem partition_sizes_witness :
    1 ≤ 3 ∧ 3 ≤ 7 ∧ 3 < 2 ^ 31 ∧ spawn_ranges 7 3 = [(0, 3), (3, 5), (5, 7)] ∧
    (spawn_ranges 7 ((3 : Nat) : Int)).length = 3 :=
  ⟨by decide, by decide, by decide, by decide,
    (partition_sizes 7 3 (by decide) (by decide) (by decide)).1⟩

/-- C7: for every `n ≥ 1` and every worker count `w` (an `int`) with `1 ≤ w ≤ n`, the ranges
handed to the threads start at 0, each range ends where the next one starts, the last one
ends at `n`, and every index below `n` lies in exactly one range. -/
theorem partition_cover (n w : Nat) (hw1 : 1 ≤ w) (hw2 : w ≤ n) (hw31 : w < 2 ^ 31) :
    (∃ e : Nat, (spawn_ranges n (w : Int))[0]? = some (0, e)) ∧
    (∀ k : Nat, k + 1 < w → ∃ s e e2 : Nat, (spawn_ranges n (w : Int))[k]? = some (s, e) ∧
      (spawn_ranges n (w : Int))[k + 1]? = some (e, e2)) ∧
    (∃ s : Nat, (spawn_ranges n (w : Int))[w - 1]? = some (s, n)) ∧
    (∀ j : Nat, j < n → ∃! k : Nat, ∃ r : Nat × Nat,
      (spawn_ranges n (w : Int))[k]? = some r ∧ r.1 ≤ j ∧ j < r.2) := by
  have _ := hw2
  have hget := spawn_ranges_getElem n w hw1 hw31
  have hend := div_mul_add_min n w hw1
  refine ⟨?_, ?_, ?_, ?_⟩
  · refine ⟨(0 + 1) * (n / w) + min (0 + 1) (n % w), ?_⟩
    rw [hget 0 hw1]
    simp
  · intro k hk
    exact ⟨_, _, _, hget k (by omega), hget (k + 1) hk⟩
  · refine ⟨(w - 1) * (n / w) + min (w - 1) (n % w), ?_⟩
    rw [hget (w - 1) (by omega)]
    have h1 : w - 1 + 1 = w := by omega
    rw [h1, hend]
  · intro j hj
    obtain ⟨k, r, hr, h1, h2⟩ := spawn_ranges_cover n w hw1 hw31 j hj
    refine ⟨k, ⟨r, hr, h1, h2⟩, ?_⟩
    rintro k2 ⟨r2, hr2, h3, h4⟩
    have hk : k < w := by
      have := (List.getElem?_eq_some.1 hr).1
      rwa [spawn_ranges_length] at this
    have hk2 : k2 < w := by
      have := (List.getElem?_eq_some.1 hr2).1
      rwa [spawn_ranges_length] at this
    rw [hget k hk] at hr
    rw [hget k2 hk2] at hr2
    cases hr
    cases hr2
    by_contra hne
    rcases Nat.lt_or_gt_of_ne hne with hlt | hgt
    · have := range_start_mono (n / w) (n % w) (k2 + 1) k hlt
      simp only at h1 h4
      omega
    · have := range_start_mono (n / w) (n % w) (k + 1) k2 hgt
      simp only at h2 h3
      omega

/-- C7 at `n = 7`, `w = 3`: index 4 lies in range number 1 and in no other range. -/
theorem partition_cover_witness :
    1 ≤ 3 ∧ 3 ≤ 7 ∧ 3 < 2 ^ 31 ∧
    ∃! k : Nat, ∃ r : Nat × Nat,
      (spawn_ranges 7 ((3 : Nat) : Int))[k]? = some r ∧ r.1 ≤ 4 ∧ 4 < r.2 :=
  ⟨by decide, by decide, by decide,
    (partition_cover 7 3 (by decide) (by decide) (by decide)).2.2.2 4 (by decide)⟩

/-- C8: on the empty array `ParallelSolver::solve` returns `std::nullopt` for every state of
the solver (any stored worker count, also 0 or negative, any constructor argument) and
every schedule, creates no thread, reports nothing and leaves the solver unchanged, so the
division by the thread count is not reached; `SequentialSolver::solve` and the OpenMP
`ParallelSolver::solve` return `std::nullopt` as well. -/
theorem solve_empty (self : ParallelSolver) (config : Option Int) (hc : Nat) (t : α)
    (sched : List Nat) (assignment : List (List Nat)) :
    self.solve ([] : List α) t sched =
      { returned := .ok none, spawned := [], reported_early := [], solver := self } ∧
    ((ParallelSolver.construct config hc).solve ([] : List α) t sched).returned = .ok none ∧
    ((ParallelSolver.construct config hc).solve ([] : List α) t sched).spawned = [] ∧
    SequentialSolver.solve ([] : List α) t = none ∧
    OpenMP.ParallelSolver.solve ([] : List α) t assignment = .ok none := by
  refine ⟨?_, ?_, ?_, rfl, ?_⟩
  · simp [ParallelSolver.solve]
  · simp [ParallelSolver.solve]
  · simp [ParallelSolver.solve]
  · simp [OpenMP.ParallelSolver.solve]

/-- C9 (amended): for every non-empty array with fewer than `2^31` elements, every threshold
and every worker count `w` with `1 ≤ w ≤ len`, `solve` on a freshly constructed
`ParallelSolver(w)` returns a value under every interleaving; it returns `std::nullopt`
exactly when no element exceeds the threshold, and a returned element belongs to the array
and exceeds the threshold. -/
theorem parallel_solve_sound (arr : List α) (t : α) (w : Int) (hc : Nat) (sched : List Nat)
    (hne : arr ≠ []) (hw1 : 1 ≤ w) (hw2 : w ≤ (arr.length : Int))
    (hlen : arr.length < 2 ^ 31) :
    (∃ r, ((ParallelSolver.construct (some w) hc).solve arr t sched).returned = .ok r) ∧
    (((ParallelSolver.construct (some w) hc).solve arr t sched).returned = .ok none ↔
      ∀ x ∈ arr, x ≤ t) ∧
    (∀ v, ((ParallelSolver.construct (some w) hc).solve arr t sched).returned = .ok (some v) →
      v ∈ arr ∧ v > t) := by
  have _ := hw2
  have h := fresh_solve_returned (ParallelSolver.construct (some w) hc) arr t sched rfl hw1
    hne hlen
  rw [h]
  refine ⟨⟨_, rfl⟩, ?_, ?_⟩
  · rw [← sequential_none_iff arr t]
    constructor
    · intro h2
      exact Except.ok.inj h2
    · intro h2
      rw [h2]
  · intro v hv
    have hv2 : SequentialSolver.solve arr t = some v := Except.ok.inj hv
    obtain ⟨i, hi, hvt, _⟩ := (sequential_some_iff arr t v).1 hv2
    exact ⟨List.mem_iff_getElem?.2 ⟨i, hi⟩, hvt⟩

/-- C9, scenario 2: the array `[10,9,8]` with threshold 100 gives not found for the worker
counts 1, 2 and 3. -/
theorem parallel_solve_sound_witness :
    ([10, 9, 8] : List Int) ≠ [] ∧ ([10, 9, 8] : List Int).length < 2 ^ 31 ∧
    ((ParallelSolver.construct (some 1) 8).solve [10, 9, 8] (100 : Int) []).returned =
      .ok none ∧
    ((ParallelSolver.construct (some 2) 8).solve [10, 9, 8] (100 : Int) [1, 0]).returned =
      .ok none ∧
    ((ParallelSolver.construct (some 3) 8).solve [10, 9, 8] (100 : Int) [2, 0, 1]).returned =
      .ok none :=
  ⟨by decide, by decide,
    (parallel_solve_sound [10, 9, 8] (100 : Int) 1 8 [] (by decide) (by decide) (by decide)
      (by decide)).2.1.2 (by decide),
    (parallel_solve_sound [10, 9, 8] (100 : Int) 2 8 [1, 0] (by decide) (by decide)
      (by decide) (by decide)).2.1.2 (by decide),
    (parallel_solve_sound [10, 9, 8] (100 : Int) 3 8 [2, 0, 1] (by decide) (by decide)
      (by decide) (by decide)).2.1.2 (by decide)⟩

/-- C9 as stated fails for an array of `2^31` zeros with threshold 0 and one worker: no
element exceeds the threshold, yet the call does not return `std::nullopt`, it ends in
`std::length_error`. -/
theorem parallel_solve_long_array_not_found :
    List.replicate (2 ^ 31) (0 : Int) ≠ [] ∧
    (1 : Int) ≤ ((List.replicate (2 ^ 31) (0 : Int)).length : Int) ∧
    (∀ x ∈ List.replicate (2 ^ 31) (0 : Int), x ≤ 0) ∧
    ((ParallelSolver.construct (some 1) 8).solve (List.replicate (2 ^ 31) (0 : Int)) 0
      []).returned ≠ .ok none := by
  refine ⟨replicate_ne_nil _ _ (by decide), ?_, ?_, ?_⟩
  · rw [List.length_replicate]
    decide
  · intro x hx
    rw [List.eq_of_mem_replicate hx]
  · rw [solve_size_negative _ _ _ _ (replicate_ne_nil _ _ (by decide))
      (by rw [List.length_replicate]; exact static_cast_int_two_pow_31)]
    intro h
    cases h

end Claims

section Interleavings

open StdThreads

variable {α : Type} [LinearOrder α]

theorem all_returned_finished (threads : List Worker)
    (h : threads.all Worker.has_returned = true) :
    ∀ w ∈ threads, ∃ res, w = Worker.finished res := by
  intro w hw
  have h2 := List.all_eq_true.1 h w hw
  cases w with
  | finished res => exact ⟨res, rfl⟩
  | scanning i e => cases h2
  | found l => cases h2
  | crashed => cases h2

theorem finished_all_returned (threads : List Worker)
    (h : ∀ w ∈ threads, ∃ res, w = Worker.finished res) :
    threads.all Worker.has_returned = true := by
  apply List.all_eq_true.2
  intro w hw
  obtain ⟨res, hres⟩ := h w hw
  rw [hres]
  rfl

/-- From an empty shared index, whenever all threads of a covering set of ranges have
returned, the shared index is the first index above the threshold. -/
theorem pool_race_free {arr : List α} {t : α} {ranges : List (Nat × Nat)}
    (hr : ∀ r ∈ ranges, r.2 ≤ arr.length)
    (hcover : ∀ j, j < arr.length →
      ∃ (k : Nat) (r : Nat × Nat), ranges[k]? = some r ∧ r.1 ≤ j ∧ j < r.2)
    (sched : List Nat)
    (hfin : ((spawned_pool ranges none).run arr t sched).threads.all Worker.has_returned = true) :
    ((spawned_pool ranges none).run arr t sched).global_min_index_ = first_above t arr := by
  have hinv := pool_run_inv hr sched _ (pool_init_inv arr t none ranges)
  have h := pool_final hinv (all_returned_finished _ hfin) hcover
  rw [settle_none] at h
  exact h

theorem run_threads_eq_run (arr : List α) (t : α) (ranges : List (Nat × Nat))
    (g : Option Nat) (sched : List Nat) :
    run_threads arr t ranges g sched =
      (spawned_pool ranges g).run arr t (sched ++ join_schedule arr.length ranges.length) := by
  rw [pool_run_append]
  rfl

theorem worker_thread_lowered (arr : List α) (t : α) (w : Worker) (g : Option Nat) :
    Lowered (worker_thread arr t w g).2 g := by
  cases w with
  | finished res => exact lowered_refl g
  | crashed => exact lowered_refl g
  | found l => exact update_global_lowered g l
  | scanning i e =>
    unfold worker_thread
    by_cases hie : i < e
    · simp only [hie, if_true]
      by_cases hx : exit_early_test g i = true
      · simp only [hx, if_true]
        exact lowered_refl g
      · simp only [hx, Bool.false_eq_true, if_false]
        cases arr[i]? with
        | none => exact lowered_refl g
        | some x =>
          by_cases hgt : x > t
          · simp only [hgt, if_true]
            exact lowered_refl g
          · simp only [hgt, if_false]
            exact lowered_refl g
    · simp only [hie, if_false]
      exact lowered_refl g

theorem pool_step_lowered (arr : List α) (t : α) (p : Pool) (k : Nat) :
    Lowered (p.step arr t k).global_min_index_ p.global_min_index_ := by
  unfold Pool.step
  cases hk : p.threads[k]? with
  | none => exact lowered_refl _
  | some w => exact worker_thread_lowered arr t w _

theorem pool_run_lowered (arr : List α) (t : α) (sched : List Nat) (p : Pool) :
    Lowered (p.run arr t sched).global_min_index_ p.global_min_index_ := by
  induction sched generalizing p with
  | nil => exact lowered_refl _
  | cons k rest ih => exact lowered_trans (ih (p.step arr t k)) (pool_step_lowered arr t p k)

theorem worker_thread_local {arr : List α} {t : α} {s e : Nat} {w : Worker}
    (h : LocalInv arr t s e w) (g : Option Nat) :
    LocalInv arr t s e (worker_thread arr t w g).1 := by
  cases w with
  | finished res => exact h
  | crashed => exact h
  | found l => exact h
  | scanning i end_idx =>
    obtain ⟨he, hsi, hno⟩ := h
    unfold worker_thread
    by_cases hie : i < end_idx
    · simp only [hie, if_true]
      by_cases hx : exit_early_test g i = true
      · simp only [hx, if_true]
        trivial
      · simp only [hx, Bool.false_eq_true, if_false]
        cases hget : arr[i]? with
        | none => trivial
        | some x =>
          by_cases hgt : x > t
          · simp only [hgt, if_true]
            exact ⟨hsi, he ▸ hie, ⟨x, hget, hgt⟩, hno⟩
          · simp only [hgt, if_false]
            refine ⟨he, by omega, ?_⟩
            intro j hj1 hj2
            by_cases hji : j = i
            · subst hji
              exact ⟨x, hget, not_lt.1 hgt⟩
            · exact hno j hj1 (by omega)
    · simp only [hie, if_false]
      intro j hj1 hj2
      exact hno j hj1 (by omega)

theorem pool_run_local {arr : List α} {t : α} {s e : Nat} (k : Nat) (sched : List Nat)
    (p : Pool) (h : ∃ w, p.threads[k]? = some w ∧ LocalInv arr t s e w) :
    ∃ w, (p.run arr t sched).threads[k]? = some w ∧ LocalInv arr t s e w := by
  induction sched generalizing p with
  | nil => exact h
  | cons k2 rest ih =>
    apply ih
    obtain ⟨w, hw, hinv⟩ := h
    unfold Pool.step
    cases hk2 : p.threads[k2]? with
    | none => exact ⟨w, hw, hinv⟩
    | some w2 =>
      obtain ⟨hlt, _⟩ := List.getElem?_eq_some.1 hk2
      by_cases hkk : k2 = k
      · subst hkk
        rw [hw] at hk2
        cases hk2
        exact ⟨_, List.getElem?_set_self hlt, worker_thread_local hinv _⟩
      · exact ⟨w, by simp only [List.getElem?_set_ne hkk, hw], hinv⟩

end Interleavings

section WorkerClaims

open StdThreads

variable {α : Type} [LinearOrder α]

/-- Race safety of a first call: with every guarded section of `worker_thread` taken as one
atomic step, for every interleaving `sched` of the steps of the threads that `solve` creates
for `w` workers on a solver whose shared index is still empty, once all threads have
returned the member `global_min_index_` holds the smallest index whose element exceeds the
threshold (and is empty exactly when there is none), so the element read from it is the one
the sequential scan returns; and after the join loop all threads have returned and the
member holds that index. -/
theorem race_safety (arr : List α) (t : α) (w : Nat) (sched : List Nat) (p : Pool)
    (hw1 : 1 ≤ w) (hw31 : w < 2 ^ 31)
    (hp : p = (spawned_pool (spawn_ranges arr.length (w : Int)) none).run arr t sched)
    (hfin : p.threads.all Worker.has_returned = true) :
    (∀ i : Nat, p.global_min_index_ = some i ↔
      (∃ x, arr[i]? = some x ∧ x > t) ∧
        ∀ (j : Nat) (y : α), j < i → arr[j]? = some y → y ≤ t) ∧
    (p.global_min_index_ = none ↔ ∀ y ∈ arr, y ≤ t) ∧
    read_result arr p.global_min_index_ = .ok (SequentialSolver.solve arr t) ∧
    (run_threads arr t (spawn_ranges arr.length (w : Int)) none sched).threads.all
      Worker.has_returned = true ∧
    (run_threads arr t (spawn_ranges arr.length (w : Int)) none sched).global_min_index_ =
      first_above t arr := by
  subst hp
  have hr := spawn_ranges_le arr.length w hw1 hw31
  have hg := pool_race_free (t := t) hr (spawn_ranges_cover arr.length w hw1 hw31) sched hfin
  have hjoin := run_threads_finished (t := t) none hr sched
  have hlast := pool_final hjoin.1 hjoin.2 (spawn_ranges_cover arr.length w hw1 hw31)
  rw [settle_none] at hlast
  rw [hg]
  refine ⟨?_, ?_, read_result_first_above arr t, ?_, hlast⟩
  · intro i
    rw [first_above_some_iff]
    constructor
    · rintro ⟨hab, hmin⟩
      exact ⟨hab, fun j y hj hy => not_lt.1 (fun hyt => hmin j hj ⟨y, hy, hyt⟩)⟩
    · rintro ⟨hab, hmin⟩
      exact ⟨hab, fun j hj ⟨y, hy, hyt⟩ => absurd hyt (not_lt.2 (hmin j y hj hy))⟩
  · rw [first_above_none_iff]
    constructor
    · intro h y hy
      obtain ⟨j, hj⟩ := List.mem_iff_getElem?.1 hy
      exact not_lt.1 (fun hyt => h j ⟨y, hj, hyt⟩)
    · rintro h j ⟨y, hy, hyt⟩
      exact absurd hyt (not_lt.2 (h y (List.mem_iff_getElem?.2 ⟨j, hy⟩)))
  · exact finished_all_returned _ (run_threads_finished (t := t) none hr sched).2

/-- A first call on `[1, 7, 3, 8]` with threshold 5 and two workers: the thread of the second
range records index 3 first, the thread of the first range then lowers the shared index to
1, and the element read is 7. -/
theorem race_safety_witness :
    1 ≤ 2 ∧ 2 < 2 ^ 31 ∧
    ((spawned_pool (spawn_ranges 4 ((2 : Nat) : Int)) none).run [1, 7, 3, 8] (5 : Int)
      [1, 1, 1]).global_min_index_ = some 3 ∧
    ((spawned_pool (spawn_ranges 4 ((2 : Nat) : Int)) none).run [1, 7, 3, 8] (5 : Int)
      [1, 1, 1, 0, 0, 0]).global_min_index_ = some 1 ∧
    read_result ([1, 7, 3, 8] : List Int)
      ((spawned_pool (spawn_ranges 4 ((2 : Nat) : Int)) none).run [1, 7, 3, 8] (5 : Int)
        [1, 1, 1, 0, 0, 0]).global_min_index_ = .ok (some 7) :=
  ⟨by decide, by decide, by decide, by decide,
    (race_safety [1, 7, 3, 8] (5 : Int) 2 [1, 1, 1, 0, 0, 0] _ (by decide) (by decide) rfl
      (by decide)).2.2.1.trans (by decide)⟩

/-- C11 at the failing input: on one `ParallelSolver(2)`, the call `solve([10, 1], 5)` leaves
the shared index at 0. In the following call `solve([1, 7], 5)` on the same object, for every
interleaving of the steps of its two threads, all threads have returned after the join loop
and `global_min_index_` still holds 0, although `arr[0] = 1` does not exceed 5 and the
smallest index whose element exceeds 5 is 1; the call returns 1. A freshly constructed
solver ends every interleaving of that call with index 1 and returns 7. -/
theorem reused_solver_index_not_minimal :
    ((ParallelSolver.construct (some 2) 8).solve [10, 1] (5 : Int)
      []).solver.global_min_index_ = some 0 ∧
    first_above (5 : Int) [1, 7] = some 1 ∧
    (∀ sched : List Nat,
      (run_threads [1, 7] (5 : Int) (spawn_ranges 2 2) (some 0) sched).threads.all
        Worker.has_returned = true ∧
      (run_threads [1, 7] (5 : Int) (spawn_ranges 2 2) (some 0) sched).global_min_index_ =
        some 0 ∧
      (((ParallelSolver.construct (some 2) 8).solve [10, 1] (5 : Int) []).solver.solve [1, 7]
        (5 : Int) sched).solver.global_min_index_ = some 0 ∧
      (((ParallelSolver.construct (some 2) 8).solve [10, 1] (5 : Int) []).solver.solve [1, 7]
        (5 : Int) sched).returned = .ok (some 1)) ∧
    (∀ sched : List Nat,
      ((ParallelSolver.construct (some 2) 8).solve [1, 7] (5 : Int)
        sched).solver.global_min_index_ = some 1 ∧
      ((ParallelSolver.construct (some 2) 8).solve [1, 7] (5 : Int) sched).returned =
        .ok (some 7)) := by
  refine ⟨by decide, by decide, ?_, ?_⟩
  · intro sched
    have hr : ∀ r ∈ spawn_ranges 2 2, r.2 ≤ ([1, 7] : List Int).length := by decide
    have hcover : ∀ j, j < ([1, 7] : List Int).length →
        ∃ (k : Nat) (r : Nat × Nat), (spawn_ranges 2 2)[k]? = some r ∧ r.1 ≤ j ∧ j < r.2 :=
      spawn_ranges_cover 2 2 (by decide) (by decide)
    obtain ⟨hinv, hfin⟩ := run_threads_finished (t := (5 : Int)) (some 0) hr sched
    have hfinal := pool_final hinv hfin hcover
    obtain ⟨results, hres⟩ := solve_running
      ((ParallelSolver.construct (some 2) 8).solve [10, 1] (5 : Int) []).solver [1, 7]
      (5 : Int) sched (by decide) (by decide)
    refine ⟨finished_all_returned _ hfin, ?_, ?_, ?_⟩
    · rw [hfinal]
      decide
    · rw [hres]
      show settle
        ((ParallelSolver.construct (some 2) 8).solve [10, 1] (5 : Int)
          []).solver.global_min_index_ (first_above (5 : Int) [1, 7]) = some 0
      decide
    · rw [hres]
      show read_result ([1, 7] : List Int) (settle
        ((ParallelSolver.construct (some 2) 8).solve [10, 1] (5 : Int)
          []).solver.global_min_index_ (first_above (5 : Int) [1, 7])) = .ok (some 1)
      decide
  · intro sched
    obtain ⟨results, hres⟩ := solve_running (ParallelSolver.construct (some 2) 8) [1, 7]
      (5 : Int) sched (by decide) (by decide)
    rw [hres]
    refine ⟨?_, ?_⟩
    · show settle (ParallelSolver.construct (some 2) 8).global_min_index_
        (first_above (5 : Int) [1, 7]) = some 1
      decide
    · show read_result ([1, 7] : List Int)
        (settle (ParallelSolver.construct (some 2) 8).global_min_index_
          (first_above (5 : Int) [1, 7])) = .ok (some 7)
      decide

/-- C12: the only step of `worker_thread` that writes `global_min_index_` is the final
update, and it stores the minimum of the old value and the local index, an empty old value
counting as larger than every index; hence along every sequence of steps of any pool the
shared index, once present, stays present and never increases. -/
theorem shared_index_monotone (arr : List α) (t : α) (p : Pool) (sched : List Nat) :
    (∀ (w : Worker) (g : Option Nat),
      (worker_thread arr t w g).2 =
        match w with
        | .found l =>
          some (match g with
            | none => l
            | some v => min v l)
        | _ => g) ∧
    (∀ v, p.global_min_index_ = some v →
      ∃ v2, (p.run arr t sched).global_min_index_ = some v2 ∧ v2 ≤ v) := by
  refine ⟨?_, fun v hv => pool_run_lowered arr t sched p v hv⟩
  intro w g
  cases w with
  | finished res => rfl
  | crashed => rfl
  | found l =>
    show update_global g l = _
    cases g with
    | none => rfl
    | some v =>
      unfold update_global
      by_cases h : v > l
      · simp only [h, if_true, min_eq_right (le_of_lt h)]
      · simp only [h, if_false, min_eq_left (not_lt.1 h)]
  | scanning i e =>
    unfold worker_thread
    by_cases hie : i < e
    · simp only [hie, if_true]
      by_cases hx : exit_early_test g i = true
      · simp only [hx, if_true]
      · simp only [hx, Bool.false_eq_true, if_false]
        cases arr[i]? with
        | none => rfl
        | some x =>
          by_cases hgt : x > t
          · simp only [hgt, if_true]
          · simp only [hgt, if_false]
    · simp only [hie, if_false]

/-- C12 on `[1, 7, 3, 8]` with threshold 5: from the shared index 3 the steps of the first
thread lead to the shared index 1. -/
theorem shared_index_monotone_witness :
    (∃ v2, (Pool.run [1, 7, 3, 8] (5 : Int)
        { threads := [Worker.scanning 0 2, Worker.finished { index := some 3 }],
          global_min_index_ := some 3 } [0, 0, 0]).global_min_index_ = some v2 ∧ v2 ≤ 3) ∧
    (Pool.run [1, 7, 3, 8] (5 : Int)
        { threads := [Worker.scanning 0 2, Worker.finished { index := some 3 }],
          global_min_index_ := some 3 } [0, 0, 0]).global_min_index_ = some 1 :=
  ⟨(shared_index_monotone [1, 7, 3, 8] (5 : Int)
      { threads := [Worker.scanning 0 2, Worker.finished { index := some 3 }],
        global_min_index_ := some 3 } [0, 0, 0]).2 3 rfl, by decide⟩

/-- C13 at the failing input: on one `ParallelSolver(1)`, after `solve([1, 10], 5)` returned
10 and left the shared index at 1, the call `solve([3], 5)` reads `arr[1]` of an array with
one element; a freshly constructed solver returns `std::nullopt` there. -/
theorem stale_index_out_of_range :
    ((ParallelSolver.construct (some 1) 8).solve [1, 10] (5 : Int) []).returned =
      .ok (some 10) ∧
    ((ParallelSolver.construct (some 1) 8).solve [1, 10] (5 : Int)
      []).solver.global_min_index_ = some 1 ∧
    (((ParallelSolver.construct (some 1) 8).solve [1, 10] (5 : Int) []).solver.solve [3]
      (5 : Int) []).returned = .error .out_of_range ∧
    ((ParallelSolver.construct (some 1) 8).solve [3] (5 : Int) []).returned = .ok none := by
  refine ⟨by decide, by decide, by decide, by decide⟩

/-- C17: for a thread that starts `worker_thread` on the range from `s` to `e`, whatever the
other threads of the pool do: when it has returned with local index `i`, then `i` lies in
the range, `exited_early` is not set, `arr[i]` exceeds the threshold and every element of
the range before `i` is at most the threshold; when it has returned without a local index
and without `exited_early`, every element of the range is at most the threshold. -/
theorem worker_local_result (arr : List α) (t : α) (p : Pool) (k s e : Nat)
    (sched : List Nat) (hk : p.threads[k]? = some (Worker.scanning s e)) :
    (∀ (i : Nat) (early : Bool),
      (p.run arr t sched).threads[k]? =
          some (Worker.finished { index := some i, exited_early := early }) →
        early = false ∧ s ≤ i ∧ i < e ∧ (∃ x, arr[i]? = some x ∧ x > t) ∧
          ∀ j : Nat, s ≤ j → j < i → ∃ x, arr[j]? = some x ∧ x ≤ t) ∧
    ((p.run arr t sched).threads[k]? =
        some (Worker.finished { index := none, exited_early := false }) →
      ∀ j : Nat, s ≤ j → j < e → ∃ x, arr[j]? = some x ∧ x ≤ t) := by
  have hstart : ∃ w, p.threads[k]? = some w ∧ LocalInv arr t s e w :=
    ⟨_, hk, ⟨rfl, le_refl s, fun j h1 h2 => absurd h2 (by omega)⟩⟩
  obtain ⟨w, hw, hinv⟩ := pool_run_local k sched p hstart
  constructor
  · intro i early h
    rw [hw] at h
    cases h
    cases early with
    | true => exact absurd hinv (by simp [LocalInv])
    | false =>
      obtain ⟨h1, h2, h3, h4⟩ := hinv
      exact ⟨rfl, h1, h2, h3, h4⟩
  · intro h
    rw [hw] at h
    cases h
    exact hinv

/-- C17 on `[1, 7, 3, 8]` with threshold 5: the thread of the range from 0 to 4 returns
with local index 1. -/
theorem worker_local_result_witness :
    (Pool.run [1, 7, 3, 8] (5 : Int)
        { threads := [Worker.scanning 0 4], global_min_index_ := none } [0, 0, 0]).threads[0]? =
      some (Worker.finished { index := some 1, exited_early := false }) ∧
    (0 ≤ 1 ∧ 1 < 4 ∧ (∃ x, ([1, 7, 3, 8] : List Int)[1]? = some x ∧ x > 5) ∧
      ∀ j : Nat, 0 ≤ j → j < 1 → ∃ x, ([1, 7, 3, 8] : List Int)[j]? = some x ∧ x ≤ 5) :=
  ⟨by decide,
    ((worker_local_result [1, 7, 3, 8] (5 : Int)
      { threads := [Worker.scanning 0 4], global_min_index_ := none } 0 0 4 [0, 0, 0]
      (by decide)).1 1 false (by decide)).2⟩

/-- C18: in every state `p` that the threads of one `solve` call on a freshly constructed
solver can reach, `global_min_index_` is empty or an index below the array size whose
element exceeds the threshold; and a step in which a thread at loop position `i` sets
`exited_early` happens only when such an index `k < i` is stored, so that every index from
`i` on, the ones the thread skips, is larger than `k`. -/
theorem early_exit_sound (arr : List α) (t : α) (w : Nat) (sched : List Nat) (p : Pool)
    (hw1 : 1 ≤ w) (hw31 : w < 2 ^ 31)
    (hp : p = (spawned_pool (spawn_ranges arr.length (w : Int)) none).run arr t sched) :
    (p.global_min_index_ = none ∨
      ∃ k, p.global_min_index_ = some k ∧ k < arr.length ∧ ∃ x, arr[k]? = some x ∧ x > t) ∧
    (∀ n i e : Nat, p.threads[n]? = some (Worker.scanning i e) →
      (p.step arr t n).threads[n]? =
          some (Worker.finished { index := none, exited_early := true }) →
        ∃ k, p.global_min_index_ = some k ∧ k < i ∧ k < arr.length ∧
          (∃ x, arr[k]? = some x ∧ x > t) ∧ ∀ j : Nat, i ≤ j → k < j) := by
  subst hp
  have hr := spawn_ranges_le arr.length w hw1 hw31
  obtain ⟨hlen, ⟨hg1, _⟩, _⟩ := pool_run_inv (t := t) hr sched _
    (pool_init_inv arr t none (spawn_ranges arr.length (w : Int)))
  have hglobal : ∀ k, ((spawned_pool (spawn_ranges arr.length (w : Int)) none).run arr t
      sched).global_min_index_ = some k → k < arr.length ∧ ∃ x, arr[k]? = some x ∧ x > t := by
    intro k hk
    rcases hg1 with h | ⟨v, hv, hab⟩
    · have h2 : ((spawned_pool (spawn_ranges arr.length (w : Int)) none).run arr t
          sched).global_min_index_ = none := h
      rw [h2] at hk
      cases hk
    · have h2 : ((spawned_pool (spawn_ranges arr.length (w : Int)) none).run arr t
          sched).global_min_index_ = some v := hv
      rw [h2] at hk
      cases hk
      exact ⟨above_lt_length hab, hab⟩
  constructor
  · cases hq : ((spawned_pool (spawn_ranges arr.length (w : Int)) none).run arr t
        sched).global_min_index_ with
    | none => exact Or.inl rfl
    | some k => exact Or.inr ⟨k, rfl, hglobal k hq⟩
  · intro n i e hn hstep
    obtain ⟨hlt, _⟩ := List.getElem?_eq_some.1 hn
    unfold Pool.step at hstep
    simp only [hn, List.getElem?_set_self hlt, Option.some.injEq] at hstep
    unfold worker_thread at hstep
    by_cases hie : i < e
    · simp only [hie, if_true] at hstep
      by_cases hx : exit_early_test ((spawned_pool (spawn_ranges arr.length (w : Int))
          none).run arr t sched).global_min_index_ i = true
      · obtain ⟨k, hk, hki⟩ := (exit_early_test_iff _ i).1 hx
        obtain ⟨h1, h2⟩ := hglobal k hk
        exact ⟨k, hk, hki, h1, h2, fun j hj => by omega⟩
      · simp only [hx, Bool.false_eq_true, if_false] at hstep
        cases hget : arr[i]? with
        | none =>
          rw [hget] at hstep
          cases hstep
        | some x =>
          rw [hget] at hstep
          by_cases hgt : x > t
          · simp only [hgt, if_true] at hstep
            cases hstep
          · simp only [hgt, if_false] at hstep
            cases hstep
    · simp only [hie, if_false] at hstep
      cases hstep

/-- C18 on `[9, 9]` with threshold 5 and two workers: after the first thread has recorded
index 0, the second thread at position 1 sets `exited_early`, and index 0 is stored. -/
theorem early_exit_sound_witness :
    1 ≤ 2 ∧ 2 < 2 ^ 31 ∧
    (((spawned_pool (spawn_ranges 2 ((2 : Nat) : Int)) none).run [9, 9] (5 : Int)
      [0, 0]).step [9, 9] (5 : Int) 1).threads[1]? =
        some (Worker.finished { index := none, exited_early := true }) ∧
    ∃ k, ((spawned_pool (spawn_ranges 2 ((2 : Nat) : Int)) none).run [9, 9] (5 : Int)
        [0, 0]).global_min_index_ = some k ∧ k < 1 ∧ k < ([9, 9] : List Int).length ∧
      (∃ x, ([9, 9] : List Int)[k]? = some x ∧ x > 5) ∧ ∀ j : Nat, 1 ≤ j → k < j :=
  ⟨by decide, by decide, by decide,
    (early_exit_sound [9, 9] (5 : Int) 2 [0, 0] _ (by decide) (by decide) rfl).2 1 1 2
      (by decide) (by decide)⟩

end WorkerClaims

section Reduction

variable {α : Type} [LinearOrder α]

theorem thread_loop_spec (arr : List α) (t : α) (iterations : List Nat) (acc : Nat)
    (hin : ∀ i ∈ iterations, i < arr.length) :
    ∃ r, OpenMP.thread_loop arr t acc iterations = .ok r ∧ r ≤ acc ∧
      (r = acc ∨ Above arr t r) ∧ ∀ i ∈ iterations, Above arr t i → r ≤ i := by
  induction iterations generalizing acc with
  | nil => exact ⟨acc, rfl, le_refl acc, Or.inl rfl, fun i hi => absurd hi (List.not_mem_nil i)⟩
  | cons i rest ih =>
    have hi : i < arr.length := hin i (List.mem_cons_self _ _)
    have hget : arr[i]? = some arr[i] := List.getElem?_eq_getElem hi
    have hrest : ∀ j ∈ rest, j < arr.length := fun j hj => hin j (List.mem_cons_of_mem _ hj)
    unfold OpenMP.thread_loop
    rw [hget]
    by_cases hgt : arr[i] > t
    · simp only [hgt, if_true]
      obtain ⟨r, hr, hle, hcase, hmin⟩ := ih (min acc i) hrest
      refine ⟨r, hr, le_trans hle (min_le_left _ _), ?_, ?_⟩
      · rcases hcase with h | h
        · rcases le_total acc i with hc | hc
          · exact Or.inl (by rw [h, min_eq_left hc])
          · exact Or.inr (by rw [h, min_eq_right hc]; exact ⟨arr[i], hget, hgt⟩)
        · exact Or.inr h
      · intro j hj hab
        rcases List.mem_cons.1 hj with h | h
        · rw [h]
          exact le_trans hle (min_le_right _ _)
        · exact hmin j h hab
    · simp only [hgt, if_false]
      obtain ⟨r, hr, hle, hcase, hmin⟩ := ih acc hrest
      refine ⟨r, hr, hle, hcase, ?_⟩
      intro j hj hab
      rcases List.mem_cons.1 hj with h | h
      · subst h
        obtain ⟨x, hx, hxt⟩ := hab
        rw [hget] at hx
        cases hx
        exact absurd hxt hgt
      · exact hmin j h hab

theorem reduce_min_spec (arr : List α) (t : α) (assignment : List (List Nat)) (acc : Nat)
    (hin : ∀ iterations ∈ assignment, ∀ i ∈ iterations, i < arr.length) :
    ∃ r, OpenMP.reduce_min arr t acc assignment = .ok r ∧ r ≤ acc ∧
      (r = acc ∨ r = SIZE_MAX ∨ Above arr t r) ∧
      ∀ iterations ∈ assignment, ∀ i ∈ iterations, Above arr t i → r ≤ i := by
  induction assignment generalizing acc with
  | nil =>
    exact ⟨acc, rfl, le_refl acc, Or.inl rfl, fun l hl => absurd hl (List.not_mem_nil l)⟩
  | cons iterations rest ih =>
    obtain ⟨mine, hmine, _, hcase1, hmin1⟩ :=
      thread_loop_spec arr t iterations SIZE_MAX (hin iterations (List.mem_cons_self _ _))
    obtain ⟨r, hr, hle, hcase, hmin⟩ :=
      ih (min acc mine) (fun l hl => hin l (List.mem_cons_of_mem _ hl))
    unfold OpenMP.reduce_min
    rw [hmine]
    refine ⟨r, hr, le_trans hle (min_le_left _ _), ?_, ?_⟩
    · rcases hcase with h | h | h
      · rcases le_total acc mine with hc | hc
        · exact Or.inl (by rw [h, min_eq_left hc])
        · rw [min_eq_right hc] at h
          rcases hcase1 with h1 | h1
          · exact Or.inr (Or.inl (by rw [h, h1]))
          · exact Or.inr (Or.inr (by rw [h]; exact h1))
      · exact Or.inr (Or.inl h)
      · exact Or.inr (Or.inr h)
    · intro l hl i hi hab
      rcases List.mem_cons.1 hl with h | h
      · subst h
        exact le_trans hle (le_trans (min_le_right _ _) (hmin1 i hi hab))
      · exact hmin l h i hi hab

/-- C14: with the clause `reduction(min:min_index)` taken as private minima starting at the
largest `std::size_t`, one per thread, over any assignment of the iterations `0 .. n-1` to
any number of threads (each thread running its iterations in any order), combined with
`min` in any order of the threads, the OpenMP `ParallelSolver::solve` returns what
`SequentialSolver::solve` returns, for every array shorter than the largest `std::size_t`
and every threshold. -/
theorem openmp_solve_eq_sequential (arr : List α) (t : α) (assignment : List (List Nat))
    (hlen : arr.length < SIZE_MAX)
    (hassign : assignment.flatten.Perm (List.range arr.length)) :
    OpenMP.ParallelSolver.solve arr t assignment = .ok (SequentialSolver.solve arr t) := by
  have hin : ∀ iterations ∈ assignment, ∀ i ∈ iterations, i < arr.length := by
    intro l hl i hi
    exact List.mem_range.1 (hassign.mem_iff.1 (List.mem_flatten.2 ⟨l, hl, hi⟩))
  have hall : ∀ i, i < arr.length → ∃ l, l ∈ assignment ∧ i ∈ l := by
    intro i hi
    exact List.mem_flatten.1 (hassign.mem_iff.2 (List.mem_range.2 hi))
  cases arr with
  | nil => rfl
  | cons a rest =>
    obtain ⟨r, hr, _, hcase, hmin⟩ := reduce_min_spec (a :: rest) t assignment SIZE_MAX hin
    have hne : ¬ (a :: rest).length = SIZE_MAX := by omega
    unfold OpenMP.ParallelSolver.solve
    simp only [List.isEmpty_cons, Bool.false_eq_true, if_false, hne, hr]
    rw [solve_eq_scan, scan_eq_first_above]
    cases hm : first_above t (a :: rest) with
    | none =>
      have hno := (first_above_none_iff t (a :: rest)).1 hm
      have hr2 : r = SIZE_MAX := by
        rcases hcase with h | h | h
        · exact h
        · exact h
        · exact absurd h (hno r)
      simp only [hr2, if_true]
      rfl
    | some m =>
      obtain ⟨hab, hfirst⟩ := (first_above_some_iff t (a :: rest) m).1 hm
      have hmlt := above_lt_length hab
      obtain ⟨l, hl, hml⟩ := hall m hmlt
      have hrm : r ≤ m := hmin l hl m hml hab
      have hr2 : ¬ r = SIZE_MAX := by omega
      have hrab : Above (a :: rest) t r := by
        rcases hcase with h | h | h
        · exact absurd h hr2
        · exact absurd h hr2
        · exact h
      have hrm2 : r = m := by
        have h1 : ¬ r < m := fun hc => hfirst r hc hrab
        omega
      subst hrm2
      obtain ⟨x, hx, _⟩ := hab
      simp only [hr2, if_false, hx, Option.some_bind]

/-- C14 on `[1,2,3,9,10,2,8]` with threshold 5 and three threads that received the
iterations `5,1,3`, `0,6` and `4,2`: the result is 9. -/
theorem openmp_solve_eq_sequential_witness :
    ([1, 2, 3, 9, 10, 2, 8] : List Int).length < SIZE_MAX ∧
    ([[5, 1, 3], [0, 6], [4, 2]] : List (List Nat)).flatten.Perm
      (List.range ([1, 2, 3, 9, 10, 2, 8] : List Int).length) ∧
    OpenMP.ParallelSolver.solve [1, 2, 3, 9, 10, 2, 8] (5 : Int) [[5, 1, 3], [0, 6], [4, 2]] =
      .ok (some 9) :=
  ⟨by decide, by decide,
    (openmp_solve_eq_sequential [1, 2, 3, 9, 10, 2, 8] (5 : Int) [[5, 1, 3], [0, 6], [4, 2]]
      (by decide) (by decide)).trans (by decide)⟩

end Reduction

section ImageLemmas

open Intrinsics

variable {F : Type}

theorem wrap_int_eq (x : Int) (h1 : -2147483648 ≤ x) (h2 : x < 2147483648) :
    wrap_int x = x := by
  unfold wrap_int
  omega

theorem wrap_int_range (x : Int) : -2147483648 ≤ wrap_int x ∧ wrap_int x < 2147483648 := by
  unfold wrap_int
  omega

theorem size_range (self : Image) : -2147483648 ≤ self.size ∧ self.size < 2147483648 :=
  wrap_int_range _

/-- The loop variable of `for (i = start; i < stop; i += step)` takes exactly the values
`start + step * k` that are below `stop`. -/
theorem mem_for_range (start : Nat) (stop : Int) (step : Nat) (hstep : 0 < step) (i : Nat) :
    i ∈ for_range start stop step ↔ ∃ k : Nat, i = start + step * k ∧ (i : Int) < stop := by
  have hs : (0 : Int) < (step : Int) := by exact_mod_cast hstep
  have hcount : ∀ k : Nat, k < ((stop - start + step - 1) / (step : Int)).toNat ↔
      ((start + step * k : Nat) : Int) < stop := by
    intro k
    rw [Int.lt_toNat, Int.lt_iff_add_one_le, Int.le_ediv_iff_mul_le hs]
    push_cast
    have e : ((k : Int) + 1) * (step : Int) = (step : Int) * k + step := by ring
    rw [e]
    constructor <;> intro h <;> omega
  unfold for_range
  rw [List.mem_range']
  constructor
  · rintro ⟨k, hk, hik⟩
    exact ⟨k, hik, by rw [hik]; exact (hcount k).1 hk⟩
  · rintro ⟨k, hik, hlt⟩
    exact ⟨k, (hcount k).2 (by rw [← hik]; exact hlt), hik⟩

theorem for_range_pixels (n : Nat) (h3 : n % 3 = 0) :
    for_range 0 (n : Int) 3 = List.range' 0 (n / 3) 3 := by
  have h : ((n : Int) - ((0 : Nat) : Int) + ((3 : Nat) : Int) - 1) / ((3 : Nat) : Int) =
      ((n / 3 : Nat) : Int) := by
    push_cast
    omega
  unfold for_range
  rw [h, Int.toNat_ofNat]

theorem for_range_blocks (n : Nat) :
    for_range 0 ((n : Int) - 24 + 1) 24 = List.range' 0 (n / 24) 24 := by
  have h : ((n : Int) - 24 + 1 - ((0 : Nat) : Int) + ((24 : Nat) : Int) - 1) /
      ((24 : Nat) : Int) = ((n / 24 : Nat) : Int) := by
    push_cast
    omega
  unfold for_range
  rw [h, Int.toNat_ofNat]

theorem for_range_tail (n s : Nat) (h3 : n % 3 = 0) (hs3 : s % 3 = 0) (hs : s ≤ n) :
    for_range s (n : Int) 3 = List.range' s ((n - s) / 3) 3 := by
  have h : ((n : Int) - (s : Int) + ((3 : Nat) : Int) - 1) / ((3 : Nat) : Int) =
      (((n - s) / 3 : Nat) : Int) := by
    push_cast
    omega
  unfold for_range
  rw [h, Int.toNat_ofNat]

theorem for_range_empty (start : Nat) (stop : Int) (h : stop ≤ (start : Int)) :
    for_range start stop 3 = [] := by
  have h2 : ((stop - (start : Int) + ((3 : Nat) : Int) - 1) / ((3 : Nat) : Int)).toNat = 0 := by
    push_cast
    omega
  unfold for_range
  rw [h2]
  rfl

theorem run_loop_range (body : Nat → List F → Except Fault (List F))
    (Q : Nat → List F → Prop) (step bound : Nat)
    (hstep : ∀ i d, i + step ≤ bound → Q i d → ∃ d2, body i d = .ok d2 ∧ Q (i + step) d2)
    (count start : Nat) (d : List F) (hb : start + step * count ≤ bound) (hq : Q start d) :
    ∃ d2, run_loop body (List.range' start count step) d = .ok d2 ∧
      Q (start + step * count) d2 := by
  induction count generalizing start d with
  | zero => exact ⟨d, rfl, by simpa using hq⟩
  | succ c ih =>
    have e1 : step * (c + 1) = step + step * c := by ring
    obtain ⟨d1, hd1, hq1⟩ := hstep start d (by rw [e1] at hb; omega) hq
    obtain ⟨d2, hd2, hq2⟩ := ih (start + step) d1 (by rw [e1] at hb; omega) hq1
    refine ⟨d2, ?_, ?_⟩
    · show run_loop body (start :: List.range' (start + step) c step) d = _
      simp only [run_loop, hd1, hd2]
    · rw [e1, ← Nat.add_assoc]
      exact hq2

theorem multiplier_add (red_mult green_mult blue_mult : F) (i k : Nat) (h : i % 3 = 0) :
    multiplier red_mult green_mult blue_mult (i + k) =
      multiplier red_mult green_mult blue_mult k := by
  have h2 : (i + k) % 3 = k % 3 := by omega
  unfold multiplier
  rw [h2]

/-- Under `Corrected` the values of the input buffer from index `lo` on are still those of
the memory before the call. -/
theorem corrected_unread (mul : F → F → F) (memory : List F) (input_data output_data : Pointer)
    (red_mult green_mult blue_mult : F) (n : Nat)
    (hp : Placed memory input_data output_data n) (lo : Nat) (d : List F)
    (hq : Corrected mul memory input_data output_data red_mult green_mult blue_mult lo d)
    (j : Nat) (hlo : lo ≤ j) (hj : j < n) :
    ∃ x, memory[input_data.address + j]? = some x ∧ d[input_data.address + j]? = some x := by
  obtain ⟨_, _, hmi, _, hsep⟩ := hp
  have hlt : input_data.address + j < memory.length := by omega
  refine ⟨memory[input_data.address + j], List.getElem?_eq_getElem hlt, ?_⟩
  rw [hq.2, if_neg (by omega)]
  exact List.getElem?_eq_getElem hlt

theorem bind_ok {ε α β : Type} (a : α) (f : α → Except ε β) :
    (Except.ok a : Except ε α).bind f = f a :=
  rfl

theorem load_nat (memory : List F) (p : Pointer) (i : Nat) (x : F) (h1 : i < p.extent)
    (h2 : memory[p.address + i]? = some x) : load memory p (i : Int) = .ok x := by
  have c1 : 0 ≤ (i : Int) ∧ (i : Int).toNat < p.extent := by
    rw [Int.toNat_ofNat]
    exact ⟨Int.ofNat_nonneg i, h1⟩
  unfold load
  rw [if_pos c1, Int.toNat_ofNat, h2]

theorem store_nat (memory : List F) (p : Pointer) (i : Nat) (v : F) (h1 : i < p.extent)
    (h2 : p.address + i < memory.length) :
    store memory p (i : Int) v = .ok (memory.set (p.address + i) v) := by
  have c1 : 0 ≤ (i : Int) ∧ (i : Int).toNat < p.extent ∧
      p.address + (i : Int).toNat < memory.length := by
    rw [Int.toNat_ofNat]
    exact ⟨Int.ofNat_nonneg i, h1, h2⟩
  unfold store
  rw [if_pos c1, Int.toNat_ofNat]

theorem assign_step (mul : F → F → F) (memory : List F) (input_data output_data : Pointer)
    (red_mult green_mult blue_mult : F) (n : Nat)
    (hp : Placed memory input_data output_data n) (i : Nat) (mult : F) (d : List F)
    (hi : i + 1 ≤ n) (hmult : mult = multiplier red_mult green_mult blue_mult i)
    (hq : Corrected mul memory input_data output_data red_mult green_mult blue_mult i d) :
    ∃ d2, assign_product mul input_data output_data mult (i : Int) d = .ok d2 ∧
      Corrected mul memory input_data output_data red_mult green_mult blue_mult (i + 1) d2 := by
  obtain ⟨x, hx0, hx⟩ := corrected_unread mul memory input_data output_data red_mult
    green_mult blue_mult n hp i d hq i (Nat.le_refl i) (by omega)
  obtain ⟨hlen, hpt⟩ := hq
  obtain ⟨hie, hoe, hmi, hmo, hsep⟩ := hp
  have l0 : output_data.address + i < d.length := by omega
  refine ⟨d.set (output_data.address + i) (mul x mult), ?_, ?_, ?_⟩
  · unfold assign_product
    rw [load_nat d input_data i x (by omega) hx]
    exact store_nat d output_data i (mul x mult) (by omega) l0
  · rw [List.length_set]
    exact hlen
  · intro a
    by_cases h0 : output_data.address + i = a
    · subst h0
      have c3 : output_data.address ≤ output_data.address + i ∧
          output_data.address + i < output_data.address + (i + 1) := by omega
      have e : output_data.address + i - output_data.address = i := by omega
      rw [List.getElem?_set_self l0, if_pos c3, e, hx0, hmult]
      rfl
    · rw [List.getElem?_set_ne h0, hpt a]
      by_cases hj : output_data.address ≤ a ∧ a < output_data.address + i
      · have c3 : output_data.address ≤ a ∧ a < output_data.address + (i + 1) := by omega
        rw [if_pos hj, if_pos c3]
      · have c3 : ¬ (output_data.address ≤ a ∧ a < output_data.address + (i + 1)) := by omega
        rw [if_neg hj, if_neg c3]

theorem pixel_step (mul : F → F → F) (memory : List F) (input_data output_data : Pointer)
    (red_mult green_mult blue_mult : F) (n : Nat) (hn : n < 2147483648)
    (hp : Placed memory input_data output_data n) (i : Nat) (d : List F) (hi : i + 3 ≤ n)
    (hq : i % 3 = 0 ∧
      Corrected mul memory input_data output_data red_mult green_mult blue_mult i d) :
    ∃ d2, pixel_body mul input_data output_data red_mult green_mult blue_mult i d = .ok d2 ∧
      ((i + 3) % 3 = 0 ∧
        Corrected mul memory input_data output_data red_mult green_mult blue_mult (i + 3)
          d2) := by
  obtain ⟨hi3, hc⟩ := hq
  have m0 : red_mult = multiplier red_mult green_mult blue_mult i := by
    unfold multiplier
    rw [if_pos hi3]
  have m1 : green_mult = multiplier red_mult green_mult blue_mult (i + 1) := by
    have e0 : ¬ (i + 1) % 3 = 0 := by omega
    have e1 : (i + 1) % 3 = 1 := by omega
    unfold multiplier
    rw [if_neg e0, if_pos e1]
  have m2 : blue_mult = multiplier red_mult green_mult blue_mult (i + 2) := by
    have e0 : ¬ (i + 2) % 3 = 0 := by omega
    have e1 : ¬ (i + 2) % 3 = 1 := by omega
    unfold multiplier
    rw [if_neg e0, if_neg e1]
  obtain ⟨d1, hd1, hc1⟩ := assign_step mul memory input_data output_data red_mult green_mult
    blue_mult n hp i red_mult d (by omega) m0 hc
  obtain ⟨d2, hd2, hc2⟩ := assign_step mul memory input_data output_data red_mult green_mult
    blue_mult n hp (i + 1) green_mult d1 (by omega) m1 hc1
  obtain ⟨d3, hd3, hc3⟩ := assign_step mul memory input_data output_data red_mult green_mult
    blue_mult n hp (i + 1 + 1) blue_mult d2 (by omega) m2 hc2
  have w0 : wrap_int ((i : Int) + 0) = (i : Int) := by
    rw [wrap_int_eq _ (by omega) (by omega)]
    omega
  have w1 : wrap_int ((i : Int) + 1) = ((i + 1 : Nat) : Int) := by
    rw [wrap_int_eq _ (by omega) (by omega)]
    omega
  have w2 : wrap_int ((i : Int) + 2) = ((i + 1 + 1 : Nat) : Int) := by
    rw [wrap_int_eq _ (by omega) (by omega)]
    omega
  refine ⟨d3, ?_, by omega, hc3⟩
  unfold pixel_body
  rw [w0, w1, w2, hd1, bind_ok, hd2, bind_ok]
  exact hd3

theorem load_block (mul : F → F → F) (memory : List F) (input_data output_data : Pointer)
    (red_mult green_mult blue_mult : F) (n : Nat)
    (hp : Placed memory input_data output_data n) (lo : Nat) (d : List F)
    (hq : Corrected mul memory input_data output_data red_mult green_mult blue_mult lo d)
    (j : Nat) (hlo : lo ≤ j) (hj : j + 8 ≤ n) :
    _mm256_load_ps d input_data (j : Int) =
      .ok ((memory.drop (input_data.address + j)).take 8) := by
  have hlen := hq.1
  have c1 : 0 ≤ (j : Int) ∧ (j : Int).toNat + 8 ≤ input_data.extent ∧
      input_data.address + (j : Int).toNat + 8 ≤ d.length := by
    obtain ⟨hie, _, hmi, _, _⟩ := hp
    rw [Int.toNat_ofNat]
    exact ⟨Int.ofNat_nonneg j, by omega, by omega⟩
  unfold _mm256_load_ps
  rw [if_pos c1, Int.toNat_ofNat]
  congr 1
  apply List.ext_getElem?
  intro k
  rw [List.getElem?_take, List.getElem?_take]
  by_cases hk : k < 8
  · obtain ⟨x, hx0, hx⟩ := corrected_unread mul memory input_data output_data red_mult
      green_mult blue_mult n hp lo d hq (j + k) (by omega) (by omega)
    rw [if_pos hk, if_pos hk, List.getElem?_drop, List.getElem?_drop, Nat.add_assoc, hx, hx0]
  · rw [if_neg hk, if_neg hk]

theorem vector_step (mul : F → F → F) (memory : List F) (input_data output_data : Pointer)
    (red_mult green_mult blue_mult : F) (n : Nat)
    (hp : Placed memory input_data output_data n) (i : Nat) (mults : List F) (d : List F)
    (hi : i + 8 ≤ n) (hm : mults.length = 8)
    (hpat : ∀ k, k < 8 → mults[k]? = some (multiplier red_mult green_mult blue_mult (i + k)))
    (hq : Corrected mul memory input_data output_data red_mult green_mult blue_mult i d) :
    ∃ d2, _mm256_store_ps d output_data (i : Int)
        (_mm256_mul_ps mul ((memory.drop (input_data.address + i)).take 8) mults) = .ok d2 ∧
      Corrected mul memory input_data output_data red_mult green_mult blue_mult (i + 8)
        d2 := by
  obtain ⟨hlen, hpt⟩ := hq
  obtain ⟨hie, hoe, hmi, hmo, hsep⟩ := hp
  have hv : (_mm256_mul_ps mul ((memory.drop (input_data.address + i)).take 8) mults).length
      = 8 := by
    simp only [_mm256_mul_ps, List.length_zipWith, List.length_take, List.length_drop, hm]
    omega
  have hd : output_data.address + i + 8 ≤ d.length := by omega
  have htake : (d.take (output_data.address + i)).length = output_data.address + i := by
    rw [List.length_take]; omega
  have c1 : 0 ≤ (i : Int) ∧ (i : Int).toNat + 8 ≤ output_data.extent ∧
      output_data.address + (i : Int).toNat + 8 ≤ d.length := by
    rw [Int.toNat_ofNat]
    exact ⟨Int.ofNat_nonneg i, by omega, hd⟩
  refine ⟨d.take (output_data.address + i) ++
      _mm256_mul_ps mul ((memory.drop (input_data.address + i)).take 8) mults ++
      d.drop (output_data.address + i + 8), ?_, ?_, ?_⟩
  · unfold _mm256_store_ps
    rw [if_pos c1, Int.toNat_ofNat]
  · simp only [List.length_append, htake, hv, List.length_drop]
    omega
  · intro a
    by_cases hj1 : a < output_data.address + i
    · rw [List.getElem?_append_left (by simp only [List.length_append, htake, hv]; omega),
        List.getElem?_append_left (by rw [htake]; exact hj1), List.getElem?_take, if_pos hj1,
        hpt a]
      by_cases hj : output_data.address ≤ a ∧ a < output_data.address + i
      · have c3 : output_data.address ≤ a ∧ a < output_data.address + (i + 8) := by omega
        rw [if_pos hj, if_pos c3]
      · have c3 : ¬ (output_data.address ≤ a ∧ a < output_data.address + (i + 8)) := by omega
        rw [if_neg hj, if_neg c3]
    · by_cases hj2 : a < output_data.address + i + 8
      · have hk : a - (output_data.address + i) < 8 := by omega
        have c3 : output_data.address ≤ a ∧ a < output_data.address + (i + 8) := by omega
        have hji : input_data.address + i + (a - (output_data.address + i)) =
            input_data.address + (a - output_data.address) := by omega
        have hai : i + (a - (output_data.address + i)) = a - output_data.address := by omega
        have hget : memory[input_data.address + (a - output_data.address)]? =
            some memory[input_data.address + (a - output_data.address)] :=
          List.getElem?_eq_getElem (by omega)
        rw [List.getElem?_append_left (by simp only [List.length_append, htake, hv]; omega),
          List.getElem?_append_right (by rw [htake]; omega), htake, if_pos c3]
        simp only [_mm256_mul_ps, List.getElem?_zipWith, List.getElem?_take, hk, if_true,
          List.getElem?_drop, hji, hget, hpat (a - (output_data.address + i)) hk, hai,
          Option.map_some']
      · have hlen2 : (d.take (output_data.address + i) ++
            _mm256_mul_ps mul ((memory.drop (input_data.address + i)).take 8) mults).length
            = output_data.address + i + 8 := by
          simp only [List.length_append, htake, hv]
        have hji : output_data.address + i + 8 + (a - (output_data.address + i + 8)) = a := by
          omega
        have c3 : ¬ (output_data.address ≤ a ∧ a < output_data.address + i) := by omega
        have c4 : ¬ (output_data.address ≤ a ∧ a < output_data.address + (i + 8)) := by omega
        rw [List.getElem?_append_right (by rw [hlen2]; omega), hlen2, List.getElem?_drop, hji,
          hpt a, if_neg c3, if_neg c4]

end ImageLemmas

section Correctors

open Intrinsics

variable {F : Type}

theorem block_step (mul : F → F → F) (memory : List F) (input_data output_data : Pointer)
    (red_mult green_mult blue_mult : F) (n : Nat) (hn : n < 2147483648)
    (hp : Placed memory input_data output_data n) (i : Nat) (d : List F) (hi : i + 24 ≤ n)
    (hq : i % 3 = 0 ∧
      Corrected mul memory input_data output_data red_mult green_mult blue_mult i d) :
    ∃ d2,
      block_body mul input_data output_data
        (_mm256_setr_ps red_mult green_mult blue_mult red_mult green_mult blue_mult red_mult
          green_mult)
        (_mm256_setr_ps blue_mult red_mult green_mult blue_mult red_mult green_mult blue_mult
          red_mult)
        (_mm256_setr_ps green_mult blue_mult red_mult green_mult blue_mult red_mult green_mult
          blue_mult) i d = .ok d2 ∧
      ((i + 24) % 3 = 0 ∧
        Corrected mul memory input_data output_data red_mult green_mult blue_mult (i + 24)
          d2) := by
  obtain ⟨hi3, hc⟩ := hq
  have p1 : ∀ k, k < 8 →
      (_mm256_setr_ps red_mult green_mult blue_mult red_mult green_mult blue_mult red_mult
        green_mult)[k]? = some (multiplier red_mult green_mult blue_mult (i + k)) := by
    intro k hk
    rw [multiplier_add _ _ _ i k hi3]
    interval_cases k <;> rfl
  have p2 : ∀ k, k < 8 →
      (_mm256_setr_ps blue_mult red_mult green_mult blue_mult red_mult green_mult blue_mult
        red_mult)[k]? = some (multiplier red_mult green_mult blue_mult (i + 8 + k)) := by
    intro k hk
    rw [Nat.add_assoc, multiplier_add _ _ _ i (8 + k) hi3]
    interval_cases k <;> rfl
  have p3 : ∀ k, k < 8 →
      (_mm256_setr_ps green_mult blue_mult red_mult green_mult blue_mult red_mult green_mult
        blue_mult)[k]? = some (multiplier red_mult green_mult blue_mult (i + 8 + 8 + k)) := by
    intro k hk
    rw [Nat.add_assoc, Nat.add_assoc, multiplier_add _ _ _ i (8 + (8 + k)) hi3]
    interval_cases k <;> rfl
  have l1 := load_block mul memory input_data output_data red_mult green_mult blue_mult n hp i
    d hc i (Nat.le_refl i) (by omega)
  have l2 := load_block mul memory input_data output_data red_mult green_mult blue_mult n hp i
    d hc (i + 8) (by omega) (by omega)
  have l3 := load_block mul memory input_data output_data red_mult green_mult blue_mult n hp i
    d hc (i + 8 + 8) (by omega) (by omega)
  obtain ⟨d1, hd1, hc1⟩ := vector_step mul memory input_data output_data red_mult green_mult
    blue_mult n hp i
    (_mm256_setr_ps red_mult green_mult blue_mult red_mult green_mult blue_mult red_mult
      green_mult) d (by omega) rfl p1 hc
  obtain ⟨d2, hd2, hc2⟩ := vector_step mul memory input_data output_data red_mult green_mult
    blue_mult n hp (i + 8)
    (_mm256_setr_ps blue_mult red_mult green_mult blue_mult red_mult green_mult blue_mult
      red_mult) d1 (by omega) rfl p2 hc1
  obtain ⟨d3, hd3, hc3⟩ := vector_step mul memory input_data output_data red_mult green_mult
    blue_mult n hp (i + 8 + 8)
    (_mm256_setr_ps green_mult blue_mult red_mult green_mult blue_mult red_mult green_mult
      blue_mult) d2 (by omega) rfl p3 hc2
  have w8 : wrap_int ((i : Int) + 8) = ((i + 8 : Nat) : Int) := by
    rw [wrap_int_eq _ (by omega) (by omega)]
    omega
  have w16 : wrap_int ((i : Int) + 16) = ((i + 8 + 8 : Nat) : Int) := by
    rw [wrap_int_eq _ (by omega) (by omega)]
    omega
  refine ⟨d3, ?_, by omega, hc3⟩
  unfold block_body
  rw [w8, w16, l1, bind_ok, l2, bind_ok, l3, bind_ok]
  simp only
  rw [hd1, bind_ok, hd2, bind_ok]
  exact hd3

theorem corrected_unique (mul : F → F → F) (memory : List F) (input_data output_data : Pointer)
    (red_mult green_mult blue_mult : F) (n : Nat) (d1 d2 : List F)
    (h1 : Corrected mul memory input_data output_data red_mult green_mult blue_mult n d1)
    (h2 : Corrected mul memory input_data output_data red_mult green_mult blue_mult n d2) :
    d1 = d2 := by
  apply List.ext_getElem?
  intro j
  rw [h1.2 j, h2.2 j]

theorem corrected_zero (mul : F → F → F) (memory : List F) (input_data output_data : Pointer)
    (red_mult green_mult blue_mult : F) :
    Corrected mul memory input_data output_data red_mult green_mult blue_mult 0 memory :=
  ⟨rfl, fun a => by rw [if_neg (by omega)]⟩

theorem sequential_apply_corrected (mul : F → F → F) (memory : List F) (input output : Image)
    (red_mult green_mult blue_mult : F) (h3 : input.size % 3 = 0)
    (hp : Placed memory input.data output.data input.size.toNat) :
    ∃ result,
      SequentialCorrector.apply mul memory input output red_mult green_mult blue_mult =
        .ok result ∧
      Corrected mul memory input.data output.data red_mult green_mult blue_mult
        input.size.toNat result := by
  by_cases hneg : input.size < 0
  · refine ⟨memory, ?_, ?_⟩
    · unfold SequentialCorrector.apply
      rw [for_range_empty 0 input.size (by push_cast; omega)]
      rfl
    · have h0 : input.size.toNat = 0 := by omega
      rw [h0]
      exact corrected_zero mul _ _ _ _ _ _
  · obtain ⟨n, hn⟩ : ∃ n : Nat, input.size = (n : Int) :=
      ⟨input.size.toNat, (Int.toNat_of_nonneg (by omega)).symm⟩
    have hr := size_range input
    rw [hn, Int.toNat_ofNat] at hp
    have hn3 : n % 3 = 0 := by omega
    have hdiv : 0 + 3 * (n / 3) = n := by omega
    obtain ⟨data, hrun, _, hc⟩ := run_loop_range
      (pixel_body mul input.data output.data red_mult green_mult blue_mult)
      (fun i d => i % 3 = 0 ∧
        Corrected mul memory input.data output.data red_mult green_mult blue_mult i d) 3 n
      (pixel_step mul memory input.data output.data red_mult green_mult blue_mult n (by omega)
        hp)
      (n / 3) 0 memory (by omega) ⟨rfl, corrected_zero mul _ _ _ _ _ _⟩
    refine ⟨data, ?_, ?_⟩
    · unfold SequentialCorrector.apply
      rw [hn, for_range_pixels n hn3, hrun]
    · rw [hn, Int.toNat_ofNat]
      rw [hdiv] at hc
      exact hc

theorem for_range_blocks_empty (stop : Int) (h : stop < 0) :
    for_range 0 (stop - 24 + 1) 24 = [] := by
  have h2 : ((stop - 24 + 1 - ((0 : Nat) : Int) + ((24 : Nat) : Int) - 1) /
      ((24 : Nat) : Int)).toNat = 0 := by
    push_cast
    omega
  unfold for_range
  rw [h2]
  rfl

theorem avx_apply_corrected (mul : F → F → F) (memory : List F) (input output : Image)
    (red_mult green_mult blue_mult : F) (h3 : input.size % 3 = 0)
    (hlow : -2147483648 + 24 ≤ input.size)
    (hp : Placed memory input.data output.data input.size.toNat) :
    ∃ result,
      AVXCorrector.apply mul memory input output red_mult green_mult blue_mult = .ok result ∧
      Corrected mul memory input.data output.data red_mult green_mult blue_mult
        input.size.toNat result := by
  have hr := size_range input
  have hw : wrap_int (input.size - 24) = input.size - 24 :=
    wrap_int_eq _ (by omega) (by omega)
  by_cases hneg : input.size < 0
  · refine ⟨memory, ?_, ?_⟩
    · unfold AVXCorrector.apply
      simp only [hw, for_range_blocks_empty input.size hneg, List.length_nil, Nat.mul_zero,
        Nat.add_zero, run_loop, bind_ok]
      rw [for_range_empty 0 input.size (by push_cast; omega)]
      rfl
    · have h0 : input.size.toNat = 0 := by omega
      rw [h0]
      exact corrected_zero mul _ _ _ _ _ _
  · obtain ⟨n, hn⟩ : ∃ n : Nat, input.size = (n : Int) :=
      ⟨input.size.toNat, (Int.toNat_of_nonneg (by omega)).symm⟩
    rw [hn, Int.toNat_ofNat] at hp
    rw [hn] at hw
    have hn3 : n % 3 = 0 := by omega
    have hn31 : n < 2147483648 := by omega
    obtain ⟨data1, hrun1, hs3, hc1⟩ := run_loop_range
      (block_body mul input.data output.data
        (_mm256_setr_ps red_mult green_mult blue_mult red_mult green_mult blue_mult red_mult
          green_mult)
        (_mm256_setr_ps blue_mult red_mult green_mult blue_mult red_mult green_mult blue_mult
          red_mult)
        (_mm256_setr_ps green_mult blue_mult red_mult green_mult blue_mult red_mult green_mult
          blue_mult))
      (fun i d => i % 3 = 0 ∧
        Corrected mul memory input.data output.data red_mult green_mult blue_mult i d) 24 n
      (block_step mul memory input.data output.data red_mult green_mult blue_mult n hn31 hp)
      (n / 24) 0 memory (by omega) ⟨rfl, corrected_zero mul _ _ _ _ _ _⟩
    obtain ⟨data2, hrun2, _, hc2⟩ := run_loop_range
      (pixel_body mul input.data output.data red_mult green_mult blue_mult)
      (fun i d => i % 3 = 0 ∧
        Corrected mul memory input.data output.data red_mult green_mult blue_mult i d) 3 n
      (pixel_step mul memory input.data output.data red_mult green_mult blue_mult n hn31 hp)
      ((n - (0 + 24 * (n / 24))) / 3) (0 + 24 * (n / 24)) data1 (by omega) ⟨hs3, hc1⟩
    have hend : 0 + 24 * (n / 24) + 3 * ((n - (0 + 24 * (n / 24))) / 3) = n := by omega
    refine ⟨data2, ?_, ?_⟩
    · unfold AVXCorrector.apply
      simp only [hw, hn, for_range_blocks n, List.length_range', hrun1, bind_ok]
      rw [for_range_tail n (0 + 24 * (n / 24)) hn3 (by omega) (by omega), hrun2]
    · rw [hn, Int.toNat_ofNat]
      rw [hend] at hc2
      exact hc2

end Correctors

section CorrectorClaims

open Intrinsics

variable {F : Type}

/-- The buffer that the constructor of `Image` requests holds at least `size()` values
whenever `size()` is not negative. -/
theorem aligned_size_holds_size (w h c : Int)
    (h0 : 0 ≤ wrap_int (wrap_int (w * h) * c)) :
    4 * wrap_int (wrap_int (w * h) * c) ≤ (Image.aligned_size w h c : Int) := by
  have hr := wrap_int_range (wrap_int (w * h) * c)
  unfold Image.aligned_size
  generalize wrap_int (wrap_int (w * h) * c) = s at h0 hr
  simp only
  omega

/-- For a `size()` below -7 the constructor of `Image` requests at least `2^63` bytes, so an
image that has a buffer has a `size()` of at least -7. -/
theorem aligned_size_of_negative (w h c : Int)
    (h0 : wrap_int (wrap_int (w * h) * c) < -7) :
    9223372036854775808 ≤ Image.aligned_size w h c := by
  have hr := wrap_int_range (wrap_int (w * h) * c)
  unfold Image.aligned_size
  generalize wrap_int (wrap_int (w * h) * c) = s at h0 hr
  simp only
  omega

/-- Buffers that hold at least `size` values, lie in the memory and are one buffer or
disjoint buffers are placed as the correctors need. -/
theorem placed_of_buffers (memory : List F) (input_data output_data : Pointer) (size : Int)
    (hin : size ≤ (input_data.extent : Int)) (hout : size ≤ (output_data.extent : Int))
    (hmi : input_data.address + input_data.extent ≤ memory.length)
    (hmo : output_data.address + output_data.extent ≤ memory.length)
    (hobj : input_data = output_data ∨
      input_data.address + input_data.extent ≤ output_data.address ∨
      output_data.address + output_data.extent ≤ input_data.address) :
    Placed memory input_data output_data size.toNat := by
  have hsep : output_data.address ≤ input_data.address ∨
      input_data.address + size.toNat ≤ output_data.address := by
    rcases hobj with h | h | h
    · rw [h]
      exact Or.inl (Nat.le_refl _)
    · exact Or.inr (by omega)
    · exact Or.inl (by omega)
  exact ⟨by omega, by omega, by omega, by omega, hsep⟩

theorem corrected_products (mul : F → F → F) (memory : List F)
    (input_data output_data : Pointer) (red_mult green_mult blue_mult : F) (size : Int)
    (result : List F) (hp : Placed memory input_data output_data size.toNat)
    (hc : Corrected mul memory input_data output_data red_mult green_mult blue_mult
      size.toNat result) :
    result.length = memory.length ∧
    (∀ i : Nat, (i : Int) < size → ∃ x, memory[input_data.address + i]? = some x ∧
      result[output_data.address + i]? = some (mul x
        (if i % 3 = 0 then red_mult else if i % 3 = 1 then green_mult else blue_mult))) ∧
    (∀ a : Nat, ¬ (output_data.address ≤ a ∧ (a : Int) < output_data.address + size) →
      result[a]? = memory[a]?) := by
  obtain ⟨hlen, hpt⟩ := hc
  obtain ⟨_, _, hmi, _, _⟩ := hp
  refine ⟨hlen, ?_, ?_⟩
  · intro i hi
    have c1 : output_data.address ≤ output_data.address + i ∧
        output_data.address + i < output_data.address + size.toNat := by omega
    have e : output_data.address + i - output_data.address = i := by omega
    obtain ⟨x, hget⟩ : ∃ x, memory[input_data.address + i]? = some x :=
      ⟨_, List.getElem?_eq_getElem (by omega)⟩
    refine ⟨x, hget, ?_⟩
    rw [hpt, if_pos c1, e, hget]
    rfl
  · intro a ha
    have c1 : ¬ (output_data.address ≤ a ∧ a < output_data.address + size.toNat) := by omega
    rw [hpt, if_neg c1]

/-- C15 (amended): for every input image whose size (the `int` product of its members) is a
multiple of 3, with the buffers of the input and of the output image holding at least that
many values and being one buffer or two disjoint buffers, `SequentialCorrector::apply`
returns, and afterwards the output buffer holds at every index `i` below the size the
product of the value `input[i]` had before the call and the coefficient of channel `i mod 3`
(red, green, blue). No other value of the memory is changed, so no index at or beyond the
size is written, and when the input is another image than the output the whole input buffer
is as before. -/
theorem sequential_apply_products (mul : F → F → F) (memory : List F) (input output : Image)
    (red_mult green_mult blue_mult : F) (h3 : input.size % 3 = 0)
    (hin : input.size ≤ (input.data.extent : Int))
    (hout : input.size ≤ (output.data.extent : Int))
    (hmi : input.data.address + input.data.extent ≤ memory.length)
    (hmo : output.data.address + output.data.extent ≤ memory.length)
    (hobj : input.data = output.data ∨
      input.data.address + input.data.extent ≤ output.data.address ∨
      output.data.address + output.data.extent ≤ input.data.address) :
    ∃ result,
      SequentialCorrector.apply mul memory input output red_mult green_mult blue_mult =
        .ok result ∧
      result.length = memory.length ∧
      (∀ i : Nat, (i : Int) < input.size → ∃ x, memory[input.data.address + i]? = some x ∧
        result[output.data.address + i]? = some (mul x
          (if i % 3 = 0 then red_mult else if i % 3 = 1 then green_mult else blue_mult))) ∧
      (∀ a : Nat,
        ¬ (output.data.address ≤ a ∧ (a : Int) < output.data.address + input.size) →
        result[a]? = memory[a]?) ∧
      (input.data ≠ output.data → ∀ i : Nat, i < input.data.extent →
        result[input.data.address + i]? = memory[input.data.address + i]?) := by
  have hp := placed_of_buffers memory input.data output.data input.size hin hout hmi hmo hobj
  obtain ⟨result, hres, hc⟩ :=
    sequential_apply_corrected mul memory input output red_mult green_mult blue_mult h3 hp
  obtain ⟨h1, h2, h4⟩ := corrected_products mul memory input.data output.data red_mult
    green_mult blue_mult input.size result hp hc
  refine ⟨result, hres, h1, h2, h4, ?_⟩
  intro hne i hi
  apply h4
  rcases hobj with h | h | h
  · exact absurd h hne
  · omega
  · omega

/-- C15 on the image that `Image(3, 1431655766, 3)` is, whose `size()` is 6 and whose buffer
holds 8 values, with coefficients 10, 100 and 1000: the output buffer of another such image
receives the six products of the input values 1 to 6 and keeps its last two values, and the
input buffer is as before. -/
theorem sequential_apply_products_witness :
    Image.size
      { data := { address := 0, extent := 8 }, width := 3, height := 1431655766,
        channels := 3 } = 6 ∧
    Image.aligned_size 3 1431655766 3 = 32 ∧
    SequentialCorrector.apply (fun x y : Int => x * y)
        [1, 2, 3, 4, 5, 6, 0, 0, 9, 9, 9, 9, 9, 9, 7, 7]
        { data := { address := 0, extent := 8 }, width := 3, height := 1431655766,
          channels := 3 }
        { data := { address := 8, extent := 8 }, width := 3, height := 1431655766,
          channels := 3 }
        10 100 1000 =
      .ok [1, 2, 3, 4, 5, 6, 0, 0, 10, 200, 3000, 40, 500, 6000, 7, 7] ∧
    ∃ result,
      SequentialCorrector.apply (fun x y : Int => x * y)
        [1, 2, 3, 4, 5, 6, 0, 0, 9, 9, 9, 9, 9, 9, 7, 7]
        { data := { address := 0, extent := 8 }, width := 3, height := 1431655766,
          channels := 3 }
        { data := { address := 8, extent := 8 }, width := 3, height := 1431655766,
          channels := 3 }
        10 100 1000 = .ok result ∧ result.length = 16 :=
  ⟨by decide, by decide, by decide,
    (sequential_apply_products (fun x y : Int => x * y)
      [1, 2, 3, 4, 5, 6, 0, 0, 9, 9, 9, 9, 9, 9, 7, 7]
      { data := { address := 0, extent := 8 }, width := 3, height := 1431655766,
        channels := 3 }
      { data := { address := 8, extent := 8 }, width := 3, height := 1431655766,
        channels := 3 }
      10 100 1000 (by decide) (by decide) (by decide) (by decide) (by decide)
      (by decide)).imp (fun _ h => ⟨h.1, h.2.1⟩)⟩

/-- C15 as stated fails when one image is passed as input and as output: for the image
`Image(1, 1, 3)` with the values 1, 2, 3 and coefficients 10, 100 and 1000 the call returns
and the buffer of the input holds 10, 200, 3000 afterwards, so the input is not left
unchanged. -/
theorem sequential_apply_overwrites_input :
    SequentialCorrector.apply (fun x y : Int => x * y) [1, 2, 3, 0, 0, 0, 0, 0]
        { data := { address := 0, extent := 8 }, width := 1, height := 1, channels := 3 }
        { data := { address := 0, extent := 8 }, width := 1, height := 1, channels := 3 }
        10 100 1000 = .ok [10, 200, 3000, 0, 0, 0, 0, 0] ∧
    Image.size
      { data := { address := 0, extent := 8 }, width := 1, height := 1, channels := 3 } % 3
      = 0 ∧
    ¬ ∀ i : Nat, i < 3 →
      ([10, 200, 3000, 0, 0, 0, 0, 0] : List Int)[0 + i]? =
        ([1, 2, 3, 0, 0, 0, 0, 0] : List Int)[0 + i]? :=
  ⟨by decide, by decide, fun h => absurd (h 0 (by decide)) (by decide)⟩

/-- C19: for every input image whose size (the `int` product of its members) is a multiple
of 3 (a multiple of 24 or not, below 24 or not) and not so far below zero that `size - 24`
leaves the range of `int`, with the buffers of the input and of the output image holding at
least that many values and being one buffer or two disjoint buffers, `AVXCorrector::apply`
ends exactly as `SequentialCorrector::apply` does: it returns, the output buffer holds at
every index `i` below the size the product of the value `input[i]` had before the call and
the coefficient of channel `i mod 3`, and no other value of the memory is changed (the
buffers may hold exactly `size` values, so nothing at or beyond the size is read). The three
vectors of coefficients, one after the other, carry the coefficient of channel `j mod 3` at
offset `j` of a block, and the loop over single pixels starts at a multiple of 3. -/
theorem avx_apply_eq_sequential (mul : F → F → F) (memory : List F) (input output : Image)
    (red_mult green_mult blue_mult : F) (h3 : input.size % 3 = 0)
    (hlow : -2147483648 + 24 ≤ input.size)
    (hin : input.size ≤ (input.data.extent : Int))
    (hout : input.size ≤ (output.data.extent : Int))
    (hmi : input.data.address + input.data.extent ≤ memory.length)
    (hmo : output.data.address + output.data.extent ≤ memory.length)
    (hobj : input.data = output.data ∨
      input.data.address + input.data.extent ≤ output.data.address ∨
      output.data.address + output.data.extent ≤ input.data.address) :
    AVXCorrector.apply mul memory input output red_mult green_mult blue_mult =
      SequentialCorrector.apply mul memory input output red_mult green_mult blue_mult ∧
    (∃ result,
      AVXCorrector.apply mul memory input output red_mult green_mult blue_mult = .ok result ∧
      result.length = memory.length ∧
      (∀ i : Nat, (i : Int) < input.size → ∃ x, memory[input.data.address + i]? = some x ∧
        result[output.data.address + i]? = some (mul x
          (if i % 3 = 0 then red_mult else if i % 3 = 1 then green_mult else blue_mult))) ∧
      (∀ a : Nat,
        ¬ (output.data.address ≤ a ∧ (a : Int) < output.data.address + input.size) →
        result[a]? = memory[a]?)) ∧
    (∀ j : Nat, j < 24 →
      (_mm256_setr_ps red_mult green_mult blue_mult red_mult green_mult blue_mult red_mult
          green_mult ++
        _mm256_setr_ps blue_mult red_mult green_mult blue_mult red_mult green_mult blue_mult
          red_mult ++
        _mm256_setr_ps green_mult blue_mult red_mult green_mult blue_mult red_mult green_mult
          blue_mult)[j]? =
        some (if j % 3 = 0 then red_mult else if j % 3 = 1 then green_mult else blue_mult)) ∧
    (0 + 24 * (for_range 0 (wrap_int (input.size - 24) + 1) 24).length) % 3 = 0 := by
  have hp := placed_of_buffers memory input.data output.data input.size hin hout hmi hmo hobj
  obtain ⟨data1, hres1, hc1⟩ :=
    avx_apply_corrected mul memory input output red_mult green_mult blue_mult h3 hlow hp
  obtain ⟨data2, hres2, hc2⟩ :=
    sequential_apply_corrected mul memory input output red_mult green_mult blue_mult h3 hp
  have heq := corrected_unique mul _ _ _ _ _ _ _ data1 data2 hc1 hc2
  obtain ⟨h1, h2, h4⟩ := corrected_products mul memory input.data output.data red_mult
    green_mult blue_mult input.size data1 hp hc1
  refine ⟨by rw [hres1, hres2, heq], ⟨data1, hres1, h1, h2, h4⟩, ?_, by omega⟩
  intro j hj
  interval_cases j <;> rfl

/-- C19 on an image of nine pixels (27 values, one block of 24 and one pixel in the tail)
with a buffer of 32 values, the output being another such image: both correctors end in the
same way. On the image that `Image(3, 1431655766, 3)` is, whose `size()` is 6, and on one
image of eight pixels passed as input and as output, the memory after `AVXCorrector::apply`
holds the products. -/
theorem avx_apply_eq_sequential_witness :
    AVXCorrector.apply (fun x y : Int => x * y) (List.replicate 32 2 ++ List.replicate 32 0)
        { data := { address := 0, extent := 32 }, width := 9, height := 1, channels := 3 }
        { data := { address := 32, extent := 32 }, width := 9, height := 1, channels := 3 }
        10 100 1000 =
      SequentialCorrector.apply (fun x y : Int => x * y)
        (List.replicate 32 2 ++ List.replicate 32 0)
        { data := { address := 0, extent := 32 }, width := 9, height := 1, channels := 3 }
        { data := { address := 32, extent := 32 }, width := 9, height := 1, channels := 3 }
        10 100 1000 ∧
    AVXCorrector.apply (fun x y : Int => x * y)
        [1, 2, 3, 4, 5, 6, 0, 0, 9, 9, 9, 9, 9, 9, 7, 7]
        { data := { address := 0, extent := 8 }, width := 3, height := 1431655766,
          channels := 3 }
        { data := { address := 8, extent := 8 }, width := 3, height := 1431655766,
          channels := 3 }
        10 100 1000 =
      .ok [1, 2, 3, 4, 5, 6, 0, 0, 10, 200, 3000, 40, 500, 6000, 7, 7] ∧
    AVXCorrector.apply (fun x y : Int => x * y) (List.replicate 24 2)
        { data := { address := 0, extent := 24 }, width := 8, height := 1, channels := 3 }
        { data := { address := 0, extent := 24 }, width := 8, height := 1, channels := 3 }
        10 100 1000 =
      .ok [20, 200, 2000, 20, 200, 2000, 20, 200, 2000, 20, 200, 2000, 20, 200, 2000, 20, 200,
        2000, 20, 200, 2000, 20, 200, 2000] :=
  ⟨(avx_apply_eq_sequential (fun x y : Int => x * y)
      (List.replicate 32 2 ++ List.replicate 32 0)
      { data := { address := 0, extent := 32 }, width := 9, height := 1, channels := 3 }
      { data := { address := 32, extent := 32 }, width := 9, height := 1, channels := 3 }
      10 100 1000 (by decide) (by decide) (by decide) (by decide) (by decide) (by decide)
      (by decide)).1, by decide, by decide⟩

end CorrectorClaims

section Filenames

open Intrinsics

theorem find_last_of_clean (s chars : List Char) (h : ∀ c ∈ s, c ∉ chars) :
    find_last_of s chars = none := by
  induction s with
  | nil => rfl
  | cons c rest ih =>
    have h1 : find_last_of rest chars = none :=
      ih (fun x hx => h x (List.mem_cons_of_mem _ hx))
    have h2 : chars.contains c = false := by
      simpa using h c (List.mem_cons_self _ _)
    simp only [find_last_of, h1, h2, Bool.false_eq_true, if_false]

theorem find_last_of_after (s chars : List Char) :
    (find_last_of s chars = none → ∀ c ∈ s, c ∉ chars) ∧
    (∀ i, find_last_of s chars = some i →
      i < s.length ∧ ∀ c ∈ s.drop (i + 1), c ∉ chars) := by
  induction s with
  | nil =>
    exact ⟨fun _ c hc => absurd hc (List.not_mem_nil c), fun i h => by cases h⟩
  | cons c rest ih =>
    obtain ⟨ih1, ih2⟩ := ih
    cases hrest : find_last_of rest chars with
    | some p =>
      obtain ⟨hp1, hp2⟩ := ih2 p hrest
      constructor
      · intro h
        simp only [find_last_of, hrest] at h
        cases h
      · intro i h
        simp only [find_last_of, hrest, Option.some.injEq] at h
        subst h
        exact ⟨by simp only [List.length_cons]; omega, by simpa using hp2⟩
    | none =>
      have hclean := ih1 hrest
      by_cases hc : chars.contains c = true
      · constructor
        · intro h
          simp only [find_last_of, hrest, hc, if_true] at h
          cases h
        · intro i h
          simp only [find_last_of, hrest, hc, if_true, Option.some.injEq] at h
          subst h
          exact ⟨by simp only [List.length_cons]; omega, by simpa using hclean⟩
      · constructor
        · intro _ x hx
          rcases List.mem_cons.1 hx with h | h
          · subst h
            simpa using hc
          · exact hclean x h
        · intro i h
          simp only [find_last_of, hrest, hc, Bool.false_eq_true, if_false] at h
          cases h

theorem find_last_of_marked (a b chars : List Char) (c : Char) (hc : c ∈ chars)
    (hb : ∀ x ∈ b, x ∉ chars) : find_last_of (a ++ c :: b) chars = some a.length := by
  induction a with
  | nil =>
    have h1 := find_last_of_clean b chars hb
    have h2 : chars.contains c = true := by simpa using hc
    simp only [List.nil_append, find_last_of, h1, h2, if_true, List.length_nil]
  | cons x rest ih =>
    have h : find_last_of (x :: (rest ++ c :: b)) chars =
        (match find_last_of (rest ++ c :: b) chars with
          | some i => some (i + 1)
          | none => if chars.contains x then some 0 else none) := rfl
    rw [List.cons_append, h, ih, List.length_cons]

theorem find_last_of_append_clean (a b chars : List Char) (hb : ∀ x ∈ b, x ∉ chars) :
    find_last_of (a ++ b) chars = find_last_of a chars := by
  induction a with
  | nil =>
    rw [List.nil_append, find_last_of_clean b chars hb]
    rfl
  | cons x rest ih =>
    have h : find_last_of (x :: (rest ++ b)) chars =
        (match find_last_of (rest ++ b) chars with
          | some i => some (i + 1)
          | none => if chars.contains x then some 0 else none) := rfl
    rw [List.cons_append, h, ih]
    rfl

theorem mem_slashes (c : Char) : c ∈ ['/', backslash] ↔ c = '/' ∨ c = backslash := by
  simp

/-- C16: `get_filename_without_ext` returns the stem of every path built from a directory
part, a separator `/` or backslash, a stem and an extension after the last dot, where stem
and extension hold no separator and the extension no dot; for every path at all it returns
a string without `/` and without backslash; and when the part after the last separator
holds no dot, that part is returned whole, whatever dots the directory part has. -/
theorem filename_without_ext (path dir stem ext name : List Char) (sep : Char)
    (hsep : sep = '/' ∨ sep = backslash)
    (hstem : '/' ∉ stem ∧ backslash ∉ stem)
    (hext : '/' ∉ ext ∧ backslash ∉ ext ∧ '.' ∉ ext)
    (hname : '/' ∉ name ∧ backslash ∉ name ∧ '.' ∉ name) :
    get_filename_without_ext (dir ++ [sep] ++ stem ++ ['.'] ++ ext) = .ok stem ∧
    (∃ r, get_filename_without_ext path = .ok r ∧ '/' ∉ r ∧ backslash ∉ r) ∧
    get_filename_without_ext (dir ++ [sep] ++ name) = .ok name := by
  have hsepm : sep ∈ ['/', backslash] := (mem_slashes sep).2 hsep
  have hdot1 : ¬ ('.' = '/' ∨ '.' = backslash) := by decide
  refine ⟨?_, ?_, ?_⟩
  · have e1 : dir ++ [sep] ++ stem ++ ['.'] ++ ext = dir ++ sep :: (stem ++ '.' :: ext) := by
      simp
    have e2 : dir ++ [sep] ++ stem ++ ['.'] ++ ext = (dir ++ [sep] ++ stem) ++ '.' :: ext := by
      simp
    have e3 : dir ++ [sep] ++ stem ++ ['.'] ++ ext = (dir ++ [sep]) ++ (stem ++ '.' :: ext) := by
      simp
    have hs : find_last_of (dir ++ [sep] ++ stem ++ ['.'] ++ ext) ['/', backslash] =
        some dir.length := by
      rw [e1]
      apply find_last_of_marked _ _ _ _ hsepm
      intro x hx hxs
      rcases (mem_slashes x).1 hxs with h | h
      · subst h
        rcases List.mem_append.1 hx with h2 | h2
        · exact hstem.1 h2
        · rcases List.mem_cons.1 h2 with h3 | h3
          · exact absurd h3.symm (by decide)
          · exact hext.1 h3
      · subst h
        rcases List.mem_append.1 hx with h2 | h2
        · exact hstem.2 h2
        · rcases List.mem_cons.1 h2 with h3 | h3
          · exact absurd h3.symm (by decide)
          · exact hext.2.1 h3
    have hd : find_last_of (dir ++ [sep] ++ stem ++ ['.'] ++ ext) ['.'] =
        some (dir.length + 1 + stem.length) := by
      have hl : (dir ++ [sep] ++ stem).length = dir.length + 1 + stem.length := by
        simp only [List.length_append, List.length_cons, List.length_nil]
      rw [e2, find_last_of_marked _ _ _ '.' (by simp) (fun x hx hxd => by
        have : x = '.' := by simpa using hxd
        subst this
        exact hext.2.2 hx), hl]
    have hlen : dir.length + 1 ≤ (dir ++ [sep] ++ stem ++ ['.'] ++ ext).length := by
      simp only [List.length_append, List.length_cons, List.length_nil]
      omega
    have hnl : ¬ dir.length + 1 + stem.length < dir.length + 1 := by omega
    have hsub : dir.length + 1 + stem.length - (dir.length + 1) = stem.length := by omega
    have hdl : (dir ++ [sep]).length = dir.length + 1 := by simp
    simp only [get_filename_without_ext, hs, hd, substr, hlen, if_true, hnl, if_false, hsub]
    rw [e3, ← hdl, List.drop_left, List.take_left]
  · cases hs : find_last_of path ['/', backslash] with
    | none =>
      have hclean := (find_last_of_after path ['/', backslash]).1 hs
      refine ⟨(path.drop 0).take
        ((match find_last_of path ['.'] with
          | none => path.length
          | some d => if d < 0 then path.length else d) - 0), ?_, ?_, ?_⟩
      · simp only [get_filename_without_ext, hs, substr, Nat.zero_le, if_true]
      · intro h
        exact hclean '/' (List.mem_of_mem_drop (List.mem_of_mem_take h)) (by simp)
      · intro h
        exact hclean backslash (List.mem_of_mem_drop (List.mem_of_mem_take h)) (by simp)
    | some p =>
      obtain ⟨hp, hclean⟩ := (find_last_of_after path ['/', backslash]).2 p hs
      have hlen : p + 1 ≤ path.length := by omega
      refine ⟨(path.drop (p + 1)).take
        ((match find_last_of path ['.'] with
          | none => path.length
          | some d => if d < p + 1 then path.length else d) - (p + 1)), ?_, ?_, ?_⟩
      · simp only [get_filename_without_ext, hs, substr, hlen, if_true]
      · intro h
        exact hclean '/' (List.mem_of_mem_take h) (by simp)
      · intro h
        exact hclean backslash (List.mem_of_mem_take h) (by simp)
  · have e1 : dir ++ [sep] ++ name = dir ++ sep :: name := by simp
    have hs : find_last_of (dir ++ [sep] ++ name) ['/', backslash] = some dir.length := by
      rw [e1]
      apply find_last_of_marked _ _ _ _ hsepm
      intro x hx hxs
      rcases (mem_slashes x).1 hxs with h | h
      · subst h
        exact hname.1 hx
      · subst h
        exact hname.2.1 hx
    have hd : find_last_of (dir ++ [sep] ++ name) ['.'] = find_last_of (dir ++ [sep]) ['.'] :=
      find_last_of_append_clean _ _ _ (fun x hx hxd => by
        have : x = '.' := by simpa using hxd
        subst this
        exact hname.2.2 hx)
    have hdl : (dir ++ [sep]).length = dir.length + 1 := by simp
    have hlen : dir.length + 1 ≤ (dir ++ [sep] ++ name).length := by
      simp only [List.length_append, List.length_cons, List.length_nil]
      omega
    have hlen2 : (dir ++ [sep] ++ name).length - (dir.length + 1) = name.length := by
      simp only [List.length_append, List.length_cons, List.length_nil]
      omega
    have hstop : (match find_last_of (dir ++ [sep]) ['.'] with
        | none => (dir ++ [sep] ++ name).length
        | some d => if d < dir.length + 1 then (dir ++ [sep] ++ name).length else d) =
        (dir ++ [sep] ++ name).length := by
      cases hq : find_last_of (dir ++ [sep]) ['.'] with
      | none => rfl
      | some d =>
        have hdlt := ((find_last_of_after (dir ++ [sep]) ['.']).2 d hq).1
        rw [hdl] at hdlt
        simp only [hdlt, if_true]
    simp only [get_filename_without_ext, hs, hd, substr, hlen, if_true, hstop, hlen2]
    rw [← hdl, List.drop_left, List.take_of_length_le (le_refl _)]

/-- C16 on the paths `a/b.tar.gz` and `dir.v2/name`: the results are `b.tar` and `name`. -/
theorem filename_without_ext_witness :
    get_filename_without_ext "a/b.tar.gz".toList = .ok "b.tar".toList ∧
    get_filename_without_ext "dir.v2/name".toList = .ok "name".toList ∧
    get_filename_without_ext ("a".toList ++ ['/'] ++ "b.tar".toList ++ ['.'] ++ "gz".toList) =
      .ok "b.tar".toList :=
  ⟨by decide, by decide,
    (filename_without_ext [] "a".toList "b.tar".toList "gz".toList [] '/' (Or.inl rfl)
      (by decide) (by decide) (by decide)).1⟩

end Filenames

section Chunks

theorem mpi_start_nat (n w k : Nat) :
    MPI.start_idx (n : Int) (w : Int) (k : Int) =
      ((k * (n / w) + min k (n % w) : Nat) : Int) := by
  unfold MPI.start_idx MPI.chunk_size MPI.remainder
  rw [Int.tdiv_eq_ediv (Int.ofNat_nonneg n) (Int.ofNat_nonneg w),
    Int.tmod_eq_emod (Int.ofNat_nonneg n) (Int.ofNat_nonneg w)]
  push_cast
  rfl

theorem mpi_end_nat (n w k : Nat) :
    MPI.end_idx (n : Int) (w : Int) (k : Int) =
      (((k + 1) * (n / w) + min (k + 1) (n % w) : Nat) : Int) := by
  unfold MPI.end_idx
  rw [mpi_start_nat]
  unfold MPI.chunk_size MPI.remainder
  rw [Int.tdiv_eq_ediv (Int.ofNat_nonneg n) (Int.ofNat_nonneg w),
    Int.tmod_eq_emod (Int.ofNat_nonneg n) (Int.ofNat_nonneg w)]
  have e1 : (k + 1) * (n / w) = k * (n / w) + n / w := Nat.succ_mul _ _
  have hq : ((n : Int) / (w : Int)) = ((n / w : Nat) : Int) := by push_cast; rfl
  have hr : ((n : Int) % (w : Int)) = ((n % w : Nat) : Int) := by push_cast; rfl
  rw [hq, hr]
  by_cases hk : k < n % w
  · have hk2 : (k : Int) < ((n % w : Nat) : Int) := by exact_mod_cast hk
    rw [if_pos hk2]
    omega
  · have hk2 : ¬ (k : Int) < ((n % w : Nat) : Int) := by
      intro h
      exact hk (by exact_mod_cast h)
    rw [if_neg hk2]
    omega

/-- C20: for every `data_size ≥ 0` and every `group_size ≥ 1` (also above `data_size`), the
index ranges that `main` of task4_mpi computes for the ranks `0 .. group_size-1` of a group
are given by the stated formulas (the `int` division is the floor here), start at 0, each
end where the next starts, end at `data_size`, stay within `0 .. data_size`, and every data
index lies in the range of exactly one rank. -/
theorem mpi_chunks_cover (data_size group_size : Int) (hd : 0 ≤ data_size)
    (hg : 1 ≤ group_size) :
    MPI.start_idx data_size group_size 0 = 0 ∧
    (∀ r : Int, 0 ≤ r → r < group_size →
      MPI.start_idx data_size group_size r =
        r * (data_size / group_size) + min r (data_size % group_size) ∧
      MPI.end_idx data_size group_size r =
        MPI.start_idx data_size group_size r + data_size / group_size +
          (if r < data_size % group_size then 1 else 0)) ∧
    (∀ r : Int, 0 ≤ r → r + 1 < group_size →
      MPI.end_idx data_size group_size r = MPI.start_idx data_size group_size (r + 1)) ∧
    MPI.end_idx data_size group_size (group_size - 1) = data_size ∧
    (∀ r : Int, 0 ≤ r → r < group_size →
      0 ≤ MPI.start_idx data_size group_size r ∧
      MPI.start_idx data_size group_size r ≤ MPI.end_idx data_size group_size r ∧
      MPI.end_idx data_size group_size r ≤ data_size) ∧
    (∀ i : Int, 0 ≤ i → i < data_size →
      ∃! r : Int, 0 ≤ r ∧ r < group_size ∧
        MPI.start_idx data_size group_size r ≤ i ∧ i < MPI.end_idx data_size group_size r) := by
  obtain ⟨n, hn⟩ : ∃ n : Nat, data_size = (n : Int) :=
    ⟨data_size.toNat, (Int.toNat_of_nonneg hd).symm⟩
  obtain ⟨w, hw⟩ : ∃ w : Nat, group_size = (w : Int) :=
    ⟨group_size.toNat, (Int.toNat_of_nonneg (by omega)).symm⟩
  subst hn hw
  have hwpos : 0 < w := by omega
  have hend := div_mul_add_min n w hwpos
  have hdiv : ((n : Int) / (w : Int)) = ((n / w : Nat) : Int) := by push_cast; rfl
  have hmod : ((n : Int) % (w : Int)) = ((n % w : Nat) : Int) := by push_cast; rfl
  have hbound : ∀ k : Nat, k < w → (k + 1) * (n / w) + min (k + 1) (n % w) ≤ n := by
    intro k hk
    have := range_start_mono (n / w) (n % w) (k + 1) w (by omega)
    omega
  refine ⟨?_, ?_, ?_, ?_, ?_, ?_⟩
  · have h := mpi_start_nat n w 0
    simp only [Nat.cast_zero] at h
    rw [h]
    simp
  · intro r hr0 hr1
    obtain ⟨k, hk⟩ : ∃ k : Nat, r = (k : Int) := ⟨r.toNat, (Int.toNat_of_nonneg hr0).symm⟩
    subst hk
    constructor
    · rw [mpi_start_nat, hdiv, hmod]
      push_cast
      rfl
    · unfold MPI.end_idx MPI.chunk_size MPI.remainder
      rw [Int.tdiv_eq_ediv (Int.ofNat_nonneg n) (Int.ofNat_nonneg w),
        Int.tmod_eq_emod (Int.ofNat_nonneg n) (Int.ofNat_nonneg w)]
  · intro r hr0 hr1
    obtain ⟨k, hk⟩ : ∃ k : Nat, r = (k : Int) := ⟨r.toNat, (Int.toNat_of_nonneg hr0).symm⟩
    subst hk
    have h := mpi_start_nat n w (k + 1)
    rw [mpi_end_nat]
    rw [← h]
    push_cast
    rfl
  · have hw1 : ((w : Int) - 1) = ((w - 1 : Nat) : Int) := by omega
    have hw2 : w - 1 + 1 = w := by omega
    rw [hw1, mpi_end_nat, hw2, hend]
  · intro r hr0 hr1
    obtain ⟨k, hk⟩ : ∃ k : Nat, r = (k : Int) := ⟨r.toNat, (Int.toNat_of_nonneg hr0).symm⟩
    subst hk
    have hk2 : k < w := by omega
    have h1 := range_start_mono (n / w) (n % w) k (k + 1) (by omega)
    have h2 := hbound k hk2
    rw [mpi_start_nat, mpi_end_nat]
    refine ⟨Int.ofNat_nonneg _, by exact_mod_cast h1, by exact_mod_cast h2⟩
  · intro i hi0 hi1
    obtain ⟨j, hj⟩ : ∃ j : Nat, i = (j : Int) := ⟨i.toNat, (Int.toNat_of_nonneg hi0).symm⟩
    subst hj
    have hjn : j < n := by omega
    obtain ⟨k, hk, h1, h2⟩ :=
      exists_step_between (fun k => k * (n / w) + min k (n % w)) w j (by simp) (by
        show j < w * (n / w) + min w (n % w)
        omega)
    refine ⟨(k : Int), ⟨Int.ofNat_nonneg _, by exact_mod_cast hk, ?_, ?_⟩, ?_⟩
    · rw [mpi_start_nat]
      exact_mod_cast h1
    · rw [mpi_end_nat]
      exact_mod_cast h2
    · rintro r ⟨hr0, hr1, hr2, hr3⟩
      obtain ⟨k2, hk2⟩ : ∃ k2 : Nat, r = (k2 : Int) :=
        ⟨r.toNat, (Int.toNat_of_nonneg hr0).symm⟩
      subst hk2
      rw [mpi_start_nat] at hr2
      rw [mpi_end_nat] at hr3
      have hr2n : k2 * (n / w) + min k2 (n % w) ≤ j := by exact_mod_cast hr2
      have hr3n : j < (k2 + 1) * (n / w) + min (k2 + 1) (n % w) := by exact_mod_cast hr3
      have h1n : k * (n / w) + min k (n % w) ≤ j := h1
      have h2n : j < (k + 1) * (n / w) + min (k + 1) (n % w) := h2
      by_contra hne
      have hne2 : k2 ≠ k := fun h => hne (by rw [h])
      rcases Nat.lt_or_gt_of_ne hne2 with hlt | hgt
      · have := range_start_mono (n / w) (n % w) (k2 + 1) k hlt
        omega
      · have := range_start_mono (n / w) (n % w) (k + 1) k2 hgt
        omega

/-- C20 for the 15 values of the program and a group of 4 ranks: the ranges are `[0,4)`,
`[4,8)`, `[8,12)`, `[12,15)`; for a group of 20 ranks the ranks from 15 on get empty
ranges. -/
theorem mpi_chunks_cover_witness :
    (0 : Int) ≤ 15 ∧ (1 : Int) ≤ 4 ∧
    MPI.end_idx 15 4 (4 - 1) = 15 ∧
    (MPI.start_idx 15 4 0, MPI.end_idx 15 4 0) = (0, 4) ∧
    (MPI.start_idx 15 4 1, MPI.end_idx 15 4 1) = (4, 8) ∧
    (MPI.start_idx 15 4 2, MPI.end_idx 15 4 2) = (8, 12) ∧
    (MPI.start_idx 15 4 3, MPI.end_idx 15 4 3) = (12, 15) ∧
    (MPI.start_idx 15 20 17, MPI.end_idx 15 20 17) = (15, 15) :=
  ⟨by decide, by decide, (mpi_chunks_cover 15 4 (by decide) (by decide)).2.2.2.1,
    by decide, by decide, by decide, by decide, by decide⟩

end Chunks

section ExtremaLemmas

variable {D : Type}

theorem mem_int_range (first stop i : Int) :
    i ∈ MPI.int_range first stop ↔ first ≤ i ∧ i < stop := by
  unfold MPI.int_range
  rw [List.mem_map]
  constructor
  · rintro ⟨k, hk, hik⟩
    have hk2 := List.mem_range.1 hk
    omega
  · rintro ⟨h1, h2⟩
    exact ⟨(i - first).toNat, List.mem_range.2 (by omega), by omega⟩

theorem element_ok (data : List D) (i : Int) (h0 : 0 ≤ i) (h1 : i.toNat < data.length) :
    MPI.element data i = .ok data[i.toNat] := by
  have hn : ¬ i < 0 := by omega
  unfold MPI.element
  rw [if_neg hn, List.getElem?_eq_getElem h1]

theorem scan_chunk_spec (le : D → D → Prop) (better : D → D → Bool)
    (htotal : ∀ a b, le a b ∨ le b a) (htrans : ∀ a b c, le a b → le b c → le a c)
    (hbetter : ∀ x y, better x y = true ↔ ¬ le x y) (data : List D) (indices : List Int)
    (acc : D) (hin : ∀ i ∈ indices, 0 ≤ i ∧ i.toNat < data.length) :
    ∃ r, MPI.scan_chunk better data indices acc = .ok r ∧ le acc r ∧ (r = acc ∨ r ∈ data) ∧
      ∀ i ∈ indices, ∀ x, data[i.toNat]? = some x → le x r := by
  have hrefl : ∀ a, le a a := fun a => (htotal a a).elim id id
  induction indices generalizing acc with
  | nil =>
    exact ⟨acc, rfl, hrefl acc, Or.inl rfl, fun i hi => absurd hi (List.not_mem_nil i)⟩
  | cons i rest ih =>
    obtain ⟨h0, h1⟩ := hin i (List.mem_cons_self _ _)
    have hrest : ∀ j ∈ rest, 0 ≤ j ∧ j.toNat < data.length :=
      fun j hj => hin j (List.mem_cons_of_mem _ hj)
    have hget : data[i.toNat]? = some data[i.toNat] := List.getElem?_eq_getElem h1
    unfold MPI.scan_chunk
    rw [element_ok data i h0 h1]
    by_cases hb : better data[i.toNat] acc = true
    · have hle : le acc data[i.toNat] := by
        rcases htotal acc data[i.toNat] with h | h
        · exact h
        · exact absurd h ((hbetter _ _).1 hb)
      obtain ⟨r, hr, hxr, hcase, hall⟩ := ih data[i.toNat] hrest
      simp only [hb, if_true]
      refine ⟨r, hr, htrans _ _ _ hle hxr, ?_, ?_⟩
      · rcases hcase with h | h
        · exact Or.inr (h ▸ List.getElem_mem h1)
        · exact Or.inr h
      · intro j hj x hx
        rcases List.mem_cons.1 hj with h | h
        · subst h
          rw [hget] at hx
          cases hx
          exact hxr
        · exact hall j h x hx
    · have hle : le data[i.toNat] acc := by
        by_contra hcon
        exact hb ((hbetter _ _).2 hcon)
      obtain ⟨r, hr, har, hcase, hall⟩ := ih acc hrest
      simp only [hb, Bool.false_eq_true, if_false]
      refine ⟨r, hr, har, hcase, ?_⟩
      intro j hj x hx
      rcases List.mem_cons.1 hj with h | h
      · subst h
        rw [hget] at hx
        cases hx
        exact htrans _ _ _ hle har
      · exact hall j h x hx

theorem local_result_spec (le : D → D → Prop) (better : D → D → Bool)
    (htotal : ∀ a b, le a b ∨ le b a) (htrans : ∀ a b c, le a b → le b c → le a c)
    (hbetter : ∀ x y, better x y = true ↔ ¬ le x y) (sentinel : D) (data : List D)
    (w k : Nat) (hw : 0 < w) (hk : k < w) (hlen : data.length < 2 ^ 31) :
    ∃ v, MPI.local_result better sentinel data (w : Int) (k : Int) = .ok v ∧
      (v = sentinel ∨ v ∈ data) ∧
      ∀ j : Nat, k * (data.length / w) + min k (data.length % w) ≤ j →
        j < (k + 1) * (data.length / w) + min (k + 1) (data.length % w) →
        ∀ x, data[j]? = some x → le x v := by
  have hend := div_mul_add_min data.length w hw
  have hmono := range_start_mono (data.length / w) (data.length % w) (k + 1) w (by omega)
  unfold MPI.local_result
  rw [static_cast_int_of_lt hlen, mpi_start_nat, mpi_end_nat]
  by_cases hse : k * (data.length / w) + min k (data.length % w) <
      (k + 1) * (data.length / w) + min (k + 1) (data.length % w)
  · have hse2 : ((k * (data.length / w) + min k (data.length % w) : Nat) : Int) <
        (((k + 1) * (data.length / w) + min (k + 1) (data.length % w) : Nat) : Int) := by
      exact_mod_cast hse
    have hs1 : (((k * (data.length / w) + min k (data.length % w) : Nat) : Int)).toNat <
        data.length := by
      rw [Int.toNat_ofNat]
      omega
    rw [if_pos hse2, element_ok data _ (Int.ofNat_nonneg _) hs1]
    obtain ⟨r, hr, hfr, hcase, hall⟩ := scan_chunk_spec le better htotal htrans hbetter data
      (MPI.int_range (((k * (data.length / w) + min k (data.length % w) : Nat) : Int) + 1)
        (((k + 1) * (data.length / w) + min (k + 1) (data.length % w) : Nat) : Int))
      (data[(((k * (data.length / w) + min k (data.length % w) : Nat) : Int)).toNat])
      (fun i hi => by
        have := (mem_int_range _ _ i).1 hi
        omega)
    refine ⟨r, hr, ?_, ?_⟩
    · rcases hcase with h | h
      · exact Or.inr (h ▸ List.getElem_mem hs1)
      · exact Or.inr h
    · intro j hj1 hj2 x hx
      by_cases hjs : j = k * (data.length / w) + min k (data.length % w)
      · have hget : data[(((k * (data.length / w) + min k (data.length % w) : Nat) :
            Int)).toNat]? = some x := by
          rw [Int.toNat_ofNat, ← hjs]
          exact hx
        rw [List.getElem?_eq_getElem hs1] at hget
        cases hget
        exact hfr
      · exact hall (j : Int) ((mem_int_range _ _ _).2 (by omega)) x
          (by rw [Int.toNat_ofNat]; exact hx)
  · have hse2 : ¬ ((k * (data.length / w) + min k (data.length % w) : Nat) : Int) <
        (((k + 1) * (data.length / w) + min (k + 1) (data.length % w) : Nat) : Int) := by
      intro h
      exact hse (by exact_mod_cast h)
    rw [if_neg hse2]
    exact ⟨sentinel, rfl, Or.inl rfl, fun j hj1 hj2 => absurd (lt_of_le_of_lt hj1 hj2) hse⟩

theorem contributions_spec (better : D → D → Bool) (sentinel : D) (data : List D)
    (group_size : Int) (P : Int → D → Prop) (order : List Int)
    (h : ∀ r ∈ order, ∃ v, MPI.local_result better sentinel data group_size r = .ok v ∧ P r v) :
    ∃ vs, MPI.contributions better sentinel data group_size order = .ok vs ∧
      (∀ v ∈ vs, ∃ r ∈ order, P r v) ∧ (∀ r ∈ order, ∃ v ∈ vs, P r v) ∧
      vs.length = order.length := by
  induction order with
  | nil =>
    exact ⟨[], rfl, fun v hv => absurd hv (List.not_mem_nil v),
      fun r hr => absurd hr (List.not_mem_nil r), rfl⟩
  | cons r rest ih =>
    obtain ⟨v, hv, hp⟩ := h r (List.mem_cons_self _ _)
    obtain ⟨vs, hvs, h1, h2, h3⟩ := ih (fun r2 hr2 => h r2 (List.mem_cons_of_mem _ hr2))
    refine ⟨v :: vs, ?_, ?_, ?_, ?_⟩
    · simp only [MPI.contributions, hv, hvs]
    · intro v2 hv2
      rcases List.mem_cons.1 hv2 with h4 | h4
      · exact ⟨r, List.mem_cons_self _ _, h4 ▸ hp⟩
      · obtain ⟨r2, hr2, hp2⟩ := h1 v2 h4
        exact ⟨r2, List.mem_cons_of_mem _ hr2, hp2⟩
    · intro r2 hr2
      rcases List.mem_cons.1 hr2 with h4 | h4
      · exact ⟨v, List.mem_cons_self _ _, h4 ▸ hp⟩
      · obtain ⟨v2, hv2, hp2⟩ := h2 r2 h4
        exact ⟨v2, List.mem_cons_of_mem _ hv2, hp2⟩
    · simp only [List.length_cons, h3]

theorem foldl_op_spec (le : D → D → Prop) (op : D → D → D)
    (htotal : ∀ a b, le a b ∨ le b a) (htrans : ∀ a b c, le a b → le b c → le a c)
    (hop : ∀ a b, (op a b = a ∨ op a b = b) ∧ le a (op a b) ∧ le b (op a b))
    (l : List D) (a : D) :
    le a (l.foldl op a) ∧ (l.foldl op a = a ∨ l.foldl op a ∈ l) ∧
      ∀ v ∈ l, le v (l.foldl op a) := by
  have hrefl : ∀ a, le a a := fun a => (htotal a a).elim id id
  induction l generalizing a with
  | nil => exact ⟨hrefl a, Or.inl rfl, fun v hv => absurd hv (List.not_mem_nil v)⟩
  | cons b rest ih =>
    obtain ⟨h1, h2, h3⟩ := ih (op a b)
    obtain ⟨hc, ha, hb⟩ := hop a b
    simp only [List.foldl_cons]
    refine ⟨htrans _ _ _ ha h1, ?_, ?_⟩
    · rcases h2 with h | h
      · rcases hc with h4 | h4
        · exact Or.inl (by rw [h, h4])
        · exact Or.inr (by rw [h, h4]; exact List.mem_cons_self _ _)
      · exact Or.inr (List.mem_cons_of_mem _ h)
    · intro v hv
      rcases List.mem_cons.1 hv with h | h
      · rw [h]
        exact htrans _ _ _ hb h1
      · exact h3 v h

/-- The reduction over the local results of all ranks of a group yields an element of the
data that is at least as good, in the sense of `le`, as every element of the data. -/
theorem global_result_extremum (le : D → D → Prop) (better : D → D → Bool) (op : D → D → D)
    (htotal : ∀ a b, le a b ∨ le b a) (htrans : ∀ a b c, le a b → le b c → le a c)
    (hbetter : ∀ x y, better x y = true ↔ ¬ le x y)
    (hop : ∀ a b, (op a b = a ∨ op a b = b) ∧ le a (op a b) ∧ le b (op a b))
    (sentinel : D) (data : List D) (w : Nat) (order : List Int) (hw : 1 ≤ w)
    (hne : data ≠ []) (hlen : data.length < 2 ^ 31) (hs : ∀ x ∈ data, ¬ le x sentinel)
    (horder : order.Perm ((List.range w).map (fun k : Nat => (k : Int)))) :
    ∃ m, MPI.global_result better op sentinel data (w : Int) order = .ok (some m) ∧
      m ∈ data ∧ ∀ x ∈ data, le x m := by
  have hpos : 0 < data.length := List.length_pos.2 hne
  have hend := div_mul_add_min data.length w hw
  have hrank : ∀ r ∈ order, ∃ k : Nat, r = (k : Int) ∧ k < w := by
    intro r hr
    obtain ⟨k, hk, hkr⟩ := List.mem_map.1 (horder.mem_iff.1 hr)
    exact ⟨k, hkr.symm, List.mem_range.1 hk⟩
  have hin : ∀ k : Nat, k < w → (k : Int) ∈ order := by
    intro k hk
    exact horder.mem_iff.2 (List.mem_map.2 ⟨k, List.mem_range.2 hk, rfl⟩)
  obtain ⟨vs, hvs, h1, h2, h3⟩ := contributions_spec better sentinel data (w : Int)
    (fun r v => (v = sentinel ∨ v ∈ data) ∧
      ∀ k : Nat, r = (k : Int) → ∀ j : Nat,
        k * (data.length / w) + min k (data.length % w) ≤ j →
        j < (k + 1) * (data.length / w) + min (k + 1) (data.length % w) →
        ∀ x, data[j]? = some x → le x v) order (by
      intro r hr
      obtain ⟨k, hk, hkw⟩ := hrank r hr
      subst hk
      obtain ⟨v, hv, hc, hall⟩ := local_result_spec le better htotal htrans hbetter sentinel
        data w k hw hkw hlen
      refine ⟨v, hv, hc, ?_⟩
      intro k2 hk2
      have : k = k2 := by exact_mod_cast hk2
      subst this
      exact hall)
  have hcover : ∀ x ∈ data, ∃ v ∈ vs, le x v := by
    intro x hx
    obtain ⟨j, hj⟩ := List.mem_iff_getElem?.1 hx
    have hjlt : j < data.length := (List.getElem?_eq_some.1 hj).1
    obtain ⟨k, hk, hk1, hk2⟩ :=
      exists_step_between (fun k => k * (data.length / w) + min k (data.length % w)) w j
        (by simp) (by
          show j < w * (data.length / w) + min w (data.length % w)
          omega)
    obtain ⟨v, hv, _, hall⟩ := h2 (k : Int) (hin k hk)
    exact ⟨v, hv, hall k rfl j hk1 hk2 x hj⟩
  have hlenvs : vs.length = w := by
    rw [h3, horder.length_eq, List.length_map, List.length_range]
  cases vs with
  | nil =>
    simp only [List.length_nil] at hlenvs
    omega
  | cons v rest =>
    obtain ⟨f1, f2, f3⟩ := foldl_op_spec le op htotal htrans hop rest v
    have hmem : rest.foldl op v ∈ v :: rest := by
      rcases f2 with h | h
      · rw [h]
        exact List.mem_cons_self _ _
      · exact List.mem_cons_of_mem _ h
    have hall : ∀ u ∈ v :: rest, le u (rest.foldl op v) := by
      intro u hu
      rcases List.mem_cons.1 hu with h | h
      · rw [h]
        exact f1
      · exact f3 u h
    have hbest : ∀ x ∈ data, le x (rest.foldl op v) := by
      intro x hx
      obtain ⟨u, hu, hxu⟩ := hcover x hx
      exact htrans _ _ _ hxu (hall u hu)
    refine ⟨rest.foldl op v, ?_, ?_, hbest⟩
    · simp only [MPI.global_result, hvs, MPI.MPI_Reduce]
    · obtain ⟨r, _, hc, _⟩ := h1 _ hmem
      rcases hc with h | h
      · obtain ⟨x, hx⟩ := List.exists_mem_of_ne_nil data hne
        have := hbest x hx
        rw [h] at this
        exact absurd this (hs x hx)
      · exact h

end ExtremaLemmas

section ExtremaClaims

variable {D : Type} [LinearOrder D]

/-- C21: for every group size of at least one process, every order in which `MPI_Reduce`
combines the ranks, and every non-empty data array (of fewer than `2^31` values, as
`data.size()` is stored in an `int`) whose values lie strictly between the two sentinels,
`MPI_MAX` over the local results of group 1 (the maximum of the chunk of a rank, or the
sentinel `-1e100` for an empty chunk) is the maximum of the whole array, and `MPI_MIN` over
the local results of group 2 (the chunk minimum, or the sentinel `1e100`) is its minimum;
no rank reads outside the array. The type `D` with its linear order stands for `double`. -/
theorem mpi_group_extrema (data : List D) (neg_sentinel pos_sentinel : D)
    (size1 size2 : Nat) (order1 order2 : List Int)
    (hg1 : 1 ≤ size1) (hg2 : 1 ≤ size2) (hne : data ≠ []) (hlen : data.length < 2 ^ 31)
    (hb : ∀ x ∈ data, neg_sentinel < x ∧ x < pos_sentinel)
    (horder1 : order1.Perm ((List.range size1).map (fun k : Nat => (k : Int))))
    (horder2 : order2.Perm ((List.range size2).map (fun k : Nat => (k : Int)))) :
    (∃ m, MPI.group_maximum neg_sentinel data (size1 : Int) order1 = .ok (some m) ∧
      m ∈ data ∧ ∀ x ∈ data, x ≤ m) ∧
    (∃ m, MPI.group_minimum pos_sentinel data (size2 : Int) order2 = .ok (some m) ∧
      m ∈ data ∧ ∀ x ∈ data, m ≤ x) := by
  constructor
  · exact global_result_extremum (fun a b => a ≤ b) (fun x y => decide (x > y)) max
      (fun a b => le_total a b) (fun a b c h1 h2 => le_trans h1 h2)
      (fun x y => by rw [decide_eq_true_iff]; exact not_le.symm)
      (fun a b => ⟨max_choice a b, le_max_left a b, le_max_right a b⟩)
      neg_sentinel data size1 order1 hg1 hne hlen (fun x hx => not_le.2 (hb x hx).1) horder1
  · exact global_result_extremum (fun a b => b ≤ a) (fun x y => decide (x < y)) min
      (fun a b => le_total b a) (fun a b c h1 h2 => le_trans h2 h1)
      (fun x y => by rw [decide_eq_true_iff]; exact not_le.symm)
      (fun a b => ⟨min_choice a b, min_le_left a b, min_le_right a b⟩)
      pos_sentinel data size2 order2 hg2 hne hlen (fun x hx => not_le.2 (hb x hx).2) horder2

/-- C21 on the data of the program, `1.1, 2.2, ..., 8.8, ..., 1.1`, written in tenths as
integers (sentinels `-1e101` and `1e101` in tenths), with a group of four processes for the
maximum and a group of twenty processes (five of them with an empty chunk) for the minimum:
the results are 8.8 and 1.1. -/
theorem mpi_group_extrema_witness :
    MPI.group_maximum (-(10 : Int) ^ 101)
        [11, 22, 33, 44, 55, 66, 77, 88, 77, 66, 55, 44, 33, 22, 11] 4 [2, 0, 3, 1] =
      .ok (some 88) ∧
    MPI.group_minimum ((10 : Int) ^ 101)
        [11, 22, 33, 44, 55, 66, 77, 88, 77, 66, 55, 44, 33, 22, 11] 20
        ((List.range 20).map (fun k : Nat => (k : Int))) = .ok (some 11) ∧
    (∃ m : Int, MPI.group_minimum ((10 : Int) ^ 101)
        [11, 22, 33, 44, 55, 66, 77, 88, 77, 66, 55, 44, 33, 22, 11]
        ((20 : Nat) : Int) ((List.range 20).map (fun k : Nat => (k : Int))) = .ok (some m) ∧
      ∀ x ∈ ([11, 22, 33, 44, 55, 66, 77, 88, 77, 66, 55, 44, 33, 22, 11] : List Int),
        m ≤ x) :=
  ⟨by decide, by decide,
    (mpi_group_extrema
      ([11, 22, 33, 44, 55, 66, 77, 88, 77, 66, 55, 44, 33, 22, 11] : List Int)
      (-(10 : Int) ^ 101) ((10 : Int) ^ 101) 4 20 [2, 0, 3, 1]
      ((List.range 20).map (fun k : Nat => (k : Int)))
      (by decide) (by decide) (by decide) (by decide) (by decide) (by decide)
      (List.Perm.refl _)).2.imp (fun _ h => ⟨h.1, h.2.2⟩)⟩

end ExtremaClaims
